import Mathlib

/-!
# fnmatch: a shallow embedding of `fnmatch.go`

Go strings are byte sequences (`List Nat`, every element a byte value below 256);
`len` is `List.length`, `s[i]` is byte indexing and `s[n:]` is `List.drop n`.
Runes are code point values, also of type `Nat`.  Flag words are Go `int`s (`Int`).

Two library functions the program calls are not part of the repository:
`utf8.DecodeRuneInString` is written out below following the Go standard library, and
`unicode.ToLower` is a parameter `toLower` of every definition that uses it.

Every loop is written as its body, with the next iteration (or the recursive call) as a
parameter, and is then iterated on a fuel counter started at the length of the string the
loop consumes; the outcome `Res.fuel` records an exhausted counter and is shown never to
be produced.
-/

namespace Fnmatch

/-- A Go string: its bytes. -/
abbrev GoString := List Nat

/-- Outcome of a call: a normal return, a run-time panic (index out of range), or an
exhausted fuel counter. -/
inductive Res (α : Type) where
  | ok : α → Res α
  | panic : Res α
  | fuel : Res α
deriving DecidableEq, Repr

def NoEscape : Int := 1
def Pathname : Int := 2
def Period : Int := 4
def LeadingDir : Int := 8
def CaseFold : Int := 16

/-- The constant `utf8.RuneError` (U+FFFD). -/
def RuneError : Nat := 0xFFFD

/-- Whether `b` lies in the range `lo..hi`. -/
def inRange (lo hi b : Nat) : Bool := decide (lo ≤ b) && decide (b ≤ hi)

/-- Lower end of the range accepted for the second byte after the first byte `s0`
(the table `acceptRanges` of `unicode/utf8`). -/
def acceptLo (s0 : Nat) : Nat := if s0 = 0xE0 then 0xA0 else if s0 = 0xF0 then 0x90 else 0x80

/-- Upper end of the range accepted for the second byte after the first byte `s0`. -/
def acceptHi (s0 : Nat) : Nat := if s0 = 0xED then 0x9F else if s0 = 0xF4 then 0x8F else 0xBF

/-- Decoding of a two-byte sequence with first byte `s0`, `t` being the bytes after it. -/
def decode2 (s0 : Nat) (t : GoString) : Nat × Nat :=
  match t with
  | s1 :: _ =>
    if inRange (acceptLo s0) (acceptHi s0) s1 then ((s0 % 32) * 64 + s1 % 64, 2)
    else (RuneError, 1)
  | _ => (RuneError, 1)

/-- Decoding of a three-byte sequence with first byte `s0`. -/
def decode3 (s0 : Nat) (t : GoString) : Nat × Nat :=
  match t with
  | s1 :: s2 :: _ =>
    if inRange (acceptLo s0) (acceptHi s0) s1 && inRange 0x80 0xBF s2 then
      ((s0 % 16) * 4096 + (s1 % 64) * 64 + s2 % 64, 3)
    else (RuneError, 1)
  | _ => (RuneError, 1)

/-- Decoding of a four-byte sequence with first byte `s0`. -/
def decode4 (s0 : Nat) (t : GoString) : Nat × Nat :=
  match t with
  | s1 :: s2 :: s3 :: _ =>
    if inRange (acceptLo s0) (acceptHi s0) s1 && inRange 0x80 0xBF s2
        && inRange 0x80 0xBF s3 then
      ((s0 % 8) * 262144 + (s1 % 64) * 4096 + (s2 % 64) * 64 + s3 % 64, 4)
    else (RuneError, 1)
  | _ => (RuneError, 1)

/-- The function `utf8.DecodeRuneInString` of the Go standard library: the first code point
of `s` and its width in bytes; `(RuneError, 0)` for the empty string and `(RuneError, 1)`
for an invalid or incomplete encoding. -/
def DecodeRuneInString (s : GoString) : Nat × Nat :=
  match s with
  | [] => (RuneError, 0)
  | s0 :: t =>
    if s0 < 0x80 then (s0, 1)
    else if s0 < 0xC2 then (RuneError, 1)
    else if s0 < 0xE0 then decode2 s0 t
    else if s0 < 0xF0 then decode3 s0 t
    else if s0 < 0xF5 then decode4 s0 t
    else (RuneError, 1)

/-- The function `unpackRune`: the first rune of `s` and the string advanced past it. -/
def unpackRune (s : GoString) : Nat × GoString :=
  ((DecodeRuneInString s).1, s.drop (DecodeRuneInString s).2)

/-- Go's `&` on `int` (two's complement, as `Int.land`), written with the natural-number
operations that evaluate. -/
def andInt : Int → Int → Int
  | Int.ofNat m, Int.ofNat n => Int.ofNat (m &&& n)
  | Int.ofNat m, Int.negSucc n => Int.ofNat (m ^^^ (m &&& n))
  | Int.negSucc m, Int.ofNat n => Int.ofNat (n ^^^ (n &&& m))
  | Int.negSucc m, Int.negSucc n => Int.negSucc (m ||| n)

/-- Whether a flag bit is set in a flag word: `flags & bit != 0`. -/
def hasFlag (flags bit : Int) : Bool := andInt flags bit != 0

/-- The body of the `range` loop of `strchr` at byte offset `i`. -/
def strchrBody (c : Nat) (next : GoString → Nat → Int) (s : GoString) (i : Nat) : Int :=
  if s.length = 0 then -1
  else if (DecodeRuneInString s).1 = c then (i : Int)
  else next (s.drop (DecodeRuneInString s).2) (i + (DecodeRuneInString s).2)

/-- The `range` loop of `strchr`. -/
def strchrLoop (c : Nat) : Nat → GoString → Nat → Int
  | 0 => strchrBody c (fun _ _ => -1)
  | fuel + 1 => strchrBody c (strchrLoop c fuel)

/-- The function `strchr`: byte offset of the first rune of `s` equal to `c`, or `-1`. -/
def strchr (s : GoString) (c : Nat) : Int := strchrLoop c s.length s 0

/-- The function `strings.ContainsRune` for an ASCII rune: a byte search. -/
def ContainsRune (s : GoString) (r : Nat) : Bool := decide (r ∈ s)

/-- How the member loop of `matchRange` ends: it falls through to the skipping loop with
the cursor and the `matched` flag, or the function returns `false` at once. -/
inductive RangeExit where
  | done (pattern : GoString) (matched : Bool)
  | retFalse (pattern : GoString)
deriving DecidableEq, Repr

/-- The body of the first loop of `matchRange` (lines 192-231), which reads members and
ranges while nothing has matched. -/
def rangeBody (toLower : Nat → Nat) (flagNoEscape flagCaseFold : Bool) (test : Nat)
    (next : GoString → Bool → Res RangeExit) (pattern : GoString) (matched : Bool) :
    Res RangeExit :=
  if !matched && decide (pattern.length > 1) && pattern.head? != some 0x5D then
    let c0 := (unpackRune pattern).1
    let p1 := (unpackRune pattern).2
    if !flagNoEscape && c0 == 0x5C && !decide (p1.length > 1) then
      Res.ok (RangeExit.retFalse p1)
    else
      let esc := !flagNoEscape && c0 == 0x5C
      let c1 := if esc then (unpackRune p1).1 else c0
      let p2 := if esc then (unpackRune p1).2 else p1
      let c := if flagCaseFold then toLower c1 else c1
      match p2 with
      | [] => Res.panic
      | b0 :: p2t =>
        if b0 == 0x2D && decide ((b0 :: p2t).length > 1) && p2t.head? != some 0x5D then
          let p3 := (unpackRune (b0 :: p2t)).2
          let c2r := (unpackRune p3).1
          let p4 := (unpackRune p3).2
          if !flagNoEscape && c2r == 0x5C && !decide (p4.length > 0) then
            Res.ok (RangeExit.retFalse p4)
          else
            let esc2 := !flagNoEscape && c2r == 0x5C
            let c2e := if esc2 then (unpackRune p4).1 else c2r
            let p5 := if esc2 then (unpackRune p4).2 else p4
            let c2 := if flagCaseFold then toLower c2e else c2e
            next p5 (if decide (c ≤ test) && decide (test ≤ c2) then true else matched)
        else
          next (b0 :: p2t) (if c == test then true else matched)
  else Res.ok (RangeExit.done pattern matched)

/-- The first loop of `matchRange`. -/
def rangeLoop (toLower : Nat → Nat) (flagNoEscape flagCaseFold : Bool) (test : Nat) :
    Nat → GoString → Bool → Res RangeExit
  | 0 => rangeBody toLower flagNoEscape flagCaseFold test (fun _ _ => Res.fuel)
  | fuel + 1 => rangeBody toLower flagNoEscape flagCaseFold test
      (rangeLoop toLower flagNoEscape flagCaseFold test fuel)

/-- The body of the second loop of `matchRange` (lines 234-242), which skips to the closing
bracket. -/
def skipBody (next : GoString → Bool → Res (Bool × GoString)) (pattern : GoString)
    (ok : Bool) : Res (Bool × GoString) :=
  if !ok && decide (pattern.length > 0) then
    let c := (unpackRune pattern).1
    let p1 := (unpackRune pattern).2
    if c == 0x5C && decide (p1.length > 0) then next (unpackRune p1).2 ok
    else if c == 0x5D then next p1 true
    else next p1 ok
  else Res.ok (ok, pattern)

/-- The second loop of `matchRange`. -/
def skipLoop : Nat → GoString → Bool → Res (Bool × GoString)
  | 0 => skipBody (fun _ _ => Res.fuel)
  | fuel + 1 => skipBody (skipLoop fuel)

/-- The first loop of `matchRange`, run on `pattern`. -/
def rangeRun (toLower : Nat → Nat) (flagNoEscape flagCaseFold : Bool) (test : Nat)
    (pattern : GoString) (matched : Bool) : Res RangeExit :=
  rangeLoop toLower flagNoEscape flagCaseFold test pattern.length pattern matched

/-- The second loop of `matchRange`, run on `pattern`. -/
def skipRun (pattern : GoString) (ok : Bool) : Res (Bool × GoString) :=
  skipLoop pattern.length pattern ok

/-- The function `matchRange`: the boolean result and the advanced pattern cursor. -/
def matchRange (toLower : Nat → Nat) (pattern : GoString) (test : Nat) (flags : Int) :
    Res (Bool × GoString) :=
  if pattern.length = 0 then Res.ok (false, pattern)
  else
    let flagNoEscape := hasFlag flags NoEscape
    let flagCaseFold := hasFlag flags CaseFold
    let test1 := if flagCaseFold then toLower test else test
    let negate := pattern.head? == some 0x5E || pattern.head? == some 0x21
    let p0 := if negate then pattern.drop 1 else pattern
    match rangeRun toLower flagNoEscape flagCaseFold test1 p0 false with
    | Res.ok (RangeExit.retFalse p) => Res.ok (false, p)
    | Res.ok (RangeExit.done p matched) =>
      match skipRun p false with
      | Res.ok (ok, p9) => Res.ok (ok && (matched != negate), p9)
      | Res.panic => Res.panic
      | Res.fuel => Res.fuel
    | Res.panic => Res.panic
    | Res.fuel => Res.fuel

/-- The variables captured by the closure `unpackStr` of `Match`. -/
structure StrState where
  str : GoString
  strPrevAtStart : Bool
  strCurrAtStart : Bool
  strPrevUnpacked : Nat
  strCurrUnpacked : Nat
deriving DecidableEq, Repr

/-- The state at entry of `Match`. -/
def StrState.init (str : GoString) : StrState := ⟨str, true, true, 0, 0⟩

/-- The closure `unpackStr` (lines 55-61), as a state update. -/
def unpackStr (st : StrState) : StrState :=
  ⟨(unpackRune st.str).2, st.strCurrAtStart, false, st.strCurrUnpacked, (unpackRune st.str).1⟩

/-- The body of the suffix loop of the general `*` case (lines 120-130); `m` is the
recursive call `Match(pattern, test, combinedFlags & ^Period)` as a function of `test`. -/
def starBody (m : GoString → Res Bool) (flagPathname : Bool) (next : GoString → Res Bool)
    (test : GoString) : Res Bool :=
  if test.length > 0 then
    match m test with
    | Res.ok true => Res.ok true
    | Res.ok false =>
      if flagPathname && test.head? == some 0x2F then Res.ok false
      else next (unpackRune test).2
    | Res.panic => Res.panic
    | Res.fuel => Res.fuel
  else Res.ok false

/-- The suffix loop of the general `*` case. -/
def starLoop (m : GoString → Res Bool) (flagPathname : Bool) : Nat → GoString → Res Bool
  | 0 => starBody m flagPathname (fun _ => Res.fuel)
  | fuel + 1 => starBody m flagPathname (starLoop m flagPathname fuel)

/-- The suffix loop of the general `*` case, run on `test`. -/
def starRun (m : GoString → Res Bool) (flagPathname : Bool) (test : GoString) : Res Bool :=
  starLoop m flagPathname test.length test

/-- The body of the main loop of `Match` (lines 63-171) from the state `st`.  The parameter
`self` stands both for the next iteration of the loop (same flag word, advanced pattern
and state) and for the recursive call of `Match` (a fresh state). -/
def matchBody (toLower : Nat → Nat) (self : Int → GoString → StrState → Res Bool)
    (combinedFlags : Int) (pattern : GoString) (st : StrState) : Res Bool :=
  let flagNoEscape := hasFlag combinedFlags NoEscape
  let flagPathname := hasFlag combinedFlags Pathname
  let flagPeriod := hasFlag combinedFlags Period
  let flagLeadingDir := hasFlag combinedFlags LeadingDir
  let flagCaseFold := hasFlag combinedFlags CaseFold
  if pattern.length > 0 then
    let patternChar := (unpackRune pattern).1
    let pattern1 := (unpackRune pattern).2
    if patternChar = 0x3F then
      if st.str.length = 0 then Res.ok false
      else
        let st1 := unpackStr st
        let strChar := st1.strCurrUnpacked
        if strChar == 0x2F && flagPathname then Res.ok false
        else if strChar == 0x2E && flagPeriod &&
            (st1.strPrevAtStart || (flagPathname && st1.strPrevUnpacked == 0x2F)) then
          Res.ok false
        else self combinedFlags pattern1 st1
    else if patternChar = 0x2A then
      let pattern2 := pattern1.dropWhile (fun b => b == 0x2A)
      if st.str.head? == some 0x2E && flagPeriod &&
          (st.strCurrAtStart || (flagPathname && st.strCurrUnpacked == 0x2F)) then
        Res.ok false
      else
        match pattern2 with
        | [] =>
          if flagPathname then
            if flagLeadingDir || !ContainsRune st.str 0x2F then Res.ok true
            else Res.ok false
          else Res.ok true
        | q0 :: q =>
          if q0 == 0x2F && flagPathname then
            let offset := strchr st.str 0x2F
            if offset = -1 then Res.ok false
            else
              let st1 := unpackStr ⟨st.str.drop offset.toNat, st.strPrevAtStart,
                st.strCurrAtStart, st.strPrevUnpacked, st.strCurrUnpacked⟩
              self combinedFlags q st1
          else
            starRun
              (fun test => self (Int.xor 0 (andInt combinedFlags (Int.lnot Period))) (q0 :: q)
                (StrState.init test))
              flagPathname st.str
    else if patternChar = 0x5B then
      if st.str.length = 0 then Res.ok false
      else if flagPathname && st.str.head? == some 0x2F then Res.ok false
      else
        let st1 := unpackStr st
        let strChar := st1.strCurrUnpacked
        match matchRange toLower pattern1 strChar combinedFlags with
        | Res.ok (true, pattern2) => self combinedFlags pattern2 st1
        | Res.ok (false, _) => Res.ok false
        | Res.panic => Res.panic
        | Res.fuel => Res.fuel
    else
      let esc := patternChar == 0x5C && !flagNoEscape && decide (pattern1.length > 0)
      let patternChar1 := if esc then (unpackRune pattern1).1 else patternChar
      let pattern2 := if esc then (unpackRune pattern1).2 else pattern1
      if st.str.length = 0 then Res.ok false
      else
        let st1 := unpackStr st
        let strChar := st1.strCurrUnpacked
        if strChar == patternChar1 then self combinedFlags pattern2 st1
        else if flagCaseFold && toLower strChar == toLower patternChar1 then
          self combinedFlags pattern2 st1
        else Res.ok false
  else
    Res.ok (decide (st.str.length = 0) || (flagLeadingDir && st.str.head? == some 0x2F))

/-- The main loop of `Match`, with the flags already combined. -/
def matchLoop (toLower : Nat → Nat) : Nat → Int → GoString → StrState → Res Bool
  | 0 => matchBody toLower (fun _ _ _ => Res.fuel)
  | fuel + 1 => matchBody toLower (matchLoop toLower fuel)

/-- The main loop of `Match`, run on `pattern` from the state `st`. -/
def matchRun (toLower : Nat → Nat) (combinedFlags : Int) (pattern : GoString)
    (st : StrState) : Res Bool :=
  matchLoop toLower pattern.length combinedFlags pattern st

/-- The function `Match`: the flag arguments are combined by exclusive or, then the
pattern is scanned from the initial state. -/
def Match (toLower : Nat → Nat) (pattern str : GoString) (flags : List Int) : Res Bool :=
  matchRun toLower (flags.foldl Int.xor 0) pattern (StrState.init str)

/-- ASCII lower-casing, an instance of `toLower` for concrete evaluations. -/
def asciiLower (r : Nat) : Nat := if 0x41 ≤ r ∧ r ≤ 0x5A then r + 32 else r

/-- The UTF-8 encoding of a code point (Go `string(rune(c))`); a surrogate or a value above
U+10FFFF is encoded as U+FFFD. -/
def EncodeRune (c : Nat) : GoString :=
  if c < 0x80 then [c]
  else if c < 0x800 then [0xC0 + c / 64, 0x80 + c % 64]
  else if (0xD800 ≤ c ∧ c < 0xE000) ∨ 0x10FFFF < c then [0xEF, 0xBF, 0xBD]
  else if c < 0x10000 then [0xE0 + c / 4096, 0x80 + c / 64 % 64, 0x80 + c % 64]
  else [0xF0 + c / 262144, 0x80 + c / 4096 % 64, 0x80 + c / 64 % 64, 0x80 + c % 64]

/-- The bytes of a string literal. -/
def bytes (s : String) : GoString := s.data.flatMap (fun c => EncodeRune c.toNat)

/-! ## Auxiliary definitions for the statements and proofs -/

/-- The string `s` after its first `n` code points: a suffix of `s` at a code point
boundary (the empty string once `s` is used up). -/
def dropRunes : Nat → GoString → GoString
  | 0, s => s
  | n + 1, s => dropRunes n (unpackRune s).2

/-- With escaping enabled, the member loop of `matchRange` run on `p` keeps the result of
the skipping loop: where it stops, the skipping loop ends as it would have from `p`; where
it panics, the skipping loop from `p` finds no closing bracket. -/
def RangeSkipInv (p : GoString) : Res RangeExit → Prop
  | Res.ok (RangeExit.done q _) => skipRun q false = skipRun p false
  | Res.ok (RangeExit.retFalse _) => True
  | Res.panic => ∃ q, skipRun p false = Res.ok (false, q)
  | Res.fuel => False

/-- The class of a bracket expression after the optional negation mark (lines 187-190). -/
def classStart (p : GoString) : GoString :=
  if (p.head? == some 0x5E || p.head? == some 0x21) = true then p.drop 1 else p

/-- A result that is not a match: `false`, or the panic of `matchRange`. -/
def NoMatch (r : Res Bool) : Prop := r = Res.ok false ∨ r = Res.panic

/-- Whether the pattern `p` starts with a backslash that escapes the rune after it
(lines 149-153). -/
def escaped (cf : Int) (p : GoString) : Bool :=
  (unpackRune p).1 == 0x5C && !hasFlag cf NoEscape && decide ((unpackRune p).2.length > 0)

/-- The rune that the `default` case compares with the candidate. -/
def literalRune (cf : Int) (p : GoString) : Nat :=
  if escaped cf p then (unpackRune (unpackRune p).2).1 else (unpackRune p).1

/-- The pattern after the `default` case. -/
def literalRest (cf : Int) (p : GoString) : GoString :=
  if escaped cf p then (unpackRune (unpackRune p).2).2 else (unpackRune p).2

/-- Every `*` of the pattern is followed by another `*`, by `/`, or by nothing: no `*`
reaches the general (recursive) case of `Match` under Pathname. -/
def StarsBeforeSlash : GoString → Bool
  | [] => true
  | [_] => true
  | a :: b :: t => (a != 0x2A || b == 0x2A || b == 0x2F) && StarsBeforeSlash (b :: t)

/-- The patterns of the amended claim C4, on bytes. -/
def PeriodSafePattern (p : GoString) : Prop :=
  0x2E ∉ p ∧ 0x5B ∉ p ∧ 0x5C ∉ p ∧ StarsBeforeSlash p = true

/-- The candidate still holds a `.` directly after a `/`: either both are unread, or the
`/` is the rune read last and the `.` comes next. -/
def PeriodPending (st : StrState) : Prop :=
  [0x2F, 0x2E] <:+: st.str ∨ (st.strCurrUnpacked = 0x2F ∧ st.str.head? = some 0x2E)

/-- A code point that a Go string can hold: a Unicode scalar value. -/
def ValidRune (c : Nat) : Prop := c < 0xD800 ∨ (0xE000 ≤ c ∧ c ≤ 0x10FFFF)

/-- The body of the loop that decodes a string rune by rune. -/
def runesBody (next : GoString → List Nat) (s : GoString) : List Nat :=
  if s.length = 0 then [] else (unpackRune s).1 :: next (unpackRune s).2

/-- The loop that decodes a string rune by rune. -/
def runesLoop : Nat → GoString → List Nat
  | 0 => runesBody (fun _ => [])
  | fuel + 1 => runesBody (runesLoop fuel)

/-- The code points of a Go string, as a `range` loop or the conversion `[]rune(s)` yields
them: an invalid byte counts as the code point U+FFFD. -/
def runes (s : GoString) : List Nat := runesLoop s.length s

/-- A literal pattern that may end in one backslash: none of its bytes is `?`, `*` or `[`,
and a backslash occurs at most as the last byte. -/
def LiteralPattern (p : GoString) : Prop :=
  ∀ i b, p[i]? = some b → b ≠ 0x3F ∧ b ≠ 0x2A ∧ b ≠ 0x5B ∧ (b = 0x5C → i + 1 = p.length)

/-- What a run of the first loop of `matchRange` on `p` can end in: the cursor it leaves is
a suffix of `p`, and the fuel is never exhausted. -/
def RangeGood (p : GoString) : Res RangeExit → Prop
  | Res.ok (RangeExit.done q _) => q <:+ p
  | Res.ok (RangeExit.retFalse q) => q <:+ p
  | Res.panic => True
  | Res.fuel => False

/-- The shapes of a decoded first rune. -/
def DecodeShape (s0 : Nat) (t : GoString) (r : Nat × Nat) : Prop :=
  (s0 < 0x80 ∧ r = (s0, 1)) ∨
  (0x80 ≤ s0 ∧ r = (RuneError, 1)) ∨
  (0x80 ≤ s0 ∧ 0x80 ≤ r.1 ∧ r.2 = 2 ∧ ∃ s1 u, t = s1 :: u ∧ 0x80 ≤ s1) ∨
  (0x80 ≤ s0 ∧ 0x80 ≤ r.1 ∧ r.2 = 3 ∧ ∃ s1 s2 u, t = s1 :: s2 :: u ∧ 0x80 ≤ s1 ∧ 0x80 ≤ s2) ∨
  (0x80 ≤ s0 ∧ 0x80 ≤ r.1 ∧ r.2 = 4 ∧
    ∃ s1 s2 s3 u, t = s1 :: s2 :: s3 :: u ∧ 0x80 ≤ s1 ∧ 0x80 ≤ s2 ∧ 0x80 ≤ s3)

/-- The flag arguments `f1, ..., fn` combined as the Go expression `f1 ^ f2 ^ ... ^ fn`
(left to right); the empty list gives 0. -/
def xorAll : List Int → Int
  | [] => 0
  | f :: t => t.foldl Int.xor f

/-- Two lists of code points agree under case folding: same length, and at every position
the code points are equal or have the same lower-case form. -/
def foldEq (toLower : Nat → Nat) : List Nat → List Nat → Bool
  | [], [] => true
  | a :: as, b :: bs => (a == b || toLower a == toLower b) && foldEq toLower as bs
  | _, _ => false

/-- The body of the loop that quotes a string rune by rune. -/
def quoteBody (next : GoString → GoString) (w : GoString) : GoString :=
  if w.length = 0 then []
  else 0x5C :: (w.take (DecodeRuneInString w).2 ++ next (unpackRune w).2)

/-- The loop that quotes a string rune by rune. -/
def quoteLoop : Nat → GoString → GoString
  | 0 => quoteBody (fun _ => [])
  | fuel + 1 => quoteBody (quoteLoop fuel)

/-- The string `w` with one backslash inserted before each of its code points. -/
def quote (w : GoString) : GoString := quoteLoop w.length w

/-- The string `s` is well-formed UTF-8: it is the encoding of its code points. -/
def ValidString (s : GoString) : Bool := decide ((runes s).flatMap EncodeRune = s)

/-- The flag word `g` is `f` with CaseFold added: CaseFold is set in `g`, and the other
four flags are as in `f`. -/
def FoldAdds (f g : Int) : Prop :=
  hasFlag g NoEscape = hasFlag f NoEscape ∧ hasFlag g Pathname = hasFlag f Pathname ∧
  hasFlag g Period = hasFlag f Period ∧ hasFlag g LeadingDir = hasFlag f LeadingDir ∧
  hasFlag g CaseFold = true

/-- The pattern holds a byte `[` with no byte `]` anywhere after it. -/
def openClass : GoString → Bool
  | [] => false
  | b :: t => (b == 0x5B && !decide (0x5D ∈ t)) || openClass t

/-- The state `st` with the string `x` appended to the unread candidate. -/
def extendStr (st : StrState) (x : GoString) : StrState :=
  ⟨st.str ++ x, st.strPrevAtStart, st.strCurrAtStart, st.strPrevUnpacked, st.strCurrUnpacked⟩

/-! ## Decoding -/

theorem decode_nil : DecodeRuneInString [] = (RuneError, 0) := rfl

theorem decode_ascii (b : Nat) (t : GoString) (h : b < 0x80) :
    DecodeRuneInString (b :: t) = (b, 1) := by
  simp [DecodeRuneInString, h]

theorem acceptLo_ge (s0 : Nat) : 0x80 ≤ acceptLo s0 := by
  unfold acceptLo
  split_ifs <;> omega

theorem shape_err (s0 : Nat) (t : GoString) (h : 0x80 ≤ s0) :
    DecodeShape s0 t (RuneError, 1) := Or.inr (Or.inl ⟨h, rfl⟩)

theorem decode2_shape (s0 : Nat) (t : GoString) (h : 0xC2 ≤ s0) (h' : s0 < 0xE0) :
    DecodeShape s0 t (decode2 s0 t) := by
  have ha := acceptLo_ge s0
  cases t with
  | nil => exact shape_err s0 _ (by omega)
  | cons s1 u =>
    unfold decode2
    dsimp only
    by_cases hr : inRange (acceptLo s0) (acceptHi s0) s1 = true
    · rw [if_pos hr]
      simp only [inRange, Bool.and_eq_true, decide_eq_true_eq] at hr
      exact Or.inr (Or.inr (Or.inl
        ⟨by omega, by dsimp only; omega, rfl, s1, u, rfl, by omega⟩))
    · rw [if_neg hr]
      exact shape_err s0 _ (by omega)

theorem decode3_shape (s0 : Nat) (t : GoString) (h : 0xE0 ≤ s0) (h' : s0 < 0xF0) :
    DecodeShape s0 t (decode3 s0 t) := by
  have ha := acceptLo_ge s0
  rcases t with _ | ⟨s1, _ | ⟨s2, u⟩⟩
  · exact shape_err s0 _ (by omega)
  · exact shape_err s0 _ (by omega)
  · unfold decode3
    dsimp only
    by_cases hr : (inRange (acceptLo s0) (acceptHi s0) s1 && inRange 0x80 0xBF s2) = true
    · rw [if_pos hr]
      simp only [inRange, Bool.and_eq_true, decide_eq_true_eq] at hr
      have hv : 0x80 ≤ s0 % 16 * 4096 + s1 % 64 * 64 + s2 % 64 := by
        have hlo := hr.1.1
        have hhi := hr.1.2
        unfold acceptLo at hlo
        unfold acceptHi at hhi
        split_ifs at hlo hhi <;> omega
      exact Or.inr (Or.inr (Or.inr (Or.inl
        ⟨by omega, hv, rfl, s1, s2, u, rfl, by omega, by omega⟩)))
    · rw [if_neg hr]
      exact shape_err s0 _ (by omega)

theorem decode4_shape (s0 : Nat) (t : GoString) (h : 0xF0 ≤ s0) (h' : s0 < 0xF5) :
    DecodeShape s0 t (decode4 s0 t) := by
  have ha := acceptLo_ge s0
  rcases t with _ | ⟨s1, _ | ⟨s2, _ | ⟨s3, u⟩⟩⟩
  · exact shape_err s0 _ (by omega)
  · exact shape_err s0 _ (by omega)
  · exact shape_err s0 _ (by omega)
  · unfold decode4
    dsimp only
    by_cases hr : (inRange (acceptLo s0) (acceptHi s0) s1 && inRange 0x80 0xBF s2
        && inRange 0x80 0xBF s3) = true
    · rw [if_pos hr]
      simp only [inRange, Bool.and_eq_true, decide_eq_true_eq] at hr
      have hv : 0x80 ≤ s0 % 8 * 262144 + s1 % 64 * 4096 + s2 % 64 * 64 + s3 % 64 := by
        have hlo := hr.1.1.1
        have hhi := hr.1.1.2
        unfold acceptLo at hlo
        unfold acceptHi at hhi
        split_ifs at hlo hhi <;> omega
      exact Or.inr (Or.inr (Or.inr (Or.inr
        ⟨by omega, hv, rfl, s1, s2, s3, u, rfl, by omega, by omega, by omega⟩)))
    · rw [if_neg hr]
      exact shape_err s0 _ (by omega)

theorem decode_shape (s0 : Nat) (t : GoString) :
    DecodeShape s0 t (DecodeRuneInString (s0 :: t)) := by
  simp only [DecodeRuneInString]
  split_ifs with h1 h2 h3 h4 h5
  · exact Or.inl ⟨h1, rfl⟩
  · exact shape_err s0 t (by omega)
  · exact decode2_shape s0 t (by omega) h3
  · exact decode3_shape s0 t (by omega) h4
  · exact decode4_shape s0 t (by omega) h5
  · exact shape_err s0 t (by omega)

theorem decode_size_pos (b : Nat) (t : GoString) : 1 ≤ (DecodeRuneInString (b :: t)).2 := by
  rcases decode_shape b t with h | h | h | h | h
  · rw [h.2]
  · rw [h.2]
  · omega
  · omega
  · omega

theorem decode_size_le (s : GoString) : (DecodeRuneInString s).2 ≤ s.length := by
  cases s with
  | nil => simp [DecodeRuneInString]
  | cons b t =>
    rcases decode_shape b t with h | h | ⟨_, _, h, s1, u, rfl, _⟩ | ⟨_, _, h, s1, s2, u, rfl, _⟩ |
      ⟨_, _, h, s1, s2, s3, u, rfl, _⟩
    · rw [h.2]; simp
    · rw [h.2]; simp
    · rw [h]; simp
    · rw [h]; simp
    · rw [h]; simp

theorem decode_ge (b : Nat) (t : GoString) (h : 0x80 ≤ b) :
    0x80 ≤ (DecodeRuneInString (b :: t)).1 := by
  rcases decode_shape b t with h | h | h | h | h
  · omega
  · rw [h.2]; simp [RuneError]
  · exact h.2.1
  · exact h.2.1
  · exact h.2.1

theorem unpackRune_length_le (s : GoString) : (unpackRune s).2.length ≤ s.length := by
  simp [unpackRune]

theorem unpackRune_length_lt (s : GoString) (h : 0 < s.length) :
    (unpackRune s).2.length < s.length := by
  cases s with
  | nil => simp at h
  | cons b t =>
    have h1 := decode_size_pos b t
    have h2 := decode_size_le (b :: t)
    simp only [unpackRune, List.length_drop]
    simp only [List.length_cons] at *
    omega

/-! ## The loops do not depend on the fuel -/

theorem skipBody_congr (r1 r2 : GoString → Bool → Res (Bool × GoString)) (p : GoString)
    (ok : Bool) (h : ∀ q b, q.length < p.length → r1 q b = r2 q b) :
    skipBody r1 p ok = skipBody r2 p ok := by
  unfold skipBody
  by_cases hc : (!ok && decide (p.length > 0)) = true
  · have hp : 0 < p.length := by
      simp only [Bool.and_eq_true, decide_eq_true_eq] at hc
      exact hc.2
    have h1 := unpackRune_length_lt p hp
    have h2 := unpackRune_length_le (unpackRune p).2
    simp only [hc, if_true]
    split_ifs <;> apply h <;> omega
  · simp only [hc]
    rfl

theorem skipLoop_fuel : ∀ (n m : Nat) (p : GoString) (ok : Bool),
    p.length ≤ n → p.length ≤ m → skipLoop n p ok = skipLoop m p ok := by
  intro n
  induction n with
  | zero =>
    intro m p ok hn hm
    cases m with
    | zero => rfl
    | succ m =>
      simp only [skipLoop]
      apply skipBody_congr
      intro q b hq
      omega
  | succ n ih =>
    intro m p ok hn hm
    cases m with
    | zero =>
      simp only [skipLoop]
      apply skipBody_congr
      intro q b hq
      omega
    | succ m =>
      simp only [skipLoop]
      apply skipBody_congr
      intro q b hq
      exact ih m q b (by omega) (by omega)

theorem skipRun_eq (p : GoString) (ok : Bool) : skipRun p ok = skipBody skipRun p ok := by
  unfold skipRun
  cases hp : p.length with
  | zero =>
    simp only [skipLoop]
    apply skipBody_congr
    intro q b hq
    omega
  | succ n =>
    simp only [skipLoop]
    apply skipBody_congr
    intro q b hq
    exact skipLoop_fuel n q.length q b (by omega) (le_refl _)

theorem ite_unpack_length_le (c : Bool) (x : GoString) :
    (if c = true then (unpackRune x).2 else x).length ≤ x.length := by
  split
  · exact unpackRune_length_le x
  · exact le_refl _

theorem rangeBody_congr (tl : Nat → Nat) (ne cf : Bool) (test : Nat)
    (r1 r2 : GoString → Bool → Res RangeExit) (p : GoString) (m : Bool)
    (h : ∀ q b, q.length < p.length → r1 q b = r2 q b) :
    rangeBody tl ne cf test r1 p m = rangeBody tl ne cf test r2 p m := by
  unfold rangeBody
  by_cases hc : (!m && decide (p.length > 1) && p.head? != some 0x5D) = true
  · have hp : 1 < p.length := by
      simp only [Bool.and_eq_true, decide_eq_true_eq] at hc
      exact hc.1.2
    have h1 := unpackRune_length_lt p (by omega)
    have h2 := ite_unpack_length_le (!ne && (unpackRune p).1 == 0x5C) (unpackRune p).2
    simp only [hc, if_true]
    split
    · rfl
    · split
      · rfl
      · rename_i b0 p2t heq
        rw [heq] at h2
        have h3 := unpackRune_length_le (b0 :: p2t)
        have h4 := unpackRune_length_le (unpackRune (b0 :: p2t)).2
        have h5 := ite_unpack_length_le (!ne && (unpackRune (unpackRune (b0 :: p2t)).2).1 == 0x5C)
          (unpackRune (unpackRune (b0 :: p2t)).2).2
        split
        · split
          · rfl
          · apply h
            omega
        · apply h
          omega
  · simp only [hc]
    rfl

theorem rangeLoop_fuel (tl : Nat → Nat) (ne cf : Bool) (test : Nat) :
    ∀ (n k : Nat) (p : GoString) (m : Bool), p.length ≤ n → p.length ≤ k →
      rangeLoop tl ne cf test n p m = rangeLoop tl ne cf test k p m := by
  intro n
  induction n with
  | zero =>
    intro k p m hn hk
    cases k with
    | zero => rfl
    | succ k =>
      simp only [rangeLoop]
      apply rangeBody_congr
      intro q b hq
      omega
  | succ n ih =>
    intro k p m hn hk
    cases k with
    | zero =>
      simp only [rangeLoop]
      apply rangeBody_congr
      intro q b hq
      omega
    | succ k =>
      simp only [rangeLoop]
      apply rangeBody_congr
      intro q b hq
      exact ih k q b (by omega) (by omega)

theorem rangeRun_eq (tl : Nat → Nat) (ne cf : Bool) (test : Nat) (p : GoString) (m : Bool) :
    rangeRun tl ne cf test p m = rangeBody tl ne cf test (rangeRun tl ne cf test) p m := by
  unfold rangeRun
  cases hp : p.length with
  | zero =>
    simp only [rangeLoop]
    apply rangeBody_congr
    intro q b hq
    omega
  | succ n =>
    simp only [rangeLoop]
    apply rangeBody_congr
    intro q b hq
    exact rangeLoop_fuel tl ne cf test n q.length q b (by omega) (le_refl _)

theorem starBody_congr (m : GoString → Res Bool) (fp : Bool) (r1 r2 : GoString → Res Bool)
    (t : GoString) (h : ∀ q, q.length < t.length → r1 q = r2 q) :
    starBody m fp r1 t = starBody m fp r2 t := by
  unfold starBody
  by_cases hc : t.length > 0
  · have h1 := unpackRune_length_lt t hc
    simp only [hc, if_true]
    split <;> try rfl
    split
    · rfl
    · exact h _ h1
  · simp only [hc]
    rfl

theorem starLoop_fuel (m : GoString → Res Bool) (fp : Bool) :
    ∀ (n k : Nat) (t : GoString), t.length ≤ n → t.length ≤ k →
      starLoop m fp n t = starLoop m fp k t := by
  intro n
  induction n with
  | zero =>
    intro k t hn hk
    cases k with
    | zero => rfl
    | succ k =>
      simp only [starLoop]
      apply starBody_congr
      intro q hq
      omega
  | succ n ih =>
    intro k t hn hk
    cases k with
    | zero =>
      simp only [starLoop]
      apply starBody_congr
      intro q hq
      omega
    | succ k =>
      simp only [starLoop]
      apply starBody_congr
      intro q hq
      exact ih k q (by omega) (by omega)

theorem starRun_eq (m : GoString → Res Bool) (fp : Bool) (t : GoString) :
    starRun m fp t = starBody m fp (starRun m fp) t := by
  unfold starRun
  cases hp : t.length with
  | zero =>
    simp only [starLoop]
    apply starBody_congr
    intro q hq
    omega
  | succ n =>
    simp only [starLoop]
    apply starBody_congr
    intro q hq
    exact starLoop_fuel m fp n q.length q (by omega) (le_refl _)

/-! ## Results of the loops of `matchRange` -/

theorem unpackRune_suffix (s : GoString) : (unpackRune s).2 <:+ s :=
  List.drop_suffix _ _

theorem ite_unpack_suffix (c : Bool) (x : GoString) :
    (if c = true then (unpackRune x).2 else x) <:+ x := by
  split
  · exact unpackRune_suffix x
  · exact List.suffix_refl _

theorem skipRun_ok : ∀ (n : Nat) (p : GoString) (ok : Bool), p.length ≤ n →
    ∃ b q, skipRun p ok = Res.ok (b, q) ∧ q <:+ p := by
  intro n
  induction n with
  | zero =>
    intro p ok hn
    rw [skipRun_eq, skipBody]
    have hp : ¬ p.length > 0 := by omega
    simp only [hp, decide_False, Bool.and_false]
    exact ⟨ok, p, rfl, List.suffix_refl _⟩
  | succ n ih =>
    intro p ok hn
    rw [skipRun_eq, skipBody]
    by_cases hc : (!ok && decide (p.length > 0)) = true
    · have hp : 0 < p.length := by
        simp only [Bool.and_eq_true, decide_eq_true_eq] at hc
        exact hc.2
      have h1 := unpackRune_length_lt p hp
      have h2 := unpackRune_length_le (unpackRune p).2
      have s1 := unpackRune_suffix p
      have s2 := unpackRune_suffix (unpackRune p).2
      simp only [hc, if_true]
      split_ifs
      · obtain ⟨b, q, hq, hl⟩ := ih (unpackRune (unpackRune p).2).2 ok (by omega)
        exact ⟨b, q, hq, hl.trans (s2.trans s1)⟩
      · obtain ⟨b, q, hq, hl⟩ := ih (unpackRune p).2 true (by omega)
        exact ⟨b, q, hq, hl.trans s1⟩
      · obtain ⟨b, q, hq, hl⟩ := ih (unpackRune p).2 ok (by omega)
        exact ⟨b, q, hq, hl.trans s1⟩
    · simp only [hc]
      exact ⟨ok, p, rfl, List.suffix_refl _⟩

theorem RangeGood_mono {p q : GoString} (h : p <:+ q) : ∀ r, RangeGood p r → RangeGood q r
  | Res.ok (RangeExit.done _ _), hr => List.IsSuffix.trans hr h
  | Res.ok (RangeExit.retFalse _), hr => List.IsSuffix.trans hr h
  | Res.panic, _ => trivial
  | Res.fuel, hr => hr

theorem rangeRun_good (tl : Nat → Nat) (ne cf : Bool) (test : Nat) :
    ∀ (n : Nat) (p : GoString) (m : Bool), p.length ≤ n →
      RangeGood p (rangeRun tl ne cf test p m) := by
  intro n
  induction n with
  | zero =>
    intro p m hn
    rw [rangeRun_eq, rangeBody]
    have hp : ¬ p.length > 1 := by omega
    simp only [hp, decide_False, Bool.and_false, Bool.false_and]
    exact List.suffix_refl _
  | succ n ih =>
    intro p m hn
    rw [rangeRun_eq, rangeBody]
    by_cases hc : (!m && decide (p.length > 1) && p.head? != some 0x5D) = true
    · have hp : 1 < p.length := by
        simp only [Bool.and_eq_true, decide_eq_true_eq] at hc
        exact hc.1.2
      have h1 := unpackRune_length_lt p (by omega)
      have s1 := unpackRune_suffix p
      have s2 := ite_unpack_suffix (!ne && (unpackRune p).1 == 0x5C) (unpackRune p).2
      simp only [hc, if_true]
      split
      · exact s1
      · split
        · trivial
        · rename_i b0 p2t heq
          rw [heq] at s2
          have s3 := unpackRune_suffix (b0 :: p2t)
          have s4 := unpackRune_suffix (unpackRune (b0 :: p2t)).2
          have s5 := ite_unpack_suffix
            (!ne && (unpackRune (unpackRune (b0 :: p2t)).2).1 == 0x5C)
            (unpackRune (unpackRune (b0 :: p2t)).2).2
          have s6 := (s4.trans s3).trans (s2.trans s1)
          have l2 := s2.length_le
          split
          · split
            · exact s6
            · have l5 := (s5.trans (s4.trans s3)).length_le
              exact RangeGood_mono (s5.trans s6) _ (ih _ _ (by omega))
          · exact RangeGood_mono (s2.trans s1) _ (ih _ _ (by omega))
    · simp only [hc]
      exact List.suffix_refl _

theorem matchRange_suffix (tl : Nat → Nat) (p : GoString) (c : Nat) (f : Int) (b : Bool)
    (q : GoString) (h : matchRange tl p c f = Res.ok (b, q)) : q <:+ p := by
  unfold matchRange at h
  split at h
  · cases h
    exact List.suffix_refl _
  · have hg := rangeRun_good tl (hasFlag f NoEscape) (hasFlag f CaseFold)
      (if hasFlag f CaseFold = true then tl c else c) _
      (if (p.head? == some 0x5E || p.head? == some 0x21) = true then p.drop 1 else p) false
      (le_refl _)
    have hl : (if (p.head? == some 0x5E || p.head? == some 0x21) = true then p.drop 1
        else p) <:+ p := by
      split
      · exact List.drop_suffix _ _
      · exact List.suffix_refl _
    simp only at h
    split at h
    · rename_i q1 heq
      rw [heq] at hg
      cases h
      exact List.IsSuffix.trans hg hl
    · rename_i q1 m1 heq
      rw [heq] at hg
      obtain ⟨b2, q2, hq2, hl2⟩ := skipRun_ok q1.length q1 false (le_refl _)
      rw [hq2] at h
      cases h
      exact hl2.trans (List.IsSuffix.trans hg hl)
    · cases h
    · cases h

theorem matchRange_length (tl : Nat → Nat) (p : GoString) (c : Nat) (f : Int) (b : Bool)
    (q : GoString) (h : matchRange tl p c f = Res.ok (b, q)) : q.length ≤ p.length :=
  (matchRange_suffix tl p c f b q h).length_le

theorem matchRange_ne_fuel (tl : Nat → Nat) (p : GoString) (c : Nat) (f : Int) :
    matchRange tl p c f ≠ Res.fuel := by
  unfold matchRange
  split
  · simp
  · have hg := rangeRun_good tl (hasFlag f NoEscape) (hasFlag f CaseFold)
      (if hasFlag f CaseFold = true then tl c else c) _
      (if (p.head? == some 0x5E || p.head? == some 0x21) = true then p.drop 1 else p) false
      (le_refl _)
    simp only
    split
    · simp
    · rename_i q1 m1 heq
      obtain ⟨b2, q2, hq2, hl2⟩ := skipRun_ok q1.length q1 false (le_refl _)
      rw [hq2]
      simp
    · simp
    · rename_i heq
      rw [heq] at hg
      exact absurd hg (by simp [RangeGood])

/-! ## The main loop does not depend on the fuel -/

theorem dropWhile_length_le (f : Nat → Bool) (l : GoString) :
    (l.dropWhile f).length ≤ l.length :=
  (List.dropWhile_sublist f).length_le

theorem matchBody_congr (tl : Nat → Nat) (r1 r2 : Int → GoString → StrState → Res Bool)
    (cf : Int) (p : GoString) (st : StrState)
    (h : ∀ cf1 q st1, q.length < p.length → r1 cf1 q st1 = r2 cf1 q st1) :
    matchBody tl r1 cf p st = matchBody tl r2 cf p st := by
  unfold matchBody
  by_cases hc : p.length > 0
  · have h1 := unpackRune_length_lt p hc
    have h2 := dropWhile_length_le (fun b => b == 0x2A) (unpackRune p).2
    have h3 := ite_unpack_length_le
      ((unpackRune p).1 == 0x5C && !hasFlag cf NoEscape && decide ((unpackRune p).2.length > 0))
      (unpackRune p).2
    have h4 := unpackRune_length_le (unpackRune p).2
    simp only [hc, if_true]
    split
    · split_ifs <;> first
        | rfl
        | (apply h; omega)
    · split
      · split
        · rfl
        · split
          · rfl
          · rename_i q0 q heq
            rw [heq] at h2
            simp only [List.length_cons] at h2
            split
            · split
              · rfl
              · apply h
                omega
            · congr 1
              funext test
              apply h
              simp only [List.length_cons]
              omega
      · split
        · split
          · rfl
          · split
            · rfl
            · split
              · rename_i q heq
                apply h
                have := matchRange_length _ _ _ _ _ _ heq
                omega
              · rfl
              · rfl
              · rfl
        · split_ifs <;> first
            | rfl
            | (apply h; omega)
  · simp only [hc]
    rfl

theorem matchLoop_fuel (tl : Nat → Nat) :
    ∀ (n k : Nat) (cf : Int) (p : GoString) (st : StrState), p.length ≤ n → p.length ≤ k →
      matchLoop tl n cf p st = matchLoop tl k cf p st := by
  intro n
  induction n with
  | zero =>
    intro k cf p st hn hk
    cases k with
    | zero => rfl
    | succ k =>
      simp only [matchLoop]
      apply matchBody_congr
      intro cf1 q st1 hq
      omega
  | succ n ih =>
    intro k cf p st hn hk
    cases k with
    | zero =>
      simp only [matchLoop]
      apply matchBody_congr
      intro cf1 q st1 hq
      omega
    | succ k =>
      simp only [matchLoop]
      apply matchBody_congr
      intro cf1 q st1 hq
      exact ih k cf1 q st1 (by omega) (by omega)

theorem matchRun_eq (tl : Nat → Nat) (cf : Int) (p : GoString) (st : StrState) :
    matchRun tl cf p st = matchBody tl (matchRun tl) cf p st := by
  unfold matchRun
  cases hp : p.length with
  | zero =>
    simp only [matchLoop]
    apply matchBody_congr
    intro cf1 q st1 hq
    omega
  | succ n =>
    simp only [matchLoop]
    apply matchBody_congr
    intro cf1 q st1 hq
    exact matchLoop_fuel tl n q.length cf1 q st1 (by omega) (le_refl _)

/-! ## Flag words -/

theorem ldiff_eq_xor_and (m n : Nat) : Nat.ldiff m n = m ^^^ (m &&& n) := by
  apply Nat.eq_of_testBit_eq
  intro i
  simp only [Nat.testBit_ldiff, Nat.testBit_xor, Nat.testBit_and]
  cases m.testBit i <;> cases n.testBit i <;> rfl

/-- The operation `andInt` is the bitwise conjunction of two's complement integers. -/
theorem andInt_eq_land (a b : Int) : andInt a b = Int.land a b := by
  cases a <;> cases b <;> simp [andInt, Int.land, ldiff_eq_xor_and]

/-! ## Entry points -/

theorem decode_fst_ascii (s : GoString) (c : Nat) (hc : c < 0x80) :
    (DecodeRuneInString s).1 = c ↔ s.head? = some c := by
  cases s with
  | nil => simp [DecodeRuneInString, RuneError]; omega
  | cons b t =>
    by_cases hb : b < 0x80
    · simp [decode_ascii b t hb]
    · have := decode_ge b t (by omega)
      simp only [List.head?_cons, Option.some.injEq]
      constructor <;> intro h <;> omega

theorem xor_zero_left (f : Int) : Int.xor 0 f = f := by
  cases f <;> simp [Int.xor]

theorem Match_nil_flags (tl : Nat → Nat) (p s : GoString) :
    Match tl p s [] = matchRun tl 0 p (StrState.init s) := rfl

theorem Match_one_flag (tl : Nat → Nat) (p s : GoString) (f : Int) :
    Match tl p s [f] = matchRun tl f p (StrState.init s) := by
  simp [Match, xor_zero_left]

/-! ## One step of the main loop, by the first rune of the pattern -/

theorem matchRun_question (tl : Nat → Nat) (cf : Int) (rest : GoString) (st : StrState) :
    matchRun tl cf (0x3F :: rest) st =
      if st.str.length = 0 then Res.ok false
      else if ((unpackRune st.str).1 == 0x2F && hasFlag cf Pathname) = true then Res.ok false
      else if ((unpackRune st.str).1 == 0x2E && hasFlag cf Period &&
          (st.strCurrAtStart || (hasFlag cf Pathname && st.strCurrUnpacked == 0x2F))) = true then
        Res.ok false
      else matchRun tl cf rest (unpackStr st) := by
  have hd : unpackRune (0x3F :: rest) = (0x3F, rest) := by simp [unpackRune, decode_ascii]
  rw [matchRun_eq, matchBody]
  simp [hd, unpackStr]

theorem matchRun_star (tl : Nat → Nat) (cf : Int) (rest : GoString) (st : StrState) :
    matchRun tl cf (0x2A :: rest) st =
      if (st.str.head? == some 0x2E && hasFlag cf Period &&
          (st.strCurrAtStart || (hasFlag cf Pathname && st.strCurrUnpacked == 0x2F))) = true then
        Res.ok false
      else
        match rest.dropWhile (fun b => b == 0x2A) with
        | [] =>
          if hasFlag cf Pathname = true then
            if (hasFlag cf LeadingDir || !ContainsRune st.str 0x2F) = true then Res.ok true
            else Res.ok false
          else Res.ok true
        | q0 :: q =>
          if (q0 == 0x2F && hasFlag cf Pathname) = true then
            if strchr st.str 0x2F = -1 then Res.ok false
            else
              matchRun tl cf q (unpackStr ⟨st.str.drop (strchr st.str 0x2F).toNat,
                st.strPrevAtStart, st.strCurrAtStart, st.strPrevUnpacked, st.strCurrUnpacked⟩)
          else
            starRun
              (fun test => matchRun tl (Int.xor 0 (andInt cf (Int.lnot Period))) (q0 :: q)
                (StrState.init test))
              (hasFlag cf Pathname) st.str := by
  have hd : unpackRune (0x2A :: rest) = (0x2A, rest) := by simp [unpackRune, decode_ascii]
  rw [matchRun_eq, matchBody]
  simp only [hd, List.length_cons, gt_iff_lt, Nat.zero_lt_succ, if_true]
  rfl

theorem matchRun_class (tl : Nat → Nat) (cf : Int) (rest : GoString) (st : StrState) :
    matchRun tl cf (0x5B :: rest) st =
      if st.str.length = 0 then Res.ok false
      else if (hasFlag cf Pathname && st.str.head? == some 0x2F) = true then Res.ok false
      else
        match matchRange tl rest (unpackRune st.str).1 cf with
        | Res.ok (true, pattern2) => matchRun tl cf pattern2 (unpackStr st)
        | Res.ok (false, _) => Res.ok false
        | Res.panic => Res.panic
        | Res.fuel => Res.fuel := by
  have hd : unpackRune (0x5B :: rest) = (0x5B, rest) := by simp [unpackRune, decode_ascii]
  rw [matchRun_eq, matchBody]
  simp only [hd, List.length_cons, gt_iff_lt, Nat.zero_lt_succ, if_true]
  rfl

/-- A step on a pattern rune other than `?`, `*` and `[`: a literal, or a backslash. -/
theorem matchRun_other (tl : Nat → Nat) (cf : Int) (p : GoString) (st : StrState)
    (hp : 0 < p.length) (h1 : (unpackRune p).1 ≠ 0x3F) (h2 : (unpackRune p).1 ≠ 0x2A)
    (h3 : (unpackRune p).1 ≠ 0x5B) :
    matchRun tl cf p st =
      if st.str.length = 0 then Res.ok false
      else if ((unpackRune st.str).1 == literalRune cf p) = true then
        matchRun tl cf (literalRest cf p) (unpackStr st)
      else if (hasFlag cf CaseFold && tl (unpackRune st.str).1 == tl (literalRune cf p)) = true
      then matchRun tl cf (literalRest cf p) (unpackStr st)
      else Res.ok false := by
  rw [matchRun_eq, matchBody]
  simp only [hp, h1, h2, h3, if_false, if_true, gt_iff_lt, unpackStr, literalRune, literalRest,
    escaped]

theorem literalRest_suffix (cf : Int) (p : GoString) : literalRest cf p <:+ (unpackRune p).2 :=
  ite_unpack_suffix _ _

theorem literalRune_of_ne (cf : Int) (p : GoString) (h : (unpackRune p).1 ≠ 0x5C) :
    literalRune cf p = (unpackRune p).1 := by
  have : ((unpackRune p).1 == 0x5C) = false := by simpa using h
  simp [literalRune, escaped, this]

theorem literalRest_of_ne (cf : Int) (p : GoString) (h : (unpackRune p).1 ≠ 0x5C) :
    literalRest cf p = (unpackRune p).2 := by
  have : ((unpackRune p).1 == 0x5C) = false := by simpa using h
  simp [literalRest, escaped, this]

/-! ## Code points of a string, literal patterns -/

theorem runesBody_congr (r1 r2 : GoString → List Nat) (s : GoString)
    (h : ∀ q, q.length < s.length → r1 q = r2 q) : runesBody r1 s = runesBody r2 s := by
  unfold runesBody
  split
  · rfl
  · rw [h _ (unpackRune_length_lt s (by omega))]

theorem runesLoop_fuel : ∀ (n k : Nat) (s : GoString), s.length ≤ n → s.length ≤ k →
    runesLoop n s = runesLoop k s := by
  intro n
  induction n with
  | zero =>
    intro k s hn hk
    cases k with
    | zero => rfl
    | succ k =>
      simp only [runesLoop]
      apply runesBody_congr
      intro q hq
      omega
  | succ n ih =>
    intro k s hn hk
    cases k with
    | zero =>
      simp only [runesLoop]
      apply runesBody_congr
      intro q hq
      omega
    | succ k =>
      simp only [runesLoop]
      apply runesBody_congr
      intro q hq
      exact ih k q (by omega) (by omega)

theorem runes_eq (s : GoString) : runes s = runesBody runes s := by
  unfold runes
  cases hp : s.length with
  | zero =>
    simp only [runesLoop]
    apply runesBody_congr
    intro q hq
    omega
  | succ n =>
    simp only [runesLoop]
    apply runesBody_congr
    intro q hq
    exact runesLoop_fuel n q.length q (by omega) (le_refl _)

theorem runes_nil : runes [] = [] := rfl

theorem runes_cons (b : Nat) (t : GoString) :
    runes (b :: t) = (unpackRune (b :: t)).1 :: runes (unpackRune (b :: t)).2 := by
  rw [runes_eq, runesBody]
  simp

theorem runes_eq_nil (s : GoString) : runes s = [] ↔ s = [] := by
  cases s with
  | nil => simp [runes_nil]
  | cons b t => simp [runes_cons]

theorem hasFlag_zero (b : Int) : hasFlag 0 b = false := by
  cases b <;> simp [hasFlag, andInt]

theorem matchRun_nil (tl : Nat → Nat) (cf : Int) (st : StrState) :
    matchRun tl cf [] st =
      Res.ok (decide (st.str.length = 0) || (hasFlag cf LeadingDir && st.str.head? == some 0x2F)) :=
  rfl

/-- One step of `Match` on a pattern rune that is not special, with no flags. -/
theorem matchRun_literal_step (tl : Nat → Nat) (p : GoString) (st : StrState)
    (hp : 0 < p.length)
    (h1 : (unpackRune p).1 ≠ 0x3F) (h2 : (unpackRune p).1 ≠ 0x2A)
    (h3 : (unpackRune p).1 ≠ 0x5B) (h4 : (unpackRune p).1 ≠ 0x5C) :
    matchRun tl 0 p st =
      if st.str.length = 0 then Res.ok false
      else if (unpackRune st.str).1 = (unpackRune p).1 then
        matchRun tl 0 (unpackRune p).2 (unpackStr st)
      else Res.ok false := by
  rw [matchRun_eq, matchBody]
  simp only [hp, hasFlag_zero, h1, h2, h3, if_false, if_true, gt_iff_lt]
  have h4' : ((unpackRune p).1 == 0x5C) = false := by simpa using h4
  simp only [h4', Bool.false_and, unpackStr, beq_iff_eq, Bool.false_eq_true, if_false]

/-- A lone backslash as the whole pattern is matched as a literal backslash. -/
theorem matchRun_backslash_last (tl : Nat → Nat) (st : StrState) :
    matchRun tl 0 [0x5C] st = Res.ok (decide (runes st.str = [0x5C])) := by
  rw [matchRun_eq, matchBody]
  have hd : unpackRune [0x5C] = (0x5C, []) := by decide
  simp only [hd, hasFlag_zero]
  cases hs : st.str with
  | nil => simp [runes_nil]
  | cons b t =>
    simp only [List.length_cons, runes_cons, unpackStr, hs]
    by_cases hc : (unpackRune (b :: t)).1 = 0x5C
    · simp [hc, matchRun_nil, hasFlag_zero, runes_eq_nil]
    · simp [hc]

theorem LiteralPattern_drop (p : GoString) (k : Nat) (h : LiteralPattern p) :
    LiteralPattern (p.drop k) := by
  intro i b hb
  rw [List.getElem?_drop] at hb
  have := h (k + i) b hb
  refine ⟨this.1, this.2.1, this.2.2.1, fun hb5 => ?_⟩
  have := this.2.2.2 hb5
  simp only [List.length_drop]
  omega

/-- A literal pattern, possibly ending in one backslash, matches exactly the candidates
that have its code points. -/
theorem matchRun_literal (tl : Nat → Nat) :
    ∀ (n : Nat) (p : GoString) (st : StrState), p.length ≤ n → LiteralPattern p →
      matchRun tl 0 p st = Res.ok (decide (runes st.str = runes p)) := by
  intro n
  induction n with
  | zero =>
    intro p st hn hl
    have : p = [] := List.eq_nil_of_length_eq_zero (by omega)
    subst this
    simp [matchRun_nil, hasFlag_zero, runes_nil, runes_eq_nil]
  | succ n ih =>
    intro p st hn hl
    cases p with
    | nil => simp [matchRun_nil, hasFlag_zero, runes_nil, runes_eq_nil]
    | cons s0 t =>
      have h0 := hl 0 s0 (by simp)
      by_cases hb : s0 = 0x5C
      · have ht : t = [] := by
          have := h0.2.2.2 hb
          simp only [List.length_cons] at this
          exact List.eq_nil_of_length_eq_zero (by omega)
        subst ht hb
        rw [matchRun_backslash_last]
        have : runes [0x5C] = [0x5C] := by decide
        rw [this]
      · have hne : ∀ c, c < 0x80 → s0 ≠ c → (unpackRune (s0 :: t)).1 ≠ c := by
          intro c hc hs hd
          have := (decode_fst_ascii (s0 :: t) c hc).1 hd
          simp at this
          exact hs this
        rw [matchRun_literal_step tl (s0 :: t) st (by simp) (hne _ (by omega) h0.1)
          (hne _ (by omega) h0.2.1) (hne _ (by omega) h0.2.2.1) (hne _ (by omega) hb)]
        have hlt := unpackRune_length_lt (s0 :: t) (by simp)
        rw [runes_cons s0 t]
        cases hs : st.str with
        | nil => simp [runes_nil]
        | cons b u =>
          simp only [List.length_cons, runes_cons b u]
          by_cases hc : (unpackRune (b :: u)).1 = (unpackRune (s0 :: t)).1
          · have hl' : LiteralPattern (unpackRune (s0 :: t)).2 := LiteralPattern_drop _ _ hl
            rw [if_neg (by omega), if_pos hc, ih (unpackRune (s0 :: t)).2 (unpackStr st)
              (by simp only [List.length_cons] at hn hlt; omega) hl']
            simp [hc, unpackStr, hs]
          · simp [hc]

/-- An ASCII byte of a string is its first rune or a byte of the rest. -/
theorem unpack_mem_ascii (s0 : Nat) (t : GoString) (b : Nat) (hb : b < 0x80) :
    b ∈ s0 :: t ↔ (unpackRune (s0 :: t)).1 = b ∨ b ∈ (unpackRune (s0 :: t)).2 := by
  unfold unpackRune
  rcases decode_shape s0 t with h | h | ⟨h0, hr, hz, s1, u, rfl, h1⟩ |
    ⟨h0, hr, hz, s1, s2, u, rfl, h1, h2⟩ | ⟨h0, hr, hz, s1, s2, s3, u, rfl, h1, h2, h3⟩
  · rw [h.2]
    simp [eq_comm]
  · rw [h.2]
    simp only [List.mem_cons, List.drop_succ_cons, List.drop_zero, RuneError]
    constructor
    · rintro (h' | h')
      · omega
      · exact Or.inr h'
    · rintro (h' | h')
      · omega
      · exact Or.inr h'
  · rw [hz]
    simp only [List.mem_cons, List.drop_succ_cons, List.drop_zero]
    constructor
    · rintro (h' | h' | h')
      · omega
      · omega
      · exact Or.inr h'
    · rintro (h' | h')
      · omega
      · exact Or.inr (Or.inr h')
  · rw [hz]
    simp only [List.mem_cons, List.drop_succ_cons, List.drop_zero]
    constructor
    · rintro (h' | h' | h' | h')
      · omega
      · omega
      · omega
      · exact Or.inr h'
    · rintro (h' | h')
      · omega
      · exact Or.inr (Or.inr (Or.inr h'))
  · rw [hz]
    simp only [List.mem_cons, List.drop_succ_cons, List.drop_zero]
    constructor
    · rintro (h' | h' | h' | h' | h')
      · omega
      · omega
      · omega
      · omega
      · exact Or.inr h'
    · rintro (h' | h')
      · omega
      · exact Or.inr (Or.inr (Or.inr (Or.inr h')))

/-- An ASCII code point occurs in a string exactly where its byte occurs. -/
theorem mem_runes_ascii (b : Nat) (hb : b < 0x80) :
    ∀ (n : Nat) (s : GoString), s.length ≤ n → (b ∈ runes s ↔ b ∈ s) := by
  intro n
  induction n with
  | zero =>
    intro s hn
    have : s = [] := List.eq_nil_of_length_eq_zero (by omega)
    subst this
    simp [runes_nil]
  | succ n ih =>
    intro s hn
    cases s with
    | nil => simp [runes_nil]
    | cons s0 t =>
      have hlt := unpackRune_length_lt (s0 :: t) (by simp)
      rw [runes_cons, unpack_mem_ascii s0 t b hb, List.mem_cons,
        ih _ (by simp only [List.length_cons] at hn hlt; omega)]
      simp [eq_comm]

theorem inRange_ascii_false (lo hi b : Nat) (hlo : 0x80 ≤ lo) (hb : b < 0x80) :
    inRange lo hi b = false := by
  simp only [inRange, Bool.and_eq_false_iff, decide_eq_false_iff_not]
  left
  omega

/-- An ASCII byte appended to a non-empty string does not change its first rune. -/
theorem decode_append_ascii (s0 : Nat) (t : GoString) (b : Nat) (hb : b < 0x80) :
    DecodeRuneInString (s0 :: (t ++ [b])) = DecodeRuneInString (s0 :: t) := by
  have ha := acceptLo_ge s0
  have h1 := inRange_ascii_false (acceptLo s0) (acceptHi s0) b ha hb
  have h2 := inRange_ascii_false 0x80 0xBF b (le_refl _) hb
  simp only [DecodeRuneInString]
  have e2 : decode2 s0 (t ++ [b]) = decode2 s0 t := by
    rcases t with _ | ⟨s1, u⟩
    · simp [decode2, h1]
    · simp [decode2]
  have e3 : decode3 s0 (t ++ [b]) = decode3 s0 t := by
    rcases t with _ | ⟨s1, _ | ⟨s2, u⟩⟩
    · simp [decode3]
    · simp [decode3, h2]
    · simp [decode3]
  have e4 : decode4 s0 (t ++ [b]) = decode4 s0 t := by
    rcases t with _ | ⟨s1, _ | ⟨s2, _ | ⟨s3, u⟩⟩⟩
    · simp [decode4]
    · simp [decode4]
    · simp [decode4, h2]
    · simp [decode4]
  rw [e2, e3, e4]

/-- The code points of a string followed by an ASCII byte are those of the string followed
by that byte. -/
theorem runes_append_ascii (b : Nat) (hb : b < 0x80) :
    ∀ (n : Nat) (w : GoString), w.length ≤ n → runes (w ++ [b]) = runes w ++ [b] := by
  intro n
  induction n with
  | zero =>
    intro w hn
    have : w = [] := List.eq_nil_of_length_eq_zero (by omega)
    subst this
    simp [runes_cons, runes_nil, unpackRune, decode_ascii _ _ hb]
  | succ n ih =>
    intro w hn
    cases w with
    | nil => simp [runes_cons, runes_nil, unpackRune, decode_ascii _ _ hb]
    | cons s0 t =>
      have hlt := unpackRune_length_lt (s0 :: t) (by simp)
      have hsz := decode_size_le (s0 :: t)
      simp only [List.length_cons] at hlt hn hsz
      have hu : unpackRune (s0 :: (t ++ [b])) =
          ((unpackRune (s0 :: t)).1, (unpackRune (s0 :: t)).2 ++ [b]) := by
        simp only [unpackRune, decode_append_ascii s0 t b hb, Prod.mk.injEq, true_and]
        rw [← List.cons_append, List.drop_append_of_le_length (by simpa using hsz)]
      rw [List.cons_append, runes_cons, hu, runes_cons s0 t, ih _ (by omega)]
      rfl

/-! ## C1: an index out of range -/

/-- C1 fails on the code: the pattern `[é` (an unterminated bracket expression whose last
member is encoded in two bytes) against the candidate `x` does not return a boolean.  The
member loop of `matchRange` reads `é`, which exhausts the pattern, and then evaluates
`(*pattern)[0]` on the empty string: the call panics. -/
theorem Match_open_class_multibyte_panics (toLower : Nat → Nat) :
    Match toLower (bytes "[é") (bytes "x") [] = Res.panic := by rfl

/-! ## C5, C6: a leading period -/

/-- C5: with Period set, a pattern whose first code point is `?` or `*` does not match a
candidate whose first code point is `.`: `Match` returns `false`. -/
theorem Match_period_leading_dot_wildcard (toLower : Nat → Nat) (f : Int)
    (pattern candidate : GoString) (hf : hasFlag f Period = true)
    (hp : (DecodeRuneInString pattern).1 = 0x3F ∨ (DecodeRuneInString pattern).1 = 0x2A)
    (hs : (DecodeRuneInString candidate).1 = 0x2E) :
    Match toLower pattern candidate [f] = Res.ok false := by
  have hs1 : candidate.head? = some 0x2E := (decode_fst_ascii _ _ (by omega)).1 hs
  have hpl : pattern.length > 0 := by
    cases pattern with
    | nil => simp [DecodeRuneInString, RuneError] at hp
    | cons b t => simp
  have hsl : candidate.length ≠ 0 := by
    cases candidate with
    | nil => simp at hs1
    | cons b t => simp
  rw [Match_one_flag, matchRun_eq, matchBody]
  simp only [hpl, if_true, unpackRune, StrState.init, unpackStr, hsl, if_false, hs, hf, hs1]
  rcases hp with hp | hp <;> simp [hp]

/-- C5 at the pattern `*a`, the candidate `.a` and the flags Period with Pathname. -/
theorem Match_period_leading_dot_wildcard_witness :
    hasFlag 6 Period = true ∧
    ((DecodeRuneInString (bytes "*a")).1 = 0x3F ∨ (DecodeRuneInString (bytes "*a")).1 = 0x2A) ∧
    (DecodeRuneInString (bytes ".a")).1 = 0x2E ∧
    Match asciiLower (bytes "*a") (bytes ".a") [6] = Res.ok false :=
  ⟨by decide, by decide, by decide,
    Match_period_leading_dot_wildcard asciiLower 6 (bytes "*a") (bytes ".a")
      (by decide) (by decide) (by decide)⟩

/-- C6 fails on the code: with Period set the pattern `[.]` matches the candidate `.`.  The
`[` case of `Match` checks the path separator but, unlike the `?` and `*` cases, has no
check of a leading period. -/
theorem Match_period_leading_dot_class (toLower : Nat → Nat) :
    Match toLower (bytes "[.]") (bytes ".") [Period] = Res.ok true := by rfl

/-! ## C7: a closing bracket first in a class -/

theorem matchRange_close_first (tl : Nat → Nat) (c : Nat) (rest : GoString) :
    matchRange tl (0x5D :: rest) c 0 = Res.ok (false, rest) := by
  simp [matchRange, rangeRun_eq, rangeBody, skipRun_eq, skipBody, unpackRune, decode_ascii,
    hasFlag, andInt, NoEscape, CaseFold]

/-- C7 as stated fails: `[]]` does not match the candidate `]`, and `[]a]` matches neither
`]` nor `a`. -/
theorem Match_close_first_counterexample :
    Match asciiLower (bytes "[]]") (bytes "]") [] = Res.ok false ∧
    Match asciiLower (bytes "[]a]") (bytes "]") [] = Res.ok false ∧
    Match asciiLower (bytes "[]a]") (bytes "a") [] = Res.ok false := by decide

/-- C7, amended: a `]` directly after `[` closes the bracket expression, which is then an
empty class: with no flags, `[]]` and `[]a]` match no candidate at all. -/
theorem Match_close_first_matches_nothing (toLower : Nat → Nat) (s : GoString) :
    Match toLower (bytes "[]]") s [] = Res.ok false ∧
    Match toLower (bytes "[]a]") s [] = Res.ok false := by
  have h1 : bytes "[]]" = [0x5B, 0x5D, 0x5D] := by decide
  have h2 : bytes "[]a]" = [0x5B, 0x5D, 0x61, 0x5D] := by decide
  rw [h1, h2]
  constructor
  · rw [Match_nil_flags, matchRun_eq]
    simp [matchBody, unpackRune, decode_ascii, matchRange_close_first, hasFlag, andInt,
      Pathname]
  · rw [Match_nil_flags, matchRun_eq]
    simp [matchBody, unpackRune, decode_ascii, matchRange_close_first, hasFlag, andInt,
      Pathname]

/-! ## C8: a backslash in a class under NoEscape -/

/-- C8 fails on the code: under NoEscape the class `[a\]` (members `a` and backslash) does
not match the candidate `a`, although it matches a backslash.  The member loop honours
NoEscape, the skipping loop does not: after `a` has matched, it takes the backslash as an
escape of the closing bracket and finds no end of the class. -/
theorem Match_noescape_class_backslash (toLower : Nat → Nat) :
    Match toLower (bytes "[a\\]") (bytes "a") [NoEscape] = Res.ok false ∧
    Match toLower (bytes "[a\\]") (bytes "\\") [NoEscape] = Res.ok true := ⟨rfl, rfl⟩

/-! ## C9: a backslash at the end of the pattern -/

/-- C9 as stated fails: the pattern consisting of one backslash matches the candidate
consisting of one backslash. -/
theorem Match_trailing_backslash_counterexample :
    Match asciiLower (bytes "\\") (bytes "\\") [] = Res.ok true := by decide

/-- C9, amended: with no flags, a backslash at the end of the pattern is matched as a
literal backslash.  For every `w` containing none of `?`, `*`, `[` and backslash,
`Match(w + "\\", s)` is true exactly when `s` has the code points of `w` followed by one
backslash (and is false otherwise). -/
theorem Match_trailing_backslash (toLower : Nat → Nat) (w s : GoString)
    (h1 : 0x3F ∉ runes w) (h2 : 0x2A ∉ runes w) (h3 : 0x5B ∉ runes w) (h4 : 0x5C ∉ runes w) :
    Match toLower (w ++ bytes "\\") s [] = Res.ok (decide (runes s = runes w ++ [0x5C])) := by
  have hb : bytes "\\" = [0x5C] := by decide
  rw [hb, Match_nil_flags, ← runes_append_ascii 0x5C (by omega) _ w (le_refl _)]
  rw [mem_runes_ascii _ (by omega) _ w (le_refl _)] at h1 h2 h3 h4
  apply matchRun_literal toLower _ _ _ (le_refl _)
  intro i b hi
  rw [List.getElem?_append] at hi
  split at hi
  · have hm : b ∈ w := List.getElem?_mem hi
    refine ⟨?_, ?_, ?_, ?_⟩
    · rintro rfl; exact h1 hm
    · rintro rfl; exact h2 hm
    · rintro rfl; exact h3 hm
    · rintro rfl; exact absurd hm h4
  · rename_i hlt
    have hi0 : i - w.length = 0 := by
      by_contra hne
      rw [List.getElem?_eq_none (by simp; omega)] at hi
      cases hi
    rw [hi0] at hi
    simp at hi
    subst hi
    simp only [List.length_append, List.length_singleton]
    refine ⟨by omega, by omega, by omega, fun _ => by omega⟩

/-- C9, amended, at `w = a` and the candidate `a\`. -/
theorem Match_trailing_backslash_witness :
    0x3F ∉ runes (bytes "a") ∧ 0x2A ∉ runes (bytes "a") ∧ 0x5B ∉ runes (bytes "a") ∧
    0x5C ∉ runes (bytes "a") ∧ runes (bytes "a\\") = runes (bytes "a") ++ [0x5C] ∧
    Match asciiLower (bytes "a" ++ bytes "\\") (bytes "a\\") [] =
      Res.ok (decide (runes (bytes "a\\") = runes (bytes "a") ++ [0x5C])) :=
  ⟨by decide, by decide, by decide, by decide, by decide,
    Match_trailing_backslash asciiLower (bytes "a") (bytes "a\\")
      (by decide) (by decide) (by decide) (by decide)⟩

/-! ## C10: bracket ranges -/

theorem decode_encode (c : Nat) (rest : GoString) (hv : ValidRune c) :
    DecodeRuneInString (EncodeRune c ++ rest) = (c, (EncodeRune c).length) := by
  unfold ValidRune at hv
  unfold EncodeRune
  by_cases h1 : c < 0x80
  · simp only [h1, if_true, List.singleton_append, List.length_singleton]
    exact decode_ascii c rest h1
  rw [if_neg h1]
  by_cases h2 : c < 0x800
  · rw [if_pos h2]
    simp only [List.cons_append, List.nil_append, DecodeRuneInString, decode2, inRange,
      acceptLo, acceptHi, List.length_cons, List.length_nil]
    have e1 : ¬ (0xC0 + c / 64 < 0x80) := by omega
    have e2 : ¬ (0xC0 + c / 64 < 0xC2) := by omega
    have e3 : 0xC0 + c / 64 < 0xE0 := by omega
    have e4 : ¬ (0xC0 + c / 64 = 0xE0) := by omega
    have e5 : ¬ (0xC0 + c / 64 = 0xF0) := by omega
    have e6 : ¬ (0xC0 + c / 64 = 0xED) := by omega
    have e7 : ¬ (0xC0 + c / 64 = 0xF4) := by omega
    have e8 : 0x80 ≤ 0x80 + c % 64 := by omega
    have e9 : 0x80 + c % 64 ≤ 0xBF := by omega
    simp only [e1, e2, e3, e4, e5, e6, e7, e8, e9, if_true, if_false, decide_True,
      Bool.and_self]
    congr 1
    omega
  rw [if_neg h2]
  have h3 : ¬ ((0xD800 ≤ c ∧ c < 0xE000) ∨ 0x10FFFF < c) := by omega
  rw [if_neg h3]
  by_cases h4 : c < 0x10000
  · rw [if_pos h4]
    simp only [List.cons_append, List.nil_append, DecodeRuneInString, decode3, inRange,
      acceptLo, acceptHi, List.length_cons, List.length_nil]
    have e1 : ¬ (0xE0 + c / 4096 < 0x80) := by omega
    have e2 : ¬ (0xE0 + c / 4096 < 0xC2) := by omega
    have e3 : ¬ (0xE0 + c / 4096 < 0xE0) := by omega
    have e4 : 0xE0 + c / 4096 < 0xF0 := by omega
    have e5 : ¬ (0xE0 + c / 4096 = 0xF0) := by omega
    have e7 : ¬ (0xE0 + c / 4096 = 0xF4) := by omega
    have e8 : 0x80 ≤ 0x80 + c % 64 := by omega
    have e9 : 0x80 + c % 64 ≤ 0xBF := by omega
    simp only [e1, e2, e3, e4, e5, e7, e8, e9, if_true, if_false, decide_True,
      Bool.and_true]
    have e10 : (decide ((if 0xE0 + c / 4096 = 0xE0 then 0xA0 else 0x80) ≤ 0x80 + c / 64 % 64) &&
        decide (0x80 + c / 64 % 64 ≤ if 0xE0 + c / 4096 = 0xED then 0x9F else 0xBF)) = true := by
      simp only [Bool.and_eq_true, decide_eq_true_eq]
      split_ifs <;> omega
    rw [if_pos e10]
    congr 1
    omega
  · rw [if_neg h4]
    simp only [List.cons_append, List.nil_append, DecodeRuneInString, decode4, inRange,
      acceptLo, acceptHi, List.length_cons, List.length_nil]
    have e1 : ¬ (0xF0 + c / 262144 < 0x80) := by omega
    have e2 : ¬ (0xF0 + c / 262144 < 0xC2) := by omega
    have e3 : ¬ (0xF0 + c / 262144 < 0xE0) := by omega
    have e4 : ¬ (0xF0 + c / 262144 < 0xF0) := by omega
    have e5 : 0xF0 + c / 262144 < 0xF5 := by omega
    have e6 : ¬ (0xF0 + c / 262144 = 0xE0) := by omega
    have e7 : ¬ (0xF0 + c / 262144 = 0xED) := by omega
    have e8 : 0x80 ≤ 0x80 + c % 64 := by omega
    have e9 : 0x80 + c % 64 ≤ 0xBF := by omega
    have e8' : 0x80 ≤ 0x80 + c / 64 % 64 := by omega
    have e9' : 0x80 + c / 64 % 64 ≤ 0xBF := by omega
    simp only [e1, e2, e3, e4, e5, e6, e7, e8, e9, e8', e9', if_true, if_false, decide_True,
      Bool.and_true]
    have e10 : (decide ((if 0xF0 + c / 262144 = 0xF0 then 0x90 else 0x80) ≤
          0x80 + c / 4096 % 64) &&
        decide (0x80 + c / 4096 % 64 ≤ if 0xF0 + c / 262144 = 0xF4 then 0x8F else 0xBF)) =
        true := by
      simp only [Bool.and_eq_true, decide_eq_true_eq]
      split_ifs <;> omega
    rw [if_pos e10]
    congr 1
    omega

theorem encode_length_pos (c : Nat) : 0 < (EncodeRune c).length := by
  unfold EncodeRune
  split_ifs <;> simp

theorem unpack_encode (c : Nat) (rest : GoString) (hv : ValidRune c) :
    unpackRune (EncodeRune c ++ rest) = (c, rest) := by
  simp [unpackRune, decode_encode c rest hv]

theorem encode_head_ne (c : Nat) (rest : GoString) (hv : ValidRune c) (k : Nat)
    (hk : k < 0x80) (hne : c ≠ k) : (EncodeRune c ++ rest).head? ≠ some k := by
  intro h
  have := (decode_fst_ascii _ k hk).2 h
  rw [decode_encode c rest hv] at this
  exact hne this

theorem rangeRun_short (tl : Nat → Nat) (ne cf : Bool) (test : Nat) (p : GoString) (m : Bool)
    (h : p.length ≤ 1) : rangeRun tl ne cf test p m = Res.ok (RangeExit.done p m) := by
  rw [rangeRun_eq, rangeBody]
  have : ¬ p.length > 1 := by omega
  simp [this]

theorem encode_head_ne_self (c : Nat) (hv : ValidRune c) (k : Nat) (hk : k < 0x80)
    (hne : c ≠ k) : ¬ (EncodeRune c).head? = some k := by
  have := encode_head_ne c [] hv k hk hne
  rwa [List.append_nil] at this

theorem encode_ne_nil (c : Nat) : ¬ EncodeRune c = [] := by
  intro h
  have := encode_length_pos c
  rw [h] at this
  simp at this

/-- The member loop on the class `lo-hi]` against one code point, with no flags. -/
theorem rangeRun_one_range (tl : Nat → Nat) (lo hi test : Nat)
    (hlo : ValidRune lo) (hhi : ValidRune hi)
    (l1 : lo ≠ 0x5D) (l2 : lo ≠ 0x5C) (r1 : hi ≠ 0x5D) (r2 : hi ≠ 0x5C) :
    rangeRun tl false false test (EncodeRune lo ++ 0x2D :: (EncodeRune hi ++ [0x5D])) false =
      Res.ok (RangeExit.done [0x5D] (decide (lo ≤ test) && decide (test ≤ hi))) := by
  have hd : unpackRune (0x2D :: (EncodeRune hi ++ [0x5D])) = (0x2D, EncodeRune hi ++ [0x5D]) := by
    simp [unpackRune, decode_ascii]
  have hA := encode_head_ne_self lo hlo 0x5D (by omega) l1
  have hB := encode_head_ne_self hi hhi 0x5D (by omega) r1
  have hC := encode_ne_nil hi
  have hl : 1 < (EncodeRune lo).length + ((EncodeRune hi).length + 1 + 1) := by omega
  rw [rangeRun_eq, rangeBody]
  simp [unpack_encode lo _ hlo, hd, unpack_encode hi _ hhi, hA, hB, hC, hl, l2, r2,
    rangeRun_short]

theorem skipRun_close : skipRun [0x5D] false = Res.ok (true, []) := by decide

/-- The function `matchRange` on the class `lo-hi]`, with no flags. -/
theorem matchRange_one_range (tl : Nat → Nat) (lo hi test : Nat)
    (hlo : ValidRune lo) (hhi : ValidRune hi)
    (l1 : lo ≠ 0x5D) (l2 : lo ≠ 0x5C) (l3 : lo ≠ 0x5E) (l4 : lo ≠ 0x21)
    (r1 : hi ≠ 0x5D) (r2 : hi ≠ 0x5C) :
    matchRange tl (EncodeRune lo ++ 0x2D :: (EncodeRune hi ++ [0x5D])) test 0 =
      Res.ok (decide (lo ≤ test) && decide (test ≤ hi), []) := by
  have h3 := encode_head_ne lo (0x2D :: (EncodeRune hi ++ [0x5D])) hlo 0x5E (by omega) l3
  have h4 := encode_head_ne lo (0x2D :: (EncodeRune hi ++ [0x5D])) hlo 0x21 (by omega) l4
  have hneg : ((EncodeRune lo ++ 0x2D :: (EncodeRune hi ++ [0x5D])).head? == some 0x5E ||
      (EncodeRune lo ++ 0x2D :: (EncodeRune hi ++ [0x5D])).head? == some 0x21) = false := by
    rw [Bool.or_eq_false_iff]
    exact ⟨beq_false_of_ne h3, beq_false_of_ne h4⟩
  have hlen : ¬ (EncodeRune lo ++ 0x2D :: (EncodeRune hi ++ [0x5D])).length = 0 := by
    simp
  unfold matchRange
  rw [if_neg hlen]
  simp only [hasFlag_zero, hneg, Bool.false_eq_true, if_false,
    rangeRun_one_range tl lo hi test hlo hhi l1 l2 r1 r2, skipRun_close]
  simp

/-- The function `matchRange` on the negated class `^lo-hi]` or `!lo-hi]`, with no flags. -/
theorem matchRange_one_range_neg (tl : Nat → Nat) (lo hi test n : Nat)
    (hn : n = 0x5E ∨ n = 0x21) (hlo : ValidRune lo) (hhi : ValidRune hi)
    (l1 : lo ≠ 0x5D) (l2 : lo ≠ 0x5C) (r1 : hi ≠ 0x5D) (r2 : hi ≠ 0x5C) :
    matchRange tl (n :: (EncodeRune lo ++ 0x2D :: (EncodeRune hi ++ [0x5D]))) test 0 =
      Res.ok (!(decide (lo ≤ test) && decide (test ≤ hi)), []) := by
  unfold matchRange
  rcases hn with rfl | rfl <;>
    simp [hasFlag_zero, rangeRun_one_range tl lo hi test hlo hhi l1 l2 r1 r2, skipRun_close]

/-- A pattern that is one bracket expression, its class deciding `f` of the tested code
point, matches exactly the candidates of one code point that satisfies `f`. -/
theorem matchRun_single_class (tl : Nat → Nat) (cls : GoString) (f : Nat → Bool)
    (h : ∀ test, matchRange tl cls test 0 = Res.ok (f test, [])) (s : GoString) :
    matchRun tl 0 (0x5B :: cls) (StrState.init s) = Res.ok true ↔
      ∃ c, runes s = [c] ∧ f c = true := by
  rw [matchRun_class]
  cases s with
  | nil => simp [StrState.init, runes_nil]
  | cons b u =>
    simp only [hasFlag_zero, StrState.init, unpackStr, h, runes_cons]
    cases hf : f (unpackRune (b :: u)).1
    · simp only [List.length_cons, Nat.add_one_ne_zero, if_false, Bool.false_and,
        Bool.false_eq_true, List.cons.injEq]
      constructor
      · intro h'
        cases h'
      · rintro ⟨c, ⟨rfl, _⟩, hc⟩
        rw [hf] at hc
        cases hc
    · simp only [List.length_cons, Nat.add_one_ne_zero, if_false, Bool.false_and,
        Bool.false_eq_true, List.cons.injEq, matchRun_nil, hasFlag_zero, Bool.or_false,
        Res.ok.injEq, decide_eq_true_eq, List.length_eq_zero, runes_eq_nil]
      constructor
      · intro h'
        exact ⟨_, ⟨rfl, h'⟩, hf⟩
      · rintro ⟨c, ⟨_, h'⟩, _⟩
        exact h'

/-- C10: with no flags, for code points `lo` and `hi` other than `]`, backslash, `^` and
`!`, the pattern `[lo-hi]` matches exactly the candidates that are one code point `c` with
`lo ≤ c ≤ hi`, and the patterns `[^lo-hi]` and `[!lo-hi]` match exactly the candidates that
are one code point `c` outside that range. -/
theorem Match_bracket_range (toLower : Nat → Nat) (lo hi : Nat) (s : GoString)
    (hlo : ValidRune lo) (hhi : ValidRune hi)
    (l1 : lo ≠ 0x5D) (l2 : lo ≠ 0x5C) (l3 : lo ≠ 0x5E) (l4 : lo ≠ 0x21)
    (r1 : hi ≠ 0x5D) (r2 : hi ≠ 0x5C) (_r3 : hi ≠ 0x5E) (_r4 : hi ≠ 0x21) :
    (Match toLower (bytes "[" ++ EncodeRune lo ++ bytes "-" ++ EncodeRune hi ++ bytes "]") s []
        = Res.ok true ↔ ∃ c, runes s = [c] ∧ lo ≤ c ∧ c ≤ hi) ∧
    (Match toLower (bytes "[^" ++ EncodeRune lo ++ bytes "-" ++ EncodeRune hi ++ bytes "]") s []
        = Res.ok true ↔ ∃ c, runes s = [c] ∧ ¬ (lo ≤ c ∧ c ≤ hi)) ∧
    (Match toLower (bytes "[!" ++ EncodeRune lo ++ bytes "-" ++ EncodeRune hi ++ bytes "]") s []
        = Res.ok true ↔ ∃ c, runes s = [c] ∧ ¬ (lo ≤ c ∧ c ≤ hi)) := by
  have b1 : bytes "[" = [0x5B] := by decide
  have b2 : bytes "-" = [0x2D] := by decide
  have b3 : bytes "]" = [0x5D] := by decide
  have b4 : bytes "[^" = [0x5B, 0x5E] := by decide
  have b5 : bytes "[!" = [0x5B, 0x21] := by decide
  simp only [b1, b2, b3, b4, b5, List.append_assoc, List.cons_append, List.nil_append,
    Match_nil_flags]
  refine ⟨?_, ?_, ?_⟩
  · rw [matchRun_single_class toLower _ _
      (fun test => matchRange_one_range toLower lo hi test hlo hhi l1 l2 l3 l4 r1 r2)]
    simp
  · rw [matchRun_single_class toLower _ _
      (fun test => matchRange_one_range_neg toLower lo hi test 0x5E (Or.inl rfl) hlo hhi
        l1 l2 r1 r2)]
    simp only [Bool.not_eq_true', Bool.and_eq_false_iff, decide_eq_false_iff_not, not_and_or]
  · rw [matchRun_single_class toLower _ _
      (fun test => matchRange_one_range_neg toLower lo hi test 0x21 (Or.inr rfl) hlo hhi
        l1 l2 r1 r2)]
    simp only [Bool.not_eq_true', Bool.and_eq_false_iff, decide_eq_false_iff_not, not_and_or]

/-- C10 at `lo = a`, `hi = z` and the candidate `q`. -/
theorem Match_bracket_range_witness :
    (Match asciiLower (bytes "[" ++ EncodeRune 0x61 ++ bytes "-" ++ EncodeRune 0x7A ++ bytes "]")
        (bytes "q") [] = Res.ok true ↔ ∃ c, runes (bytes "q") = [c] ∧ 0x61 ≤ c ∧ c ≤ 0x7A) ∧
    (Match asciiLower (bytes "[^" ++ EncodeRune 0x61 ++ bytes "-" ++ EncodeRune 0x7A ++ bytes "]")
        (bytes "q") [] = Res.ok true ↔ ∃ c, runes (bytes "q") = [c] ∧ ¬ (0x61 ≤ c ∧ c ≤ 0x7A)) ∧
    (Match asciiLower (bytes "[!" ++ EncodeRune 0x61 ++ bytes "-" ++ EncodeRune 0x7A ++ bytes "]")
        (bytes "q") [] = Res.ok true ↔ ∃ c, runes (bytes "q") = [c] ∧ ¬ (0x61 ≤ c ∧ c ≤ 0x7A)) :=
  Match_bracket_range asciiLower 0x61 0x7A (bytes "q") (Or.inl (by decide)) (Or.inl (by decide))
    (by decide) (by decide) (by decide) (by decide) (by decide) (by decide) (by decide)
    (by decide)

/-! ## ASCII bytes and rune boundaries -/

/-- Of the bytes of the first rune of a string, only the first can be an ASCII byte. -/
theorem take_decode_ascii (s0 : Nat) (t : GoString) (k : Nat) (hk : k < 0x80) :
    k ∈ (s0 :: t).take (DecodeRuneInString (s0 :: t)).2 ↔ s0 = k := by
  rcases decode_shape s0 t with h | h | ⟨h0, hr, hz, s1, u, rfl, h1⟩ |
    ⟨h0, hr, hz, s1, s2, u, rfl, h1, h2⟩ | ⟨h0, hr, hz, s1, s2, s3, u, rfl, h1, h2, h3⟩
  · rw [h.2]
    simp [eq_comm]
  · rw [h.2]
    simp [eq_comm]
  · rw [hz]
    simp only [List.take_succ_cons, List.take_zero, List.mem_cons, List.mem_nil_iff, or_false]
    constructor
    · rintro (h' | h')
      · exact h'.symm
      · omega
    · intro h'
      exact Or.inl h'.symm
  · rw [hz]
    simp only [List.take_succ_cons, List.take_zero, List.mem_cons, List.mem_nil_iff, or_false]
    constructor
    · rintro (h' | h' | h')
      · exact h'.symm
      · omega
      · omega
    · intro h'
      exact Or.inl h'.symm
  · rw [hz]
    simp only [List.take_succ_cons, List.take_zero, List.mem_cons, List.mem_nil_iff, or_false]
    constructor
    · rintro (h' | h' | h' | h')
      · exact h'.symm
      · omega
      · omega
      · omega
    · intro h'
      exact Or.inl h'.symm

/-- A pair of ASCII bytes in a string starts the string or lies in the rest after the first
rune. -/
theorem infix_unpack (a b : Nat) (ha : a < 0x80) (s0 : Nat) (t : GoString)
    (h : [a, b] <:+: s0 :: t) :
    (s0 = a ∧ t.head? = some b) ∨ [a, b] <:+: (unpackRune (s0 :: t)).2 := by
  have key : ∀ (x : Nat) (l : GoString), 0x80 ≤ x → [a, b] <:+: x :: l → [a, b] <:+: l := by
    intro x l hx hl
    rcases List.infix_cons_iff.1 hl with hp | hi
    · obtain ⟨r, hr⟩ := hp
      simp only [List.cons_append, List.cons.injEq] at hr
      omega
    · exact hi
  unfold unpackRune
  rcases decode_shape s0 t with h' | h' | ⟨h0, hr, hz, s1, u, rfl, h1⟩ |
    ⟨h0, hr, hz, s1, s2, u, rfl, h1, h2⟩ | ⟨h0, hr, hz, s1, s2, s3, u, rfl, h1, h2, h3⟩
  · rw [h'.2]
    rcases List.infix_cons_iff.1 h with hp | hi
    · obtain ⟨r, hr⟩ := hp
      simp only [List.cons_append, List.cons.injEq, List.nil_append] at hr
      left
      exact ⟨hr.1.symm, by rw [← hr.2]; rfl⟩
    · right
      simpa using hi
  · rw [h'.2]
    right
    simpa using key s0 t h'.1 h
  · rw [hz]
    right
    simpa using key s1 u h1 (key s0 _ h0 h)
  · rw [hz]
    right
    simpa using key s2 u h2 (key s1 _ h1 (key s0 _ h0 h))
  · rw [hz]
    right
    simpa using key s3 u h3 (key s2 _ h2 (key s1 _ h1 (key s0 _ h0 h)))

theorem strchrBody_congr (c : Nat) (r1 r2 : GoString → Nat → Int) (s : GoString) (i : Nat)
    (h : ∀ q j, q.length < s.length → r1 q j = r2 q j) :
    strchrBody c r1 s i = strchrBody c r2 s i := by
  unfold strchrBody
  split
  · rfl
  · split
    · rfl
    · apply h
      exact unpackRune_length_lt s (by omega)

theorem strchrLoop_fuel (c : Nat) : ∀ (n k : Nat) (s : GoString) (i : Nat),
    s.length ≤ n → s.length ≤ k → strchrLoop c n s i = strchrLoop c k s i := by
  intro n
  induction n with
  | zero =>
    intro k s i hn hk
    cases k with
    | zero => rfl
    | succ k =>
      simp only [strchrLoop]
      apply strchrBody_congr
      intro q j hq
      omega
  | succ n ih =>
    intro k s i hn hk
    cases k with
    | zero =>
      simp only [strchrLoop]
      apply strchrBody_congr
      intro q j hq
      omega
    | succ k =>
      simp only [strchrLoop]
      apply strchrBody_congr
      intro q j hq
      exact ih k q j (by omega) (by omega)

/-- The function `strchr` finds the first occurrence of an ASCII byte that occurs. -/
theorem strchrLoop_found (c : Nat) (hc : c < 0x80) :
    ∀ (n : Nat) (s : GoString) (i : Nat), s.length ≤ n → c ∈ s →
      ∃ pre rest, s = pre ++ c :: rest ∧ c ∉ pre ∧
        strchrLoop c n s i = ((i + pre.length : Nat) : Int) := by
  intro n
  induction n with
  | zero =>
    intro s i hn hm
    have : s = [] := List.eq_nil_of_length_eq_zero (by omega)
    subst this
    simp at hm
  | succ n ih =>
    intro s i hn hm
    cases s with
    | nil => simp at hm
    | cons s0 t =>
      simp only [strchrLoop, strchrBody, List.length_cons, Nat.add_one_ne_zero, if_false]
      by_cases hd : (DecodeRuneInString (s0 :: t)).1 = c
      · have := (decode_fst_ascii _ c hc).1 hd
        simp only [List.head?_cons, Option.some.injEq] at this
        subst this
        exact ⟨[], t, rfl, by simp, by simp [hd]⟩
      · rw [if_neg hd]
        have hm' : c ∈ (unpackRune (s0 :: t)).2 := by
          rcases (unpack_mem_ascii s0 t c hc).1 hm with h' | h'
          · exact absurd h' hd
          · exact h'
        have hlt := unpackRune_length_lt (s0 :: t) (by simp)
        obtain ⟨pre, rest, he, hn', hv⟩ := ih (unpackRune (s0 :: t)).2
          (i + (DecodeRuneInString (s0 :: t)).2)
          (by simp only [List.length_cons] at hlt hn; omega) hm'
        refine ⟨(s0 :: t).take (DecodeRuneInString (s0 :: t)).2 ++ pre, rest, ?_, ?_, ?_⟩
        · rw [List.append_assoc, ← he]
          exact (List.take_append_drop _ _).symm
        · intro hmem
          rcases List.mem_append.1 hmem with h' | h'
          · have := (take_decode_ascii s0 t c hc).1 h'
            subst this
            exact hd (decode_ascii _ t hc ▸ rfl)
          · exact hn' h'
        · have hv' : strchrLoop c n (List.drop (DecodeRuneInString (s0 :: t)).2 (s0 :: t))
              (i + (DecodeRuneInString (s0 :: t)).2) = ((i + (DecodeRuneInString (s0 :: t)).2
                + pre.length : Nat) : Int) := hv
          rw [hv']
          have hsz := decode_size_le (s0 :: t)
          simp only [List.length_append, List.length_take, Nat.min_eq_left hsz]
          congr 1
          omega

/-! ## C4: a period after a path separator -/

theorem StarsBeforeSlash_tail (x : Nat) (q : GoString) (h : StarsBeforeSlash (x :: q) = true) :
    StarsBeforeSlash q = true := by
  cases q with
  | nil => rfl
  | cons b t =>
    simp only [StarsBeforeSlash, Bool.and_eq_true] at h
    exact h.2

theorem StarsBeforeSlash_suffix : ∀ (pre q : GoString), StarsBeforeSlash (pre ++ q) = true →
    StarsBeforeSlash q = true := by
  intro pre
  induction pre with
  | nil =>
    intro q h
    exact h
  | cons x pre ih =>
    intro q h
    exact ih q (StarsBeforeSlash_tail x _ h)

theorem PeriodSafePattern_suffix (p q : GoString) (hs : q <:+ p) (h : PeriodSafePattern p) :
    PeriodSafePattern q := by
  obtain ⟨pre, rfl⟩ := hs
  exact ⟨fun hm => h.1 (List.mem_append_right _ hm), fun hm => h.2.1 (List.mem_append_right _ hm),
    fun hm => h.2.2.1 (List.mem_append_right _ hm), StarsBeforeSlash_suffix pre q h.2.2.2⟩

theorem star_run_slash : ∀ (t : GoString) (q0 : Nat) (q : GoString),
    StarsBeforeSlash (0x2A :: t) = true → t.dropWhile (fun b => b == 0x2A) = q0 :: q →
      q0 = 0x2F := by
  intro t
  induction t with
  | nil =>
    intro q0 q _ h
    simp at h
  | cons x t ih =>
    intro q0 q hs h
    by_cases hx : x = 0x2A
    · subst hx
      simp only [List.dropWhile_cons, beq_self_eq_true, if_true] at h
      exact ih q0 q (StarsBeforeSlash_tail _ _ hs) h
    · have hx' : (x == 0x2A) = false := by simpa using hx
      simp only [List.dropWhile_cons, hx', Bool.false_eq_true, if_false, List.cons.injEq] at h
      simp only [StarsBeforeSlash, bne_self_eq_false, hx', Bool.false_or, Bool.and_eq_true,
        beq_iff_eq] at hs
      rw [← h.1]
      exact hs.1

theorem strchr_found (s : GoString) (c : Nat) (hc : c < 0x80) (hm : c ∈ s) :
    ∃ pre rest, s = pre ++ c :: rest ∧ c ∉ pre ∧ strchr s c = (pre.length : Int) := by
  obtain ⟨pre, rest, h1, h2, h3⟩ := strchrLoop_found c hc s.length s 0 (le_refl _) hm
  refine ⟨pre, rest, h1, h2, ?_⟩
  unfold strchr
  rw [h3]
  simp

theorem hasFlag_pp_noescape : hasFlag (Int.lor Pathname Period) NoEscape = false := by decide
theorem hasFlag_pp_pathname : hasFlag (Int.lor Pathname Period) Pathname = true := by decide
theorem hasFlag_pp_period : hasFlag (Int.lor Pathname Period) Period = true := by decide
theorem hasFlag_pp_leadingdir : hasFlag (Int.lor Pathname Period) LeadingDir = false := by decide
theorem hasFlag_pp_casefold : hasFlag (Int.lor Pathname Period) CaseFold = false := by decide

theorem PeriodPending_ne_nil (st : StrState) (h : PeriodPending st) : st.str.length ≠ 0 := by
  rcases h with h | h
  · intro h0
    have := List.eq_nil_of_length_eq_zero h0
    rw [this] at h
    simp at h
  · intro h0
    have := List.eq_nil_of_length_eq_zero h0
    rw [this] at h
    simp at h

/-- What reading one rune of the candidate does to a pending period. -/
theorem PeriodPending_step (st : StrState) (h : PeriodPending st) :
    ((unpackRune st.str).1 = 0x2E ∧ st.strCurrUnpacked = 0x2F) ∨
    ((unpackRune st.str).1 = 0x2F ∧ PeriodPending (unpackStr st)) ∨
    ((unpackRune st.str).1 ≠ 0x2F ∧ PeriodPending (unpackStr st)) := by
  rcases h with h | h
  · cases hs : st.str with
    | nil => rw [hs] at h; simp at h
    | cons b u =>
      rw [hs] at h
      rcases infix_unpack 0x2F 0x2E (by omega) b u h with ⟨hb, hu⟩ | hi
      · right; left
        subst hb
        have hd : unpackRune (0x2F :: u) = (0x2F, u) := by simp [unpackRune, decode_ascii]
        refine ⟨by rw [hd], Or.inr ?_⟩
        simp [unpackStr, hs, hd, hu]
      · by_cases hc : (unpackRune (b :: u)).1 = 0x2F
        · right; left
          exact ⟨hc, Or.inl (by simpa [unpackStr, hs] using hi)⟩
        · right; right
          exact ⟨hc, Or.inl (by simpa [unpackStr, hs] using hi)⟩
  · left
    refine ⟨?_, h.1⟩
    exact (decode_fst_ascii st.str 0x2E (by omega)).2 h.2

/-- A pair that starts with `c` lies at or after the first `c`. -/
theorem infix_after_first (c d : Nat) : ∀ (pre rest : GoString), c ∉ pre →
    [c, d] <:+: pre ++ c :: rest → [c, d] <:+: c :: rest := by
  intro pre
  induction pre with
  | nil =>
    intro rest _ h
    simpa using h
  | cons x pre ih =>
    intro rest hpre h
    apply ih rest (fun hm => hpre (List.mem_cons_of_mem _ hm))
    rcases List.infix_cons_iff.1 h with hpf | hi
    · obtain ⟨r, hr⟩ := hpf
      simp only [List.cons_append, List.cons.injEq] at hr
      exact absurd (List.mem_cons_self _ _) (hr.1 ▸ hpre)
    · exact hi

/-- Under Pathname and Period, a pattern without `.`, `[`, backslash and without a `*` in
the general case never gets past a `.` that follows a `/`. -/
theorem matchRun_period_pending (tl : Nat → Nat) :
    ∀ (n : Nat) (p : GoString) (st : StrState), p.length ≤ n → PeriodSafePattern p →
      PeriodPending st → matchRun tl (Int.lor Pathname Period) p st = Res.ok false := by
  intro n
  induction n with
  | zero =>
    intro p st hn _ hst
    have : p = [] := List.eq_nil_of_length_eq_zero (by omega)
    subst this
    have := PeriodPending_ne_nil st hst
    simp [matchRun_nil, hasFlag_pp_leadingdir, this]
  | succ n ih =>
    intro p st hn hp hst
    have hne := PeriodPending_ne_nil st hst
    cases p with
    | nil => simp [matchRun_nil, hasFlag_pp_leadingdir, hne]
    | cons s0 t =>
      have ht : PeriodSafePattern t := PeriodSafePattern_suffix _ _ (List.suffix_cons s0 t) hp
      simp only [List.length_cons] at hn
      by_cases h1 : s0 = 0x3F
      · subst h1
        rw [matchRun_question]
        simp only [hne, if_false, hasFlag_pp_pathname, hasFlag_pp_period, Bool.and_true,
          Bool.true_and]
        rcases PeriodPending_step st hst with ⟨hd, hc⟩ | ⟨hd, _⟩ | ⟨hd, hpend⟩
        · simp [hd, hc]
        · simp [hd]
        · have hd' : ((unpackRune st.str).1 == 0x2F) = false := by simpa using hd
          rw [hd']
          simp only [Bool.false_eq_true, if_false]
          split
          · rfl
          · exact ih t _ (by omega) ht hpend
      by_cases h2 : s0 = 0x2A
      · subst h2
        rw [matchRun_star]
        simp only [hasFlag_pp_pathname, hasFlag_pp_period, hasFlag_pp_leadingdir, Bool.and_true,
          Bool.true_and, Bool.false_or, if_true]
        split
        · rfl
        · rename_i hcond
          have hinf : [0x2F, 0x2E] <:+: st.str := by
            rcases hst with h | h
            · exact h
            · exfalso
              apply hcond
              simp [h.1, h.2]
          have hmem : 0x2F ∈ st.str := by
            obtain ⟨a, b, hab⟩ := hinf
            rw [← hab]
            simp
          split
          · simp [ContainsRune, hmem]
          · rename_i q0 q hq
            have hq0 := star_run_slash t q0 q hp.2.2.2 hq
            subst hq0
            simp only [beq_self_eq_true, if_true]
            obtain ⟨pre, rest, he, hpre, hv⟩ := strchr_found st.str 0x2F (by omega) hmem
            have hv1 : ¬ strchr st.str 0x2F = -1 := by
              rw [hv]
              omega
            rw [if_neg hv1]
            have hqs : (0x2F :: q) <:+ t := by
              rw [← hq]
              exact List.dropWhile_suffix _
            have hq' : PeriodSafePattern q :=
              PeriodSafePattern_suffix _ _ ((List.suffix_cons _ q).trans hqs) ht
            apply ih q _ (by have := hqs.length_le; simp only [List.length_cons] at this; omega)
              hq'
            have hdrop : st.str.drop (strchr st.str 0x2F).toNat = 0x2F :: rest := by
              rw [hv, Int.toNat_ofNat]
              conv_lhs => rw [he]
              simp
            have hd : unpackRune (0x2F :: rest) = (0x2F, rest) := by
              simp [unpackRune, decode_ascii]
            simp only [unpackStr, hdrop, hd]
            have hin : [0x2F, 0x2E] <:+: 0x2F :: rest :=
              infix_after_first 0x2F 0x2E pre rest hpre (he ▸ hinf)
            rcases List.infix_cons_iff.1 hin with hpf | hi
            · obtain ⟨r, hr⟩ := hpf
              simp only [List.cons_append, List.cons.injEq, List.nil_append, true_and] at hr
              exact Or.inr ⟨rfl, by rw [← hr]; rfl⟩
            · exact Or.inl hi
      · have h3 : s0 ≠ 0x5B := fun h => hp.2.1 (h ▸ List.mem_cons_self _ _)
        have h4 : s0 ≠ 0x5C := fun h => hp.2.2.1 (h ▸ List.mem_cons_self _ _)
        have h5 : s0 ≠ 0x2E := fun h => hp.1 (h ▸ List.mem_cons_self _ _)
        have hne' : ∀ c, c < 0x80 → s0 ≠ c → (unpackRune (s0 :: t)).1 ≠ c := by
          intro c hc hs hd
          have := (decode_fst_ascii (s0 :: t) c hc).1 hd
          simp at this
          exact hs this
        rw [matchRun_other tl _ (s0 :: t) st (by simp) (hne' _ (by omega) h1)
          (hne' _ (by omega) h2) (hne' _ (by omega) h3)]
        rw [literalRune_of_ne _ _ (hne' _ (by omega) h4),
          literalRest_of_ne _ _ (hne' _ (by omega) h4)]
        simp only [hne, if_false, Bool.false_and, Bool.false_eq_true, hasFlag_pp_casefold]
        have hsuf : PeriodSafePattern (unpackRune (s0 :: t)).2 :=
          PeriodSafePattern_suffix _ _ (unpackRune_suffix _) hp
        have hlt := unpackRune_length_lt (s0 :: t) (by simp)
        simp only [List.length_cons] at hlt
        rcases PeriodPending_step st hst with ⟨hd, _⟩ | ⟨_, hpend⟩ | ⟨_, hpend⟩
        · have : ((unpackRune st.str).1 == (unpackRune (s0 :: t)).1) = false := by
            rw [hd]
            simpa using (hne' _ (by omega) h5).symm
          rw [this]
          simp
        · split
          · exact ih _ _ (by omega) hsuf hpend
          · rfl
        · split
          · exact ih _ _ (by omega) hsuf hpend
          · rfl

/-- A pair of ASCII code points that are neighbours in a string are neighbouring bytes. -/
theorem infix_runes_ascii (a b : Nat) (ha : a < 0x80) (hb : b < 0x80) :
    ∀ (n : Nat) (s : GoString), s.length ≤ n → [a, b] <:+: runes s → [a, b] <:+: s := by
  intro n
  induction n with
  | zero =>
    intro s hn h
    have : s = [] := List.eq_nil_of_length_eq_zero (by omega)
    subst this
    simp [runes_nil] at h
  | succ n ih =>
    intro s hn h
    cases s with
    | nil => simp [runes_nil] at h
    | cons s0 t =>
      rw [runes_cons] at h
      have hlt := unpackRune_length_lt (s0 :: t) (by simp)
      simp only [List.length_cons] at hlt hn
      rcases List.infix_cons_iff.1 h with hp | hi
      · obtain ⟨r, hr⟩ := hp
        simp only [List.cons_append, List.cons.injEq, List.nil_append] at hr
        have h0 := (decode_fst_ascii (s0 :: t) a ha).1 hr.1.symm
        simp only [List.head?_cons, Option.some.injEq] at h0
        subst h0
        have hd : unpackRune (s0 :: t) = (s0, t) := by
          simp [unpackRune, decode_ascii _ _ ha]
        rw [hd] at hr
        cases t with
        | nil => simp [runes_nil] at hr
        | cons t0 t' =>
          rw [runes_cons] at hr
          simp only [List.cons.injEq] at hr
          have h1 := (decode_fst_ascii (t0 :: t') b hb).1 hr.2.1.symm
          simp only [List.head?_cons, Option.some.injEq] at h1
          subst h1
          exact ⟨[], t', rfl⟩
      · have := ih _ (by omega) hi
        exact this.trans (unpackRune_suffix (s0 :: t)).isInfix

/-- C4 as stated fails: under Pathname with Period the pattern `*b/?` matches the candidate
`ab/.`, although the pattern has no `.`, `[` or backslash and the candidate has a `.`
directly after a `/`. -/
theorem Match_period_after_slash_counterexample :
    0x2E ∉ runes (bytes "*b/?") ∧ 0x5B ∉ runes (bytes "*b/?") ∧ 0x5C ∉ runes (bytes "*b/?") ∧
    [0x2F, 0x2E] <:+: runes (bytes "ab/.") ∧
    Match asciiLower (bytes "*b/?") (bytes "ab/.") [Int.lor Pathname Period] = Res.ok true := by
  decide

/-- C4, amended: with Pathname and Period set, for every pattern that contains no `.`, no
`[` and no backslash and in which every `*` is followed by another `*`, by `/` or by the
end of the pattern, and every candidate in which some `.` occurs immediately after a `/`,
`Match` returns `false`. -/
theorem Match_period_after_slash (toLower : Nat → Nat) (pattern candidate : GoString)
    (h1 : 0x2E ∉ runes pattern) (h2 : 0x5B ∉ runes pattern) (h3 : 0x5C ∉ runes pattern)
    (h4 : StarsBeforeSlash pattern = true) (hc : [0x2F, 0x2E] <:+: runes candidate) :
    Match toLower pattern candidate [Int.lor Pathname Period] = Res.ok false := by
  rw [mem_runes_ascii _ (by omega) _ pattern (le_refl _)] at h1 h2 h3
  rw [Match_one_flag]
  exact matchRun_period_pending toLower _ pattern _ (le_refl _) ⟨h1, h2, h3, h4⟩
    (Or.inl (infix_runes_ascii _ _ (by omega) (by omega) _ candidate (le_refl _) hc))

/-- C4, amended, at the pattern `a*/?` and the candidate `ab/.`. -/
theorem Match_period_after_slash_witness :
    0x2E ∉ runes (bytes "a*/?") ∧ 0x5B ∉ runes (bytes "a*/?") ∧ 0x5C ∉ runes (bytes "a*/?") ∧
    StarsBeforeSlash (bytes "a*/?") = true ∧ [0x2F, 0x2E] <:+: runes (bytes "ab/.") ∧
    Match asciiLower (bytes "a*/?") (bytes "ab/.") [Int.lor Pathname Period] = Res.ok false :=
  ⟨by decide, by decide, by decide, by decide, by decide,
    Match_period_after_slash asciiLower (bytes "a*/?") (bytes "ab/.")
      (by decide) (by decide) (by decide) (by decide) (by decide)⟩

/-! ## The flag word of the recursive call -/

theorem testBit_four (i : Nat) : Nat.testBit 4 i = decide (2 = i) := by
  have : (4 : Nat) = 2 ^ 2 := rfl
  rw [this, Nat.testBit_two_pow]

theorem nat_clear_and (m k : Nat) (hk : k ≠ 2) : (m ^^^ (m &&& 4)) &&& 2 ^ k = m &&& 2 ^ k := by
  apply Nat.eq_of_testBit_eq
  intro i
  simp only [Nat.testBit_and, Nat.testBit_xor, Nat.testBit_two_pow, testBit_four]
  by_cases h1 : k = i
  · have h2 : ¬ 2 = i := by omega
    simp [h1, h2]
  · simp [h1]

theorem nat_or_and (m k : Nat) (hk : k ≠ 2) : 2 ^ k &&& (m ||| 4) = 2 ^ k &&& m := by
  apply Nat.eq_of_testBit_eq
  intro i
  simp only [Nat.testBit_and, Nat.testBit_or, Nat.testBit_two_pow, testBit_four]
  by_cases h1 : k = i
  · have h2 : ¬ 2 = i := by omega
    simp [h1, h2]
  · simp [h1]

/-- Clearing Period leaves every other flag bit as it is. -/
theorem hasFlag_clear_period (cf : Int) (k : Nat) (hk : k ≠ 2) :
    hasFlag (Int.xor 0 (andInt cf (Int.lnot Period))) (Int.ofNat (2 ^ k)) =
      hasFlag cf (Int.ofNat (2 ^ k)) := by
  rw [xor_zero_left]
  cases cf with
  | ofNat m =>
    show (Int.ofNat ((m ^^^ (m &&& 4)) &&& 2 ^ k) != 0) = (Int.ofNat (m &&& 2 ^ k) != 0)
    rw [nat_clear_and m k hk]
  | negSucc m =>
    show (Int.ofNat (2 ^ k ^^^ (2 ^ k &&& (m ||| 4))) != 0) =
      (Int.ofNat (2 ^ k ^^^ (2 ^ k &&& m)) != 0)
    rw [nat_or_and m k hk]

theorem hasFlag_clear_period_pathname (cf : Int) :
    hasFlag (Int.xor 0 (andInt cf (Int.lnot Period))) Pathname = hasFlag cf Pathname :=
  hasFlag_clear_period cf 1 (by decide)

theorem hasFlag_clear_period_leadingdir (cf : Int) :
    hasFlag (Int.xor 0 (andInt cf (Int.lnot Period))) LeadingDir = hasFlag cf LeadingDir :=
  hasFlag_clear_period cf 3 (by decide)

/-! ## C3: a path separator in the candidate -/

theorem mem_unpack_of_head_ne (s : GoString) (k : Nat) (hk : k < 0x80) (hm : k ∈ s)
    (hd : (unpackRune s).1 ≠ k) : k ∈ (unpackRune s).2 := by
  cases s with
  | nil => simp at hm
  | cons s0 t =>
    rcases (unpack_mem_ascii s0 t k hk).1 hm with h | h
    · exact absurd h hd
    · exact h

/-- The suffix loop never matches when no recursive call on a candidate with `/` does. -/
theorem starRun_no_match (m : GoString → Res Bool)
    (hm : ∀ t, 0x2F ∈ t → NoMatch (m t)) :
    ∀ (n : Nat) (test : GoString), test.length ≤ n → 0x2F ∈ test →
      NoMatch (starRun m true test) := by
  intro n
  induction n with
  | zero =>
    intro test hn h
    have : test = [] := List.eq_nil_of_length_eq_zero (by omega)
    subst this
    simp at h
  | succ n ih =>
    intro test hn h
    have hpos : test.length > 0 := List.length_pos_of_mem h
    rw [starRun_eq, starBody]
    simp only [hpos, if_true, Bool.true_and]
    rcases hm test h with h1 | h1
    · rw [h1]
      simp only
      split
      · exact Or.inl rfl
      · rename_i hh
        have hd : (unpackRune test).1 ≠ 0x2F := by
          intro hd
          apply hh
          have := (decode_fst_ascii test 0x2F (by omega)).1 hd
          simp [this]
        have hlt := unpackRune_length_lt test hpos
        exact ih _ (by omega) (mem_unpack_of_head_ne test 0x2F (by omega) h hd)
    · rw [h1]
      exact Or.inr rfl

/-- Under Pathname without LeadingDir, a pattern without `/` never matches a candidate
with a `/` still to read. -/
theorem matchRun_pathname_no_match (tl : Nat → Nat) (htl : ∀ c, tl c = tl 0x2F → c = 0x2F) :
    ∀ (n : Nat) (cf : Int) (p : GoString) (st : StrState), p.length ≤ n →
      hasFlag cf Pathname = true → hasFlag cf LeadingDir = false → 0x2F ∉ p →
      0x2F ∈ st.str → NoMatch (matchRun tl cf p st) := by
  intro n
  induction n with
  | zero =>
    intro cf p st hn _ hld _ hs
    have : p = [] := List.eq_nil_of_length_eq_zero (by omega)
    subst this
    have hne : st.str.length ≠ 0 := Nat.pos_iff_ne_zero.1 (List.length_pos_of_mem hs)
    left
    simp [matchRun_nil, hld, hne]
  | succ n ih =>
    intro cf p st hn hpn hld hp hs
    have hne : st.str.length ≠ 0 := Nat.pos_iff_ne_zero.1 (List.length_pos_of_mem hs)
    cases p with
    | nil =>
      left
      simp [matchRun_nil, hld, hne]
    | cons s0 t =>
      have ht : 0x2F ∉ t := fun h => hp (List.mem_cons_of_mem _ h)
      simp only [List.length_cons] at hn
      by_cases h1 : s0 = 0x3F
      · subst h1
        rw [matchRun_question]
        simp only [hne, if_false, hpn, Bool.and_true]
        split
        · exact Or.inl rfl
        · rename_i hd
          have hd' : (unpackRune st.str).1 ≠ 0x2F := by simpa using hd
          split
          · exact Or.inl rfl
          · exact ih cf t _ (by omega) hpn hld ht
              (mem_unpack_of_head_ne st.str 0x2F (by omega) hs hd')
      by_cases h2 : s0 = 0x2A
      · subst h2
        rw [matchRun_star]
        split
        · exact Or.inl rfl
        · split
          · left
            simp [hpn, hld, ContainsRune, hs]
          · rename_i q0 q hq
            have hqs : (q0 :: q) <:+ t := by
              rw [← hq]
              exact List.dropWhile_suffix _
            have hqm : 0x2F ∉ q0 :: q := fun h => ht (hqs.subset h)
            have hq0 : (q0 == 0x2F) = false := by
              have : q0 ≠ 0x2F := fun h => hqm (h ▸ List.mem_cons_self _ _)
              simpa using this
            simp only [hq0, Bool.false_and, Bool.false_eq_true, if_false, hpn]
            apply starRun_no_match _ _ st.str.length st.str (le_refl _) hs
            intro u hu
            have hl := hqs.length_le
            exact ih _ (q0 :: q) _ (by omega)
              (by rw [hasFlag_clear_period_pathname]; exact hpn)
              (by rw [hasFlag_clear_period_leadingdir]; exact hld) hqm hu
      by_cases h3 : s0 = 0x5B
      · subst h3
        rw [matchRun_class]
        simp only [hne, if_false, hpn, Bool.true_and]
        split
        · exact Or.inl rfl
        · rename_i hh
          have hd : (unpackRune st.str).1 ≠ 0x2F := by
            intro hd
            apply hh
            have := (decode_fst_ascii st.str 0x2F (by omega)).1 hd
            simp [this]
          split
          · rename_i p2 heq
            have hsuf := matchRange_suffix _ _ _ _ _ _ heq
            have hl := hsuf.length_le
            exact ih cf p2 _ (by omega) hpn hld (fun h => ht (hsuf.subset h))
              (mem_unpack_of_head_ne st.str 0x2F (by omega) hs hd)
          · exact Or.inl rfl
          · exact Or.inr rfl
          · rename_i heq
            exact absurd heq (matchRange_ne_fuel _ _ _ _)
      · have hne' : ∀ c, c < 0x80 → s0 ≠ c → (unpackRune (s0 :: t)).1 ≠ c := by
          intro c hc hs hd
          have := (decode_fst_ascii (s0 :: t) c hc).1 hd
          simp at this
          exact hs this
        rw [matchRun_other tl _ (s0 :: t) st (by simp) (hne' _ (by omega) h1)
          (hne' _ (by omega) h2) (hne' _ (by omega) h3)]
        simp only [hne, if_false]
        have hlt := unpackRune_length_lt (s0 :: t) (by simp)
        simp only [List.length_cons] at hlt
        have hs1 : (unpackRune (s0 :: t)).2 <:+ s0 :: t := unpackRune_suffix _
        have hs2 := literalRest_suffix cf (s0 :: t)
        have hl2 := hs2.length_le
        have hp2 : 0x2F ∉ literalRest cf (s0 :: t) := fun h => hp ((hs2.trans hs1).subset h)
        -- the pattern rune compared with the candidate is not a slash
        have hpc : literalRune cf (s0 :: t) ≠ 0x2F := by
          unfold literalRune
          split
          · intro hd
            have h0 := (decode_fst_ascii _ 0x2F (by omega)).1 hd
            have hm : 0x2F ∈ (unpackRune (s0 :: t)).2 := by
              cases hu : (unpackRune (s0 :: t)).2 with
              | nil => rw [hu] at h0; simp at h0
              | cons x u =>
                rw [hu] at h0
                simp only [List.head?_cons, Option.some.injEq] at h0
                rw [h0]
                exact List.mem_cons_self _ _
            exact hp (hs1.subset hm)
          · exact hne' _ (by omega) (fun h => hp (h ▸ List.mem_cons_self _ _))
        split
        · rename_i heq
          have hd : (unpackRune st.str).1 ≠ 0x2F := by
            intro hd
            rw [hd] at heq
            have h47 : 0x2F = literalRune cf (s0 :: t) := by simpa using heq
            exact hpc h47.symm
          exact ih cf _ _ (by omega) hpn hld hp2
            (mem_unpack_of_head_ne st.str 0x2F (by omega) hs hd)
        · split
          · rename_i heq
            have hd : (unpackRune st.str).1 ≠ 0x2F := by
              intro hd
              rw [hd] at heq
              simp only [Bool.and_eq_true, beq_iff_eq] at heq
              exact hpc (htl _ heq.2.symm)
            exact ih cf _ _ (by omega) hpn hld hp2
              (mem_unpack_of_head_ne st.str 0x2F (by omega) hs hd)
          · exact Or.inl rfl

/-- The part of C3 that holds on the code: under Pathname without LeadingDir, a pattern
without `/` never matches a candidate that contains a `/`; the call returns `false` or
panics.  Lower-casing is taken to map nothing but `/` to the lower case of `/`. -/
theorem Match_pathname_no_match (toLower : Nat → Nat)
    (htl : ∀ c, toLower c = toLower 0x2F → c = 0x2F) (f : Int) (pattern candidate : GoString)
    (hf1 : hasFlag f Pathname = true) (hf2 : hasFlag f LeadingDir = false)
    (hp : 0x2F ∉ runes pattern) (hc : 0x2F ∈ runes candidate) :
    NoMatch (Match toLower pattern candidate [f]) := by
  rw [mem_runes_ascii _ (by omega) _ pattern (le_refl _)] at hp
  rw [mem_runes_ascii _ (by omega) _ candidate (le_refl _)] at hc
  rw [Match_one_flag]
  exact matchRun_pathname_no_match toLower htl _ f pattern _ (le_refl _) hf1 hf2 hp hc

/-- C3 fails on the code: under Pathname the pattern `[é`, which contains no `/`, against
the candidate `x/`, which contains one, does not return `false`: the call panics in
`matchRange`, by the defect of C1. -/
theorem Match_pathname_open_class_panics (toLower : Nat → Nat) :
    hasFlag Pathname Pathname = true ∧ hasFlag Pathname LeadingDir = false ∧
    0x2F ∉ runes (bytes "[é") ∧ 0x2F ∈ runes (bytes "x/") ∧
    Match toLower (bytes "[é") (bytes "x/") [Pathname] = Res.panic :=
  ⟨by decide, by decide, by decide, by decide, rfl⟩

/-! ## C2: the member loop and the skipping loop agree on where a class ends -/

theorem RangeSkipInv_transfer (p p' : GoString) (h : skipRun p' false = skipRun p false) :
    ∀ r, RangeSkipInv p' r → RangeSkipInv p r
  | Res.ok (RangeExit.done _ _), hr => Eq.trans hr h
  | Res.ok (RangeExit.retFalse _), _ => trivial
  | Res.panic, hr => by
      obtain ⟨q, hq⟩ := hr
      exact ⟨q, h ▸ hq⟩
  | Res.fuel, hr => hr

/-- The skipping loop passes a rune that is neither a backslash nor a closing bracket. -/
theorem skipRun_pass (p : GoString) (hp : 0 < p.length) (h1 : (unpackRune p).1 ≠ 0x5C)
    (h2 : (unpackRune p).1 ≠ 0x5D) : skipRun p false = skipRun (unpackRune p).2 false := by
  rw [skipRun_eq, skipBody]
  have e1 : ((unpackRune p).1 == 0x5C) = false := by simpa using h1
  have e2 : ((unpackRune p).1 == 0x5D) = false := by simpa using h2
  simp [hp, e1, e2]

/-- The skipping loop passes a backslash together with the rune after it. -/
theorem skipRun_escape (p : GoString) (hp : 0 < p.length) (h1 : (unpackRune p).1 = 0x5C)
    (h2 : 0 < (unpackRune p).2.length) :
    skipRun p false = skipRun (unpackRune (unpackRune p).2).2 false := by
  rw [skipRun_eq, skipBody]
  simp [hp, h1, h2]

theorem skipRun_nil : skipRun [] false = Res.ok (false, []) := rfl

theorem head_ne_of_rune_ne (p : GoString) (k : Nat) (hk : k < 0x80)
    (h : p.head? ≠ some k) : (unpackRune p).1 ≠ k :=
  fun hd => h ((decode_fst_ascii p k hk).1 hd)

theorem rangeRun_skip_inv (tl : Nat → Nat) (test : Nat) :
    ∀ (n : Nat) (p : GoString) (m : Bool), p.length ≤ n →
      RangeSkipInv p (rangeRun tl false false test p m) := by
  intro n
  induction n with
  | zero =>
    intro p m hn
    rw [rangeRun_short _ _ _ _ _ _ (by omega)]
    rfl
  | succ n ih =>
    intro p m hn
    rw [rangeRun_eq, rangeBody]
    by_cases hc : (!m && decide (p.length > 1) && p.head? != some 0x5D) = true
    · have hc' := hc
      simp only [Bool.and_eq_true, decide_eq_true_eq, bne_iff_ne, ne_eq] at hc'
      have hp : 1 < p.length := hc'.1.2
      have hh : (unpackRune p).1 ≠ 0x5D := head_ne_of_rune_ne p _ (by omega) hc'.2
      have h1 := unpackRune_length_lt p (by omega)
      simp only [hc, if_true, Bool.not_false, Bool.true_and]
      by_cases hret : ((unpackRune p).1 == 0x5C && !decide ((unpackRune p).2.length > 1)) = true
      · simp only [hret, if_true]
        trivial
      · simp only [hret, Bool.false_eq_true, if_false]
        have hs2 : skipRun (if ((unpackRune p).1 == 0x5C) = true
            then (unpackRune (unpackRune p).2).2 else (unpackRune p).2) false
            = skipRun p false := by
          by_cases hb : (unpackRune p).1 = 0x5C
          · have hl : (unpackRune p).2.length > 1 := by
              by_contra hl
              apply hret
              simp [hb, hl]
            simp only [hb, beq_self_eq_true, if_true]
            exact (skipRun_escape p (by omega) hb (by omega)).symm
          · have hb' : ((unpackRune p).1 == 0x5C) = false := by simpa using hb
            simp only [hb', Bool.false_eq_true, if_false]
            exact (skipRun_pass p (by omega) hb hh).symm
        have hl2 := ite_unpack_length_le ((unpackRune p).1 == 0x5C) (unpackRune p).2
        generalize hp2 : (if ((unpackRune p).1 == 0x5C) = true
            then (unpackRune (unpackRune p).2).2 else (unpackRune p).2) = p2 at hs2 hl2 ⊢
        apply RangeSkipInv_transfer p p2 hs2
        cases p2 with
        | nil => exact ⟨[], skipRun_nil⟩
        | cons b0 p2t =>
          simp only
          by_cases hrange : (b0 == 0x2D && decide ((b0 :: p2t).length > 1) &&
              p2t.head? != some 0x5D) = true
          · have hr' := hrange
            simp only [Bool.and_eq_true, decide_eq_true_eq, bne_iff_ne, ne_eq, beq_iff_eq,
              List.length_cons] at hr'
            obtain ⟨⟨hb0, hlen⟩, hh2⟩ := hr'
            subst hb0
            have hd : unpackRune (0x2D :: p2t) = (0x2D, p2t) := by
              simp [unpackRune, decode_ascii]
            have hs3 : skipRun (0x2D :: p2t) false = skipRun p2t false := by
              rw [skipRun_pass (0x2D :: p2t) (by simp) (by rw [hd]; simp) (by rw [hd]; simp),
                hd]
            have hh3 : (unpackRune p2t).1 ≠ 0x5D := head_ne_of_rune_ne p2t _ (by omega) hh2
            have h3 := unpackRune_length_lt p2t (by omega)
            simp only [hrange, if_true, hd]
            by_cases hret2 : ((unpackRune p2t).1 == 0x5C &&
                !decide ((unpackRune p2t).2.length > 0)) = true
            · simp only [hret2, if_true]
              trivial
            · simp only [hret2, Bool.false_eq_true, if_false]
              have hs5 : skipRun (if ((unpackRune p2t).1 == 0x5C) = true
                  then (unpackRune (unpackRune p2t).2).2 else (unpackRune p2t).2) false
                  = skipRun p2t false := by
                by_cases hb : (unpackRune p2t).1 = 0x5C
                · have hl : (unpackRune p2t).2.length > 0 := by
                    by_contra hl
                    apply hret2
                    simp [hb, hl]
                  simp only [hb, beq_self_eq_true, if_true]
                  exact (skipRun_escape p2t (by omega) hb hl).symm
                · have hb' : ((unpackRune p2t).1 == 0x5C) = false := by simpa using hb
                  simp only [hb', Bool.false_eq_true, if_false]
                  exact (skipRun_pass p2t (by omega) hb hh3).symm
              have hl5 := ite_unpack_length_le ((unpackRune p2t).1 == 0x5C) (unpackRune p2t).2
              simp only [List.length_cons] at hl2
              exact RangeSkipInv_transfer _ _ (hs5.trans hs3.symm) _
                (ih _ _ (by omega))
          · simp only [hrange, Bool.false_eq_true, if_false]
            exact ih _ _ (by omega)
    · simp only [hc]
      rfl

/-- With no flags, a class that matches some rune is one whose skipping loop finds the
closing bracket, and the cursor after it does not depend on the rune. -/
theorem matchRange_zero_true (tl : Nat → Nat) (p : GoString) (c : Nat) (q : GoString)
    (h : matchRange tl p c 0 = Res.ok (true, q)) :
    skipRun (classStart p) false = Res.ok (true, q) := by
  unfold matchRange at h
  split at h
  · cases h
  · have hg := rangeRun_skip_inv tl c _ (classStart p) false (le_refl _)
    simp only [hasFlag_zero, Bool.false_eq_true, if_false] at h
    unfold classStart at hg ⊢
    split at h
    · cases h
    · rename_i q1 m1 heq
      rw [heq] at hg
      have hg' : skipRun q1 false = skipRun _ false := hg
      rw [← hg']
      obtain ⟨b2, q2, hq2, _⟩ := skipRun_ok q1.length q1 false (le_refl _)
      rw [hq2] at h ⊢
      simp only [Res.ok.injEq, Prod.mk.injEq, Bool.and_eq_true] at h
      rw [h.1.1, h.2]
    · cases h
    · cases h

/-- With no flags, a class on which `matchRange` panics is one whose skipping loop finds no
closing bracket. -/
theorem matchRange_zero_panic (tl : Nat → Nat) (p : GoString) (c : Nat)
    (h : matchRange tl p c 0 = Res.panic) :
    ∃ q, skipRun (classStart p) false = Res.ok (false, q) := by
  unfold matchRange at h
  split at h
  · cases h
  · have hg := rangeRun_skip_inv tl c _ (classStart p) false (le_refl _)
    simp only [hasFlag_zero, Bool.false_eq_true, if_false] at h
    unfold classStart at hg ⊢
    split at h
    · cases h
    · rename_i q1 m1 heq
      obtain ⟨b2, q2, hq2, _⟩ := skipRun_ok q1.length q1 false (le_refl _)
      rw [hq2] at h
      cases h
    · rename_i heq
      rw [heq] at hg
      exact hg
    · cases h

/-! ## C2: the suffix loop -/

theorem unpackRune_nil : (unpackRune []).2 = [] := rfl

theorem dropRunes_nil : ∀ n, dropRunes n [] = []
  | 0 => rfl
  | n + 1 => by rw [dropRunes, unpackRune_nil, dropRunes_nil n]

theorem dropRunes_add : ∀ (n k : Nat) (s : GoString),
    dropRunes k (dropRunes n s) = dropRunes (n + k) s
  | 0, k, s => by simp [dropRunes]
  | n + 1, k, s => by
    have : n + 1 + k = (n + k) + 1 := by omega
    rw [this, dropRunes, dropRunes, dropRunes_add n k]

theorem dropRunes_length : ∀ (n : Nat) (s : GoString), s.length ≤ n → dropRunes n s = []
  | 0, s, h => by
    simp only [dropRunes]
    exact List.eq_nil_of_length_eq_zero (by omega)
  | n + 1, s, h => by
    rw [dropRunes]
    apply dropRunes_length n
    cases s with
    | nil => simp [unpackRune_nil]
    | cons b t =>
      have := unpackRune_length_lt (b :: t) (by simp)
      omega

/-- The suffix loop never exhausts its fuel when the recursive calls do not. -/
theorem starRun_ne_fuel (m : GoString → Res Bool) (fp : Bool) (hm : ∀ t, m t ≠ Res.fuel) :
    ∀ (n : Nat) (test : GoString), test.length ≤ n → starRun m fp test ≠ Res.fuel := by
  intro n
  induction n with
  | zero =>
    intro test hn
    have : test = [] := List.eq_nil_of_length_eq_zero (by omega)
    subst this
    rw [starRun_eq, starBody]
    simp
  | succ n ih =>
    intro test hn
    rw [starRun_eq, starBody]
    split
    · rename_i hpos
      have hlt := unpackRune_length_lt test hpos
      split
      · simp
      · split
        · simp
        · exact ih _ (by omega)
      · simp
      · rename_i heq
        exact absurd heq (hm test)
    · simp

/-- The main loop never exhausts a fuel counter started at the length of the pattern. -/
theorem matchRun_ne_fuel (tl : Nat → Nat) :
    ∀ (n : Nat) (cf : Int) (p : GoString) (st : StrState), p.length ≤ n →
      matchRun tl cf p st ≠ Res.fuel := by
  intro n
  induction n with
  | zero =>
    intro cf p st hn
    have : p = [] := List.eq_nil_of_length_eq_zero (by omega)
    subst this
    simp [matchRun_nil]
  | succ n ih =>
    intro cf p st hn
    cases p with
    | nil => simp [matchRun_nil]
    | cons s0 t =>
      simp only [List.length_cons] at hn
      by_cases h1 : s0 = 0x3F
      · subst h1
        rw [matchRun_question]
        split
        · simp
        · split
          · simp
          · split
            · simp
            · exact ih _ _ _ (by omega)
      by_cases h2 : s0 = 0x2A
      · subst h2
        rw [matchRun_star]
        split
        · simp
        · split
          · split
            · split <;> simp
            · simp
          · rename_i q0 q hq
            have hqs : (q0 :: q) <:+ t := by
              rw [← hq]
              exact List.dropWhile_suffix _
            have hl := hqs.length_le
            simp only [List.length_cons] at hl
            split
            · split
              · simp
              · exact ih _ _ _ (by omega)
            · apply starRun_ne_fuel _ _ _ st.str.length st.str (le_refl _)
              intro u
              exact ih _ _ _ (by simp only [List.length_cons]; omega)
      by_cases h3 : s0 = 0x5B
      · subst h3
        rw [matchRun_class]
        split
        · simp
        · split
          · simp
          · split
            · rename_i p2 heq
              have hl := (matchRange_suffix _ _ _ _ _ _ heq).length_le
              exact ih _ _ _ (by omega)
            · simp
            · simp
            · rename_i heq
              exact absurd heq (matchRange_ne_fuel _ _ _ _)
      · have hne' : ∀ c, c < 0x80 → s0 ≠ c → (unpackRune (s0 :: t)).1 ≠ c := by
          intro c hc hs hd
          have := (decode_fst_ascii (s0 :: t) c hc).1 hd
          simp at this
          exact hs this
        rw [matchRun_other tl _ (s0 :: t) st (by simp) (hne' _ (by omega) h1)
          (hne' _ (by omega) h2) (hne' _ (by omega) h3)]
        have hlt := unpackRune_length_lt (s0 :: t) (by simp)
        simp only [List.length_cons] at hlt
        have hl2 := (literalRest_suffix cf (s0 :: t)).length_le
        split
        · simp
        · split
          · exact ih _ _ _ (by omega)
          · split
            · exact ih _ _ _ (by omega)
            · simp

/-- The function `Match` never exhausts the fuel it is started with: the length of the
pattern bounds the number of iterations and the depth of the recursion. -/
theorem Match_ne_fuel (toLower : Nat → Nat) (pattern str : GoString) (flags : List Int) :
    Match toLower pattern str flags ≠ Res.fuel :=
  matchRun_ne_fuel toLower _ _ pattern _ (le_refl _)

theorem clear_period_zero : Int.xor 0 (andInt 0 (Int.lnot Period)) = 0 := by decide

/-- A successful suffix loop found a non-empty suffix on which the recursive call
succeeded. -/
theorem starRun_true (m : GoString → Res Bool) (fp : Bool) :
    ∀ (n : Nat) (s : GoString), s.length ≤ n → starRun m fp s = Res.ok true →
      ∃ k, 0 < (dropRunes k s).length ∧ m (dropRunes k s) = Res.ok true := by
  intro n
  induction n with
  | zero =>
    intro s hn h
    have : s = [] := List.eq_nil_of_length_eq_zero (by omega)
    subst this
    rw [starRun_eq, starBody] at h
    simp at h
  | succ n ih =>
    intro s hn h
    rw [starRun_eq, starBody] at h
    split at h
    · rename_i hpos
      have hlt := unpackRune_length_lt s hpos
      split at h
      · rename_i heq
        exact ⟨0, hpos, heq⟩
      · split at h
        · cases h
        · obtain ⟨k, hk1, hk2⟩ := ih _ (by omega) h
          exact ⟨k + 1, hk1, hk2⟩
      · cases h
      · cases h
    · cases h

/-- A suffix loop that panics does so in a recursive call. -/
theorem starRun_panic (m : GoString → Res Bool) (fp : Bool) :
    ∀ (n : Nat) (s : GoString), s.length ≤ n → starRun m fp s = Res.panic →
      ∃ t, m t = Res.panic := by
  intro n
  induction n with
  | zero =>
    intro s hn h
    have : s = [] := List.eq_nil_of_length_eq_zero (by omega)
    subst this
    rw [starRun_eq, starBody] at h
    simp at h
  | succ n ih =>
    intro s hn h
    rw [starRun_eq, starBody] at h
    split at h
    · rename_i hpos
      have hlt := unpackRune_length_lt s hpos
      split at h
      · cases h
      · split at h
        · cases h
        · exact ih _ (by omega) h
      · rename_i heq
        exact ⟨s, heq⟩
      · cases h
    · cases h

/-- Without Pathname, the suffix loop succeeds as soon as the recursive call succeeds on
some non-empty suffix, provided no recursive call fails to return. -/
theorem starRun_of_true (m : GoString → Res Bool)
    (hm : ∀ t, m t = Res.ok true ∨ m t = Res.ok false) :
    ∀ (k : Nat) (s : GoString), 0 < (dropRunes k s).length → m (dropRunes k s) = Res.ok true →
      starRun m false s = Res.ok true := by
  intro k
  induction k with
  | zero =>
    intro s hpos h
    simp only [dropRunes] at hpos h
    rw [starRun_eq, starBody]
    simp [hpos, h]
  | succ k ih =>
    intro s hpos h
    have hs : 0 < s.length := by
      cases s with
      | nil => rw [dropRunes_nil] at hpos; simp at hpos
      | cons b t => simp
    rw [starRun_eq, starBody]
    simp only [gt_iff_lt, hs, if_true, Bool.false_and, Bool.false_eq_true, if_false]
    rcases hm s with h1 | h1
    · rw [h1]
    · rw [h1]
      exact ih _ hpos h

/-- With no flags, a pattern on which `Match` panics for some candidate matches no
candidate: the panic is at the end of the pattern, in a bracket expression that has no
closing bracket. -/
theorem matchRun_panic_no_true (tl : Nat → Nat) :
    ∀ (n : Nat) (p : GoString), p.length ≤ n →
      ∀ st, matchRun tl 0 p st = Res.panic → ∀ st', matchRun tl 0 p st' ≠ Res.ok true := by
  intro n
  induction n with
  | zero =>
    intro p hn st h
    have : p = [] := List.eq_nil_of_length_eq_zero (by omega)
    subst this
    simp [matchRun_nil] at h
  | succ n ih =>
    intro p hn st h st' h'
    cases p with
    | nil => simp [matchRun_nil] at h
    | cons s0 t =>
      simp only [List.length_cons] at hn
      by_cases h1 : s0 = 0x3F
      · subst h1
        rw [matchRun_question] at h h'
        simp only [hasFlag_zero, Bool.and_false, Bool.false_and, Bool.false_eq_true,
          if_false] at h h'
        split at h
        · cases h
        · split at h'
          · cases h'
          · exact ih t (by omega) _ h _ h'
      by_cases h2 : s0 = 0x2A
      · subst h2
        rw [matchRun_star] at h h'
        simp only [hasFlag_zero, Bool.and_false, Bool.false_and, Bool.false_eq_true,
          if_false, clear_period_zero] at h h'
        split at h
        · cases h
        · rename_i q0 q hq
          rw [hq] at h'
          simp only at h'
          have hqs : (q0 :: q) <:+ t := by
            rw [← hq]
            exact List.dropWhile_suffix _
          have hl := hqs.length_le
          obtain ⟨u, hu⟩ := starRun_panic _ _ _ _ (le_refl _) h
          obtain ⟨k, _, hk⟩ := starRun_true _ _ _ _ (le_refl _) h'
          exact ih (q0 :: q) (by omega) _ hu _ hk
      by_cases h3 : s0 = 0x5B
      · subst h3
        rw [matchRun_class] at h h'
        simp only [hasFlag_zero, Bool.false_and, Bool.false_eq_true, if_false] at h h'
        split at h
        · cases h
        · split at h'
          · cases h'
          · split at h'
            · rename_i p2' heq'
              have ht' := matchRange_zero_true _ _ _ _ heq'
              split at h
              · rename_i p2 heq
                have ht := matchRange_zero_true _ _ _ _ heq
                rw [ht] at ht'
                simp only [Res.ok.injEq, Prod.mk.injEq, true_and] at ht'
                subst ht'
                have hl := (matchRange_suffix _ _ _ _ _ _ heq).length_le
                exact ih p2 (by omega) _ h _ h'
              · cases h
              · rename_i heq
                obtain ⟨q, hq⟩ := matchRange_zero_panic _ _ _ heq
                rw [hq] at ht'
                simp at ht'
              · cases h
            · cases h'
            · cases h'
            · cases h'
      · have hne' : ∀ c, c < 0x80 → s0 ≠ c → (unpackRune (s0 :: t)).1 ≠ c := by
          intro c hc hs hd
          have := (decode_fst_ascii (s0 :: t) c hc).1 hd
          simp at this
          exact hs this
        rw [matchRun_other tl _ (s0 :: t) _ (by simp) (hne' _ (by omega) h1)
          (hne' _ (by omega) h2) (hne' _ (by omega) h3)] at h h'
        simp only [hasFlag_zero, Bool.false_and, Bool.false_eq_true, if_false] at h h'
        have hlt := unpackRune_length_lt (s0 :: t) (by simp)
        simp only [List.length_cons] at hlt
        have hl2 := (literalRest_suffix 0 (s0 :: t)).length_le
        split at h
        · cases h
        · split at h
          · split at h'
            · cases h'
            · split at h'
              · exact ih _ (by omega) _ h _ h'
              · cases h'
          · cases h

/-- The `*` case with no flags. -/
theorem matchRun_star_zero (tl : Nat → Nat) (r : GoString) (st : StrState) :
    matchRun tl 0 (0x2A :: r) st =
      match r.dropWhile (fun b => b == 0x2A) with
      | [] => Res.ok true
      | q0 :: q => starRun (fun test => matchRun tl 0 (q0 :: q) (StrState.init test)) false
          st.str := by
  rw [matchRun_star]
  simp only [hasFlag_zero, Bool.and_false, Bool.false_and, Bool.false_eq_true, if_false,
    clear_period_zero]

/-- With no flags, a pattern that does not start with `*` does not match the empty
candidate. -/
theorem matchRun_zero_empty (tl : Nat → Nat) (q0 : Nat) (q : GoString) (h : q0 ≠ 0x2A) :
    matchRun tl 0 (q0 :: q) (StrState.init []) ≠ Res.ok true := by
  by_cases h1 : q0 = 0x3F
  · subst h1
    rw [matchRun_question]
    simp [StrState.init]
  by_cases h3 : q0 = 0x5B
  · subst h3
    rw [matchRun_class]
    simp [StrState.init]
  · have hne' : ∀ c, c < 0x80 → q0 ≠ c → (unpackRune (q0 :: q)).1 ≠ c := by
      intro c hc hs hd
      have := (decode_fst_ascii (q0 :: q) c hc).1 hd
      simp at this
      exact hs this
    rw [matchRun_other tl _ (q0 :: q) _ (by simp) (hne' _ (by omega) h1)
      (hne' _ (by omega) h) (hne' _ (by omega) h3)]
    simp [StrState.init]

/-- With no flags, a pattern that matches some candidate returns a boolean on every
candidate. -/
theorem matchRun_zero_total (tl : Nat → Nat) (p : GoString) (st' : StrState)
    (h' : matchRun tl 0 p st' = Res.ok true) (st : StrState) :
    matchRun tl 0 p st = Res.ok true ∨ matchRun tl 0 p st = Res.ok false := by
  cases h : matchRun tl 0 p st with
  | ok b => cases b <;> simp
  | panic => exact absurd h' (matchRun_panic_no_true tl _ p (le_refl _) st h st')
  | fuel => exact absurd h (matchRun_ne_fuel tl _ 0 p st (le_refl _))

/-- C2: with no flags, `*` followed by the pattern `p` matches the candidate `s` exactly
when `p` matches some suffix of `s` that starts at a code point boundary, `s` itself and
the empty suffix included. -/
theorem Match_star_suffix (toLower : Nat → Nat) (p s : GoString) :
    Match toLower (bytes "*" ++ p) s [] = Res.ok true ↔
      ∃ n, Match toLower p (dropRunes n s) [] = Res.ok true := by
  have hb : bytes "*" = [0x2A] := by decide
  simp only [hb, List.singleton_append, Match_nil_flags]
  rw [matchRun_star_zero]
  -- the pattern `p` itself, by its first byte
  have hp : ∀ t, matchRun toLower 0 p (StrState.init t) =
      match p.dropWhile (fun b => b == 0x2A) with
      | [] => if p = [] then Res.ok (decide (t.length = 0)) else Res.ok true
      | q0 :: q =>
        if p = q0 :: q then matchRun toLower 0 (q0 :: q) (StrState.init t)
        else starRun (fun test => matchRun toLower 0 (q0 :: q) (StrState.init test)) false t := by
    intro t
    cases p with
    | nil => simp [matchRun_nil, hasFlag_zero, StrState.init]
    | cons x r =>
      by_cases hx : x = 0x2A
      · subst hx
        rw [matchRun_star_zero]
        simp only [List.dropWhile_cons, beq_self_eq_true, if_true, StrState.init]
        split
        · simp
        · rename_i q0 q hq
          have hne : ¬ (0x2A :: r = q0 :: q) := by
            intro he
            have hlen := (List.dropWhile_suffix (fun b => b == 0x2A) (l := r)).length_le
            rw [hq, ← he] at hlen
            simp at hlen
          simp [hne]
      · have hx' : (x == 0x2A) = false := by simpa using hx
        simp [List.dropWhile_cons, hx']
  cases hq : p.dropWhile (fun b => b == 0x2A) with
  | nil =>
    simp only [true_iff]
    by_cases hnil : p = []
    · refine ⟨s.length, ?_⟩
      rw [hp, hq]
      simp [hnil, dropRunes_length s.length s (le_refl _)]
    · refine ⟨0, ?_⟩
      rw [hp, hq]
      simp [hnil]
  | cons q0 q =>
    have hstr : (StrState.init s).str = s := rfl
    simp only [hstr]
    have hq0 : q0 ≠ 0x2A := by
      intro h0
      have := List.head_dropWhile_not (fun b => b == 0x2A) p (by rw [hq]; simp)
      simp only [hq, List.head_cons, h0, beq_self_eq_true, Bool.not_true] at this
      cases this
    constructor
    · intro h
      obtain ⟨k, hk1, hk2⟩ := starRun_true _ _ _ _ (le_refl _) h
      refine ⟨k, ?_⟩
      rw [hp, hq]
      simp only
      split
      · exact hk2
      · exact starRun_of_true _ (fun t => matchRun_zero_total toLower _ _ hk2 _) 0 _ hk1 hk2
    · rintro ⟨n, hn⟩
      rw [hp, hq] at hn
      simp only at hn
      split at hn
      · have hpos : 0 < (dropRunes n s).length := by
          by_contra hz
          have : dropRunes n s = [] := List.eq_nil_of_length_eq_zero (by omega)
          rw [this] at hn
          exact matchRun_zero_empty toLower q0 q hq0 hn
        exact starRun_of_true _ (fun t => matchRun_zero_total toLower _ _ hn _) n s hpos hn
      · obtain ⟨k, hk1, hk2⟩ := starRun_true _ _ _ _ (le_refl _) hn
        rw [dropRunes_add] at hk1 hk2
        exact starRun_of_true _ (fun t => matchRun_zero_total toLower _ _ hk2 _) (n + k) s
          hk1 hk2

/-! ## C13, C15, C16, C17: flag arguments, the patterns `*`, `?` and the empty pattern -/

theorem runes_head_ascii (s : GoString) (c : Nat) (hc : c < 0x80) :
    (runes s).head? = some c ↔ s.head? = some c := by
  cases s with
  | nil => simp [runes_nil]
  | cons b t =>
    rw [runes_cons]
    simp only [List.head?_cons, Option.some.injEq]
    have := decode_fst_ascii (b :: t) c hc
    simpa [unpackRune] using this

theorem runes_single (s : GoString) (c : Nat) :
    runes s = [c] ↔ s ≠ [] ∧ (unpackRune s).1 = c ∧ (unpackRune s).2 = [] := by
  cases s with
  | nil => simp [runes_nil]
  | cons b t =>
    rw [runes_cons]
    simp [runes_eq_nil]

/-- C17: the empty pattern matches the candidate `s` exactly when `s` is empty, or
LeadingDir is set and `s` begins with `/`; with no flags it matches the empty candidate
and no other. -/
theorem Match_empty_pattern (toLower : Nat → Nat) (s : GoString) (f : Int) :
    Match toLower [] s [f] =
        Res.ok (decide (s = []) || (hasFlag f LeadingDir && decide ((runes s).head? = some 0x2F))) ∧
    Match toLower [] [] [] = Res.ok true ∧
    (s ≠ [] → Match toLower [] s [] = Res.ok false) := by
  refine ⟨?_, rfl, ?_⟩
  · rw [Match_one_flag, matchRun_nil]
    have h := runes_head_ascii s 0x2F (by omega)
    cases s with
    | nil => simp [StrState.init]
    | cons b t =>
      by_cases hb : b = 0x2F
      · subst hb
        have h2 := h.2 (by simp)
        simp [StrState.init, h2]
      · have h2 : ¬ (runes (b :: t)).head? = some 0x2F := fun h3 => hb (by simpa using h.1 h3)
        simp [StrState.init, h2, hb]
  · intro hs
    rw [Match_nil_flags, matchRun_nil]
    cases s with
    | nil => exact absurd rfl hs
    | cons b t => simp [StrState.init, hasFlag_zero]

/-- C15: under every flag word `f` the pattern `*` matches the candidate `s` exactly when
it is not the case that Period is set and `s` begins with `.`, and Pathname is off or
LeadingDir is set or `s` contains no `/`; with no flags it matches every candidate. -/
theorem Match_star_alone (toLower : Nat → Nat) (s : GoString) (f : Int) :
    Match toLower (bytes "*") s [f] =
        Res.ok (!(hasFlag f Period && decide ((runes s).head? = some 0x2E)) &&
          (!hasFlag f Pathname || hasFlag f LeadingDir || !decide (0x2F ∈ runes s))) ∧
    Match toLower (bytes "*") s [] = Res.ok true := by
  have hb : bytes "*" = [0x2A] := by decide
  rw [hb]
  constructor
  · rw [Match_one_flag, matchRun_star]
    have h := runes_head_ascii s 0x2E (by omega)
    have hm := mem_runes_ascii 0x2F (by omega) s.length s (le_refl _)
    by_cases hd : s.head? = some 0x2E
    · have h2 := h.2 hd
      by_cases hP : hasFlag f Period = true
      · simp [StrState.init, hd, h2, hP]
      · simp only [Bool.not_eq_true] at hP
        by_cases hN : hasFlag f Pathname = true
        · by_cases hL : hasFlag f LeadingDir = true
          · simp [StrState.init, hP, hN, hL]
          · simp only [Bool.not_eq_true] at hL
            by_cases hc : 0x2F ∈ s
            · simp [StrState.init, hP, hN, hL, ContainsRune, hc, hm.2 hc]
            · have : 0x2F ∉ runes s := fun h3 => hc (hm.1 h3)
              simp [StrState.init, hP, hN, hL, ContainsRune, hc, this]
        · simp only [Bool.not_eq_true] at hN
          simp [StrState.init, hP, hN]
    · have h2 : ¬ (runes s).head? = some 0x2E := fun h3 => hd (h.1 h3)
      by_cases hN : hasFlag f Pathname = true
      · by_cases hL : hasFlag f LeadingDir = true
        · simp [StrState.init, hd, h2, hN, hL]
        · simp only [Bool.not_eq_true] at hL
          by_cases hc : 0x2F ∈ s
          · simp [StrState.init, hd, h2, hN, hL, ContainsRune, hc, hm.2 hc]
          · have : 0x2F ∉ runes s := fun h3 => hc (hm.1 h3)
            simp [StrState.init, hd, h2, hN, hL, ContainsRune, hc, this]
      · simp only [Bool.not_eq_true] at hN
        simp [StrState.init, hd, h2, hN]
  · rw [Match_nil_flags, matchRun_star_zero]
    rfl

/-- C16: under a flag word `f` without LeadingDir the pattern `?` matches the candidate `s`
exactly when `s` is one code point `c`, with `c` not `/` under Pathname and `c` not `.`
under Period. -/
theorem Match_question_alone (toLower : Nat → Nat) (s : GoString) (f : Int)
    (hL : hasFlag f LeadingDir = false) :
    Match toLower (bytes "?") s [f] =
      Res.ok (match runes s with
        | [c] => !(hasFlag f Pathname && c == 0x2F) && !(hasFlag f Period && c == 0x2E)
        | _ => false) := by
  have hb : bytes "?" = [0x3F] := by decide
  rw [hb, Match_one_flag, matchRun_question]
  cases s with
  | nil => simp [StrState.init, runes_nil]
  | cons b t =>
    rw [runes_cons]
    simp only [StrState.init, List.length_cons, Nat.add_one_ne_zero, if_false, Bool.true_or,
      Bool.and_true, matchRun_nil, unpackStr, hL, Bool.false_and, Bool.or_false]
    cases hr : runes (unpackRune (b :: t)).2 with
    | nil =>
      have := (runes_eq_nil _).1 hr
      rw [this]
      by_cases h1 : (unpackRune (b :: t)).1 = 0x2F <;> by_cases h2 : hasFlag f Pathname = true <;>
        by_cases h3 : (unpackRune (b :: t)).1 = 0x2E <;> by_cases h4 : hasFlag f Period = true <;>
        simp_all
    | cons c u =>
      have : (unpackRune (b :: t)).2 ≠ [] := fun h => by rw [h, runes_nil] at hr; cases hr
      by_cases h1 : (unpackRune (b :: t)).1 = 0x2F <;> by_cases h2 : hasFlag f Pathname = true <;>
        by_cases h3 : (unpackRune (b :: t)).1 = 0x2E <;> by_cases h4 : hasFlag f Period = true <;>
        simp_all

/-- C16 at the candidate `é` under Pathname. -/
theorem Match_question_alone_witness :
    hasFlag Pathname LeadingDir = false ∧
    Match asciiLower (bytes "?") (bytes "é") [Pathname] =
      Res.ok (match runes (bytes "é") with
        | [c] => !(hasFlag Pathname Pathname && c == 0x2F) && !(hasFlag Pathname Period && c == 0x2E)
        | _ => false) :=
  ⟨by decide, Match_question_alone asciiLower (bytes "é") Pathname (by decide)⟩

theorem xor_self_int (f : Int) : Int.xor f f = 0 := by
  cases f <;> simp [Int.xor]

/-- C13: the flag arguments are combined by exclusive or: a call with the flags
`f1, ..., fn` equals the call with the single flag `f1 xor ... xor fn`, a flag given twice
cancels, and no flag at all is the flag 0. -/
theorem Match_flags_xor (toLower : Nat → Nat) (p s : GoString) :
    (∀ flags : List Int, Match toLower p s flags = Match toLower p s [xorAll flags]) ∧
    (∀ f : Int, Match toLower p s [f, f] = Match toLower p s []) ∧
    Match toLower p s [] = Match toLower p s [0] := by
  refine ⟨?_, ?_, ?_⟩
  · intro flags
    cases flags with
    | nil => simp [Match, xorAll, xor_zero_left]
    | cons f t => simp [Match, xorAll, xor_zero_left]
  · intro f
    simp [Match, xor_zero_left, xor_self_int]
  · simp [Match, xor_zero_left]

/-! ## C11: literal patterns -/

theorem foldEq_iff (tl : Nat → Nat) : ∀ (xs ys : List Nat),
    foldEq tl xs ys = true ↔ (xs.length = ys.length ∧
      ∀ (i : Nat) a c, xs[i]? = some a → ys[i]? = some c → a = c ∨ tl a = tl c) := by
  intro xs
  induction xs with
  | nil =>
    intro ys
    cases ys with
    | nil => simp [foldEq]
    | cons b bs => simp [foldEq]
  | cons a as ih =>
    intro ys
    cases ys with
    | nil => simp [foldEq]
    | cons b bs =>
      simp only [foldEq, Bool.and_eq_true, Bool.or_eq_true, beq_iff_eq, ih bs,
        List.length_cons, Nat.add_right_cancel_iff]
      constructor
      · rintro ⟨h0, hl, hr⟩
        refine ⟨hl, ?_⟩
        intro i x y hx hy
        cases i with
        | zero =>
          simp only [List.getElem?_cons_zero, Option.some.injEq] at hx hy
          subst hx hy
          exact h0
        | succ j =>
          simp only [List.getElem?_cons_succ] at hx hy
          exact hr j x y hx hy
      · rintro ⟨hl, hr⟩
        refine ⟨hr 0 a b (by simp) (by simp), hl, ?_⟩
        intro i x y hx hy
        exact hr (i + 1) x y (by simpa using hx) (by simpa using hy)

/-- Under CaseFold alone, a pattern without special bytes matches exactly the candidates
whose code points agree with its own under case folding. -/
theorem matchRun_literal_fold (tl : Nat → Nat) :
    ∀ (n : Nat) (p : GoString) (st : StrState), p.length ≤ n →
      (∀ b ∈ p, b ≠ 0x3F ∧ b ≠ 0x2A ∧ b ≠ 0x5B ∧ b ≠ 0x5C) →
      matchRun tl CaseFold p st = Res.ok (foldEq tl (runes st.str) (runes p)) := by
  have hF : hasFlag CaseFold CaseFold = true := by decide
  have hL : hasFlag CaseFold LeadingDir = false := by decide
  intro n
  induction n with
  | zero =>
    intro p st hn hl
    have : p = [] := List.eq_nil_of_length_eq_zero (by omega)
    subst this
    cases hs : st.str <;> simp [matchRun_nil, hL, runes_nil, runes_cons, foldEq, hs]
  | succ n ih =>
    intro p st hn hl
    cases p with
    | nil => cases hs : st.str <;> simp [matchRun_nil, hL, runes_nil, runes_cons, foldEq, hs]
    | cons s0 t =>
      have h0 := hl s0 (by simp)
      have hne : ∀ c, c < 0x80 → s0 ≠ c → (unpackRune (s0 :: t)).1 ≠ c := by
        intro c hc hs hd
        have := (decode_fst_ascii (s0 :: t) c hc).1 hd
        simp at this
        exact hs this
      have h5 := hne _ (by omega) h0.2.2.2
      rw [matchRun_other tl _ (s0 :: t) st (by simp) (hne _ (by omega) h0.1)
        (hne _ (by omega) h0.2.1) (hne _ (by omega) h0.2.2.1),
        literalRune_of_ne _ _ h5, literalRest_of_ne _ _ h5]
      have hlt := unpackRune_length_lt (s0 :: t) (by simp)
      have hsuf := unpackRune_suffix (s0 :: t)
      have hl' : ∀ b ∈ (unpackRune (s0 :: t)).2, b ≠ 0x3F ∧ b ≠ 0x2A ∧ b ≠ 0x5B ∧ b ≠ 0x5C :=
        fun b hb => hl b (hsuf.subset hb)
      have hih := fun st' => ih (unpackRune (s0 :: t)).2 st'
        (by simp only [List.length_cons] at hn hlt; omega) hl'
      rw [runes_cons s0 t]
      cases hs : st.str with
      | nil => simp [runes_nil, foldEq]
      | cons b u =>
        rw [runes_cons b u]
        simp only [List.length_cons, hF, Bool.true_and, foldEq]
        rw [if_neg (by omega), hih]
        by_cases hc : (unpackRune (b :: u)).1 = (unpackRune (s0 :: t)).1
        · simp [hc, unpackStr, hs]
        · by_cases hd : tl (unpackRune (b :: u)).1 = tl (unpackRune (s0 :: t)).1
          · simp [hc, hd, unpackStr, hs]
          · simp [hc, hd]

/-- C11: a pattern with none of the bytes `?`, `*`, `[` and `\` matches, with no flags,
exactly the candidates that have its code points; under CaseFold it matches exactly the
candidates with as many code points as it has that are, position by position, equal to
its own or have the same lower-case form. -/
theorem Match_literal (toLower : Nat → Nat) (p s : GoString)
    (h1 : 0x3F ∉ p) (h2 : 0x2A ∉ p) (h3 : 0x5B ∉ p) (h4 : 0x5C ∉ p) :
    Match toLower p s [] = Res.ok (decide (runes s = runes p)) ∧
    ∃ b, Match toLower p s [CaseFold] = Res.ok b ∧
      (b = true ↔ ((runes s).length = (runes p).length ∧
        ∀ (i : Nat) a c, (runes s)[i]? = some a → (runes p)[i]? = some c →
          a = c ∨ toLower a = toLower c)) := by
  constructor
  · rw [Match_nil_flags]
    apply matchRun_literal toLower p.length p _ (le_refl _)
    intro i b hb
    have hm := List.getElem?_mem hb
    refine ⟨?_, ?_, ?_, ?_⟩
    · rintro rfl; exact h1 hm
    · rintro rfl; exact h2 hm
    · rintro rfl; exact h3 hm
    · rintro rfl; exact absurd hm h4
  · refine ⟨foldEq toLower (runes s) (runes p), ?_, foldEq_iff toLower _ _⟩
    rw [Match_one_flag]
    apply matchRun_literal_fold toLower p.length p _ (le_refl _)
    intro b hb
    refine ⟨?_, ?_, ?_, ?_⟩
    · rintro rfl; exact h1 hb
    · rintro rfl; exact h2 hb
    · rintro rfl; exact h3 hb
    · rintro rfl; exact h4 hb

/-- C11 at the pattern `Fé` and the candidate `fé`. -/
theorem Match_literal_witness :
    (0x3F ∉ bytes "Fé" ∧ 0x2A ∉ bytes "Fé" ∧ 0x5B ∉ bytes "Fé" ∧ 0x5C ∉ bytes "Fé") ∧
    (Match asciiLower (bytes "Fé") (bytes "fé") [] =
        Res.ok (decide (runes (bytes "fé") = runes (bytes "Fé"))) ∧
      ∃ b, Match asciiLower (bytes "Fé") (bytes "fé") [CaseFold] = Res.ok b ∧
        (b = true ↔ ((runes (bytes "fé")).length = (runes (bytes "Fé")).length ∧
          ∀ (i : Nat) a c, (runes (bytes "fé"))[i]? = some a → (runes (bytes "Fé"))[i]? = some c →
            a = c ∨ asciiLower a = asciiLower c))) :=
  ⟨by decide, Match_literal asciiLower (bytes "Fé") (bytes "fé") (by decide) (by decide)
    (by decide) (by decide)⟩

/-! ## C12: quoted patterns -/

theorem quoteLoop_fuel : ∀ (n k : Nat) (w : GoString), w.length ≤ n → w.length ≤ k →
    quoteLoop n w = quoteLoop k w := by
  intro n
  induction n with
  | zero =>
    intro k w hn hk
    have : w = [] := List.eq_nil_of_length_eq_zero (by omega)
    subst this
    cases k <;> rfl
  | succ n ih =>
    intro k w hn hk
    cases w with
    | nil => cases k <;> rfl
    | cons b t =>
      cases k with
      | zero => simp at hk
      | succ k =>
        have hlt := unpackRune_length_lt (b :: t) (by simp)
        simp only [List.length_cons] at hn hk hlt
        simp only [quoteLoop, quoteBody]
        rw [ih k _ (by omega) (by omega)]

theorem quote_nil : quote [] = [] := rfl

theorem quote_cons (b : Nat) (t : GoString) :
    quote (b :: t) = 0x5C :: ((b :: t).take (DecodeRuneInString (b :: t)).2 ++
      quote (unpackRune (b :: t)).2) := by
  have hlt := unpackRune_length_lt (b :: t) (by simp)
  simp only [List.length_cons] at hlt
  unfold quote
  simp only [List.length_cons, quoteLoop, quoteBody, Nat.add_one_ne_zero, if_false]
  rw [quoteLoop_fuel t.length (unpackRune (b :: t)).2.length _ (by omega) (le_refl _)]

theorem quote_head (w : GoString) : ∀ b, (quote w).head? = some b → b < 0x80 := by
  intro b hb
  cases w with
  | nil => simp [quote_nil] at hb
  | cons s0 t =>
    rw [quote_cons] at hb
    simp only [List.head?_cons, Option.some.injEq] at hb
    omega

theorem decode2_take (s0 : Nat) (t x : GoString) (hx : ∀ b, x.head? = some b → b < 0x80) :
    decode2 s0 (t.take ((decode2 s0 t).2 - 1) ++ x) = decode2 s0 t := by
  have ha := acceptLo_ge s0
  have hx1 : decode2 s0 x = (RuneError, 1) := by
    cases x with
    | nil => rfl
    | cons b r => simp [decode2, inRange_ascii_false _ _ b ha (hx b rfl)]
  rcases t with _ | ⟨s1, u⟩
  · simpa [decode2] using hx1
  · by_cases h : inRange (acceptLo s0) (acceptHi s0) s1 = true
    · simp [decode2, h]
    · simp only [decode2, h, Bool.false_eq_true, if_false, Nat.sub_self, List.take_zero,
        List.nil_append]
      simpa [decode2] using hx1

theorem decode3_take (s0 : Nat) (t x : GoString) (hx : ∀ b, x.head? = some b → b < 0x80) :
    decode3 s0 (t.take ((decode3 s0 t).2 - 1) ++ x) = decode3 s0 t := by
  have ha := acceptLo_ge s0
  have hx1 : decode3 s0 x = (RuneError, 1) := by
    rcases x with _ | ⟨b, _ | ⟨c, r⟩⟩
    · rfl
    · rfl
    · simp [decode3, inRange_ascii_false _ _ b ha (hx b rfl)]
  rcases t with _ | ⟨s1, _ | ⟨s2, u⟩⟩
  · simpa [decode3] using hx1
  · simpa [decode3] using hx1
  · by_cases h : (inRange (acceptLo s0) (acceptHi s0) s1 && inRange 0x80 0xBF s2) = true
    · simp only [decode3, h, if_true, Nat.add_one_sub_one, List.take_succ_cons, List.take_zero,
        List.cons_append, List.nil_append]
    · simp only [decode3, h, Bool.false_eq_true, if_false, Nat.sub_self, List.take_zero,
        List.nil_append]
      simpa [decode3] using hx1

theorem decode4_take (s0 : Nat) (t x : GoString) (hx : ∀ b, x.head? = some b → b < 0x80) :
    decode4 s0 (t.take ((decode4 s0 t).2 - 1) ++ x) = decode4 s0 t := by
  have ha := acceptLo_ge s0
  have hx1 : decode4 s0 x = (RuneError, 1) := by
    rcases x with _ | ⟨b, _ | ⟨c, _ | ⟨d, r⟩⟩⟩
    · rfl
    · rfl
    · rfl
    · simp [decode4, inRange_ascii_false _ _ b ha (hx b rfl)]
  rcases t with _ | ⟨s1, _ | ⟨s2, _ | ⟨s3, u⟩⟩⟩
  · simpa [decode4] using hx1
  · simpa [decode4] using hx1
  · simpa [decode4] using hx1
  · by_cases h : (inRange (acceptLo s0) (acceptHi s0) s1 && inRange 0x80 0xBF s2
        && inRange 0x80 0xBF s3) = true
    · simp only [decode4, h, if_true, Nat.add_one_sub_one, List.take_succ_cons, List.take_zero,
        List.cons_append, List.nil_append]
    · simp only [decode4, h, Bool.false_eq_true, if_false, Nat.sub_self, List.take_zero,
        List.nil_append]
      simpa [decode4] using hx1

/-- The first rune of a string is decoded from its own bytes alone: it is unchanged when
the rest of the string is replaced by a string that is empty or starts with an ASCII
byte. -/
theorem decode_take (s0 : Nat) (t x : GoString) (hx : ∀ b, x.head? = some b → b < 0x80) :
    DecodeRuneInString ((s0 :: t).take (DecodeRuneInString (s0 :: t)).2 ++ x) =
      DecodeRuneInString (s0 :: t) := by
  have hpos := decode_size_pos s0 t
  obtain ⟨k, hk⟩ : ∃ k, (DecodeRuneInString (s0 :: t)).2 = k + 1 :=
    ⟨_, (Nat.succ_pred_eq_of_pos hpos).symm⟩
  have hk' : k = (DecodeRuneInString (s0 :: t)).2 - 1 := by omega
  rw [hk, List.take_succ_cons, List.cons_append, hk']
  simp only [DecodeRuneInString]
  by_cases c1 : s0 < 0x80
  · simp only [c1, if_true]
  by_cases c2 : s0 < 0xC2
  · simp only [c1, c2, if_true, if_false]
  by_cases c3 : s0 < 0xE0
  · simp only [c1, c2, c3, if_true, if_false]
    exact decode2_take s0 t x hx
  by_cases c4 : s0 < 0xF0
  · simp only [c1, c2, c3, c4, if_true, if_false]
    exact decode3_take s0 t x hx
  by_cases c5 : s0 < 0xF5
  · simp only [c1, c2, c3, c4, c5, if_true, if_false]
    exact decode4_take s0 t x hx
  · simp only [c1, c2, c3, c4, c5, if_false]

theorem unpack_take (s0 : Nat) (t x : GoString) (hx : ∀ b, x.head? = some b → b < 0x80) :
    unpackRune ((s0 :: t).take (DecodeRuneInString (s0 :: t)).2 ++ x) =
      ((unpackRune (s0 :: t)).1, x) := by
  have hle := decode_size_le (s0 :: t)
  unfold unpackRune
  rw [decode_take s0 t x hx]
  congr 1
  rw [List.drop_append_eq_append_drop]
  simp only [List.length_cons] at hle
  simp [List.length_take, Nat.min_eq_left hle]

/-- With no flags, the quoted form of `w` matches exactly the candidates that have the code
points of `w`. -/
theorem matchRun_quote (tl : Nat → Nat) :
    ∀ (n : Nat) (w : GoString) (st : StrState), w.length ≤ n →
      matchRun tl 0 (quote w) st = Res.ok (decide (runes st.str = runes w)) := by
  intro n
  induction n with
  | zero =>
    intro w st hn
    have : w = [] := List.eq_nil_of_length_eq_zero (by omega)
    subst this
    simp [quote_nil, matchRun_nil, hasFlag_zero, runes_nil, runes_eq_nil]
  | succ n ih =>
    intro w st hn
    cases w with
    | nil => simp [quote_nil, matchRun_nil, hasFlag_zero, runes_nil, runes_eq_nil]
    | cons s0 t =>
      have hlt := unpackRune_length_lt (s0 :: t) (by simp)
      simp only [List.length_cons] at hn hlt
      have hq := quote_cons s0 t
      have hu : unpackRune (quote (s0 :: t)) = (0x5C, (s0 :: t).take
          (DecodeRuneInString (s0 :: t)).2 ++ quote (unpackRune (s0 :: t)).2) := by
        rw [hq]
        simp [unpackRune, decode_ascii]
      have hpos := decode_size_pos s0 t
      have hne : 0 < ((s0 :: t).take (DecodeRuneInString (s0 :: t)).2 ++
          quote (unpackRune (s0 :: t)).2).length := by
        simp only [List.length_append, List.length_take, List.length_cons]
        omega
      have hesc : escaped 0 (quote (s0 :: t)) = true := by
        simp only [escaped, hu, hasFlag_zero]
        simpa using hne
      have h2 := unpack_take s0 t (quote (unpackRune (s0 :: t)).2) (quote_head _)
      have hr : literalRune 0 (quote (s0 :: t)) = (unpackRune (s0 :: t)).1 := by
        simp only [literalRune, hesc, if_true, hu, h2]
      have hrest : literalRest 0 (quote (s0 :: t)) = quote (unpackRune (s0 :: t)).2 := by
        simp only [literalRest, hesc, if_true, hu, h2]
      rw [matchRun_other tl 0 (quote (s0 :: t)) st (by rw [hq]; simp) (by rw [hu]; simp)
        (by rw [hu]; simp) (by rw [hu]; simp), hr, hrest]
      rw [runes_cons s0 t]
      cases hs : st.str with
      | nil => simp [runes_nil]
      | cons b u =>
        rw [runes_cons b u]
        simp only [List.length_cons, hasFlag_zero, Bool.false_and]
        rw [if_neg (by omega), ih _ _ (by omega)]
        by_cases hc : (unpackRune (b :: u)).1 = (unpackRune (s0 :: t)).1
        · simp [hc, unpackStr, hs]
        · simp [hc]

/-- C12 as stated fails: the quoted form of the ill-formed string `\xff` matches the
different string `\xfe`, both being decoded as the code point U+FFFD. -/
theorem Match_quoted_counterexample :
    Match asciiLower (quote [0xFF]) [0xFE] [] = Res.ok true ∧ ([0xFE] : GoString) ≠ [0xFF] := by
  decide

/-- C12, amended: with no flags and for well-formed UTF-8 strings `w` and `s`, the string
`w` with a backslash inserted before each of its code points matches `s` exactly when `s`
equals `w`. -/
theorem Match_quoted (toLower : Nat → Nat) (w s : GoString)
    (hw : ValidString w = true) (hs : ValidString s = true) :
    Match toLower (quote w) s [] = Res.ok (decide (s = w)) := by
  rw [Match_nil_flags, matchRun_quote toLower w.length w _ (le_refl _)]
  simp only [StrState.init]
  congr 1
  simp only [ValidString, decide_eq_true_eq] at hw hs
  by_cases h : s = w
  · simp [h]
  · have : runes s ≠ runes w := by
      intro hr
      apply h
      rw [← hs, ← hw, hr]
    simp [h, this]

/-- C12, amended, at `w = *é` and the candidate `*é`. -/
theorem Match_quoted_witness :
    (ValidString (bytes "*é") = true ∧ ValidString (bytes "*é") = true) ∧
    Match asciiLower (quote (bytes "*é")) (bytes "*é") [] =
      Res.ok (decide (bytes "*é" = bytes "*é")) :=
  ⟨by decide, Match_quoted asciiLower (bytes "*é") (bytes "*é") (by decide) (by decide)⟩

/-! ## C18: a bracket expression without a closing bracket -/

/-- The skipping loop finds no closing bracket in a string without the byte `]`. -/
theorem skipRun_no_close : ∀ (n : Nat) (p : GoString), p.length ≤ n → 0x5D ∉ p →
    ∃ q, skipRun p false = Res.ok (false, q) := by
  intro n
  induction n with
  | zero =>
    intro p hn _
    have : p = [] := List.eq_nil_of_length_eq_zero (by omega)
    subst this
    exact ⟨[], rfl⟩
  | succ n ih =>
    intro p hn hp
    cases p with
    | nil => exact ⟨[], rfl⟩
    | cons b t =>
      have h1 := unpackRune_length_lt (b :: t) (by simp)
      have h2 := unpackRune_length_le (unpackRune (b :: t)).2
      have s1 := unpackRune_suffix (b :: t)
      have s2 := unpackRune_suffix (unpackRune (b :: t)).2
      simp only [List.length_cons] at hn h1
      have hc : (unpackRune (b :: t)).1 ≠ 0x5D := by
        intro h
        have := (decode_fst_ascii (b :: t) 0x5D (by omega)).1 h
        simp only [List.head?_cons, Option.some.injEq] at this
        exact hp (by simp [this])
      have hc' : ((unpackRune (b :: t)).1 == 0x5D) = false := by simpa using hc
      rw [skipRun_eq, skipBody]
      simp only [List.length_cons, gt_iff_lt, Nat.zero_lt_succ, decide_True, Bool.not_false,
        Bool.and_self, if_true, hc', Bool.false_eq_true, if_false]
      split
      · exact ih _ (by omega) (fun h => hp ((s2.trans s1).subset h))
      · exact ih _ (by omega) (fun h => hp (s1.subset h))

/-- A class without the byte `]` does not accept any rune. -/
theorem matchRange_no_close (tl : Nat → Nat) (p : GoString) (c : Nat) (f : Int)
    (hp : 0x5D ∉ p) (q : GoString) : matchRange tl p c f ≠ Res.ok (true, q) := by
  intro h
  unfold matchRange at h
  split at h
  · cases h
  · have hg := rangeRun_good tl (hasFlag f NoEscape) (hasFlag f CaseFold)
      (if hasFlag f CaseFold = true then tl c else c) _
      (if (p.head? == some 0x5E || p.head? == some 0x21) = true then p.drop 1 else p) false
      (le_refl _)
    have hl : (if (p.head? == some 0x5E || p.head? == some 0x21) = true then p.drop 1
        else p) <:+ p := by
      split
      · exact List.drop_suffix _ _
      · exact List.suffix_refl _
    simp only at h
    split at h
    · cases h
    · rename_i q1 m1 heq
      rw [heq] at hg
      obtain ⟨q2, hq2⟩ := skipRun_no_close q1.length q1 (le_refl _)
        (fun hm => hp ((List.IsSuffix.trans hg hl).subset hm))
      rw [hq2] at h
      simp at h
    · cases h
    · cases h

/-- Apart from the panic, a bracket expression without a closing bracket matches nothing. -/
theorem Match_open_class_no_match (tl : Nat → Nat) (B s : GoString) (f : Int)
    (hB : 0x5D ∉ B) : NoMatch (Match tl (0x5B :: B) s [f]) := by
  rw [Match_one_flag, matchRun_class]
  unfold NoMatch
  split
  · exact Or.inl rfl
  · split
    · exact Or.inl rfl
    · split
      · rename_i q heq
        exact absurd heq (matchRange_no_close tl B _ f hB q)
      · exact Or.inl rfl
      · exact Or.inr rfl
      · rename_i heq
        exact absurd heq (matchRange_ne_fuel tl B _ f)

/-- C18 fails on the code: the bracket expression `[é` has no closing bracket, and under
every flag word the call on the candidate `x` does not return `false`: it panics, by the
defect of C1. -/
theorem Match_unclosed_class_panics (toLower : Nat → Nat) (f : Int) :
    0x5D ∉ runes (bytes "é") ∧ Match toLower (bytes "[" ++ bytes "é") (bytes "x") [f] = Res.panic := by
  refine ⟨by decide, ?_⟩
  have hb : bytes "[" ++ bytes "é" = 0x5B :: [0xC3, 0xA9] := by decide
  have hx : bytes "x" = [0x78] := by decide
  have hu : unpackRune [0xC3, 0xA9] = (0xE9, []) := by decide
  have hu2 : unpackRune [0x78] = (0x78, []) := by decide
  rw [hb, hx, Match_one_flag, matchRun_class]
  simp only [StrState.init, List.length_cons, List.length_nil, List.head?_cons]
  have hr : ∀ ne cf t, rangeRun toLower ne cf t [0xC3, 0xA9] false = Res.panic := by
    intro ne cf t
    rw [rangeRun_eq, rangeBody]
    simp [hu]
  simp [matchRange, hr, hu2]

/-! ## C19: adding CaseFold -/

theorem nat_and_two_pow_ne (m k : Nat) : (m &&& 2 ^ k != 0) = m.testBit k := by
  cases h : m.testBit k with
  | false =>
    have : m &&& 2 ^ k = 0 := by
      apply Nat.eq_of_testBit_eq
      intro i
      simp only [Nat.testBit_and, Nat.testBit_two_pow, Nat.zero_testBit]
      by_cases hi : k = i
      · subst hi
        simp [h]
      · simp [hi]
    simp [this]
  | true =>
    have : (m &&& 2 ^ k).testBit k = true := by
      simp [Nat.testBit_and, Nat.testBit_two_pow, h]
    have hne : m &&& 2 ^ k ≠ 0 := by
      intro h0
      rw [h0, Nat.zero_testBit] at this
      cases this
    simpa using hne

theorem nat_clear_two_pow_ne (m k : Nat) : (2 ^ k ^^^ (2 ^ k &&& m) != 0) = !m.testBit k := by
  cases h : m.testBit k with
  | true =>
    have : 2 ^ k ^^^ (2 ^ k &&& m) = 0 := by
      apply Nat.eq_of_testBit_eq
      intro i
      simp only [Nat.testBit_xor, Nat.testBit_and, Nat.testBit_two_pow, Nat.zero_testBit]
      by_cases hi : k = i
      · subst hi
        simp [h]
      · simp [hi]
    simp [this]
  | false =>
    have : (2 ^ k ^^^ (2 ^ k &&& m)).testBit k = true := by
      simp [Nat.testBit_xor, Nat.testBit_and, Nat.testBit_two_pow, h]
    have hne : 2 ^ k ^^^ (2 ^ k &&& m) ≠ 0 := by
      intro h0
      rw [h0, Nat.zero_testBit] at this
      cases this
    simpa using hne

/-- A flag is set in a flag word when its bit is set in the two's complement form. -/
theorem hasFlag_eq_testBit (f : Int) (k : Nat) :
    hasFlag f (Int.ofNat (2 ^ k)) = Int.testBit f k := by
  cases f with
  | ofNat m =>
    show (Int.ofNat (m &&& 2 ^ k) != 0) = m.testBit k
    rw [← nat_and_two_pow_ne m k]
    simp [bne]
  | negSucc m =>
    show (Int.ofNat (2 ^ k ^^^ (2 ^ k &&& m)) != 0) = !m.testBit k
    rw [← nat_clear_two_pow_ne m k]
    simp [bne]

theorem hasFlag_lor_casefold (f : Int) (k : Nat) (hk : k ≠ 4) :
    hasFlag (Int.lor f CaseFold) (Int.ofNat (2 ^ k)) = hasFlag f (Int.ofNat (2 ^ k)) := by
  rw [hasFlag_eq_testBit, hasFlag_eq_testBit, Int.testBit_lor]
  have : Int.testBit CaseFold k = false := by
    show Nat.testBit (2 ^ 4) k = false
    rw [Nat.testBit_two_pow]
    simp [Ne.symm hk]
  simp [this]

theorem hasFlag_lor_casefold_self (f : Int) : hasFlag (Int.lor f CaseFold) CaseFold = true := by
  have h := hasFlag_eq_testBit (Int.lor f CaseFold) 4
  rw [Int.testBit_lor] at h
  have : Int.testBit CaseFold 4 = true := by decide
  rw [this, Bool.or_true] at h
  exact h

theorem FoldAdds_lor (f : Int) : FoldAdds f (Int.lor f CaseFold) :=
  ⟨hasFlag_lor_casefold f 0 (by decide), hasFlag_lor_casefold f 1 (by decide),
    hasFlag_lor_casefold f 2 (by decide), hasFlag_lor_casefold f 3 (by decide),
    hasFlag_lor_casefold_self f⟩

theorem hasFlag_clear_period_period (cf : Int) :
    hasFlag (Int.xor 0 (andInt cf (Int.lnot Period))) Period = false := by
  rw [xor_zero_left, andInt_eq_land]
  have h := hasFlag_eq_testBit (Int.land cf (Int.lnot Period)) 2
  rw [Int.testBit_land, Int.testBit_lnot] at h
  have : Int.testBit Period 2 = true := by decide
  rw [this] at h
  simpa using h

theorem FoldAdds_clear (f g : Int) (h : FoldAdds f g) :
    FoldAdds (Int.xor 0 (andInt f (Int.lnot Period))) (Int.xor 0 (andInt g (Int.lnot Period))) := by
  obtain ⟨h0, h1, h2, h3, h4⟩ := h
  refine ⟨?_, ?_, ?_, ?_, ?_⟩
  · have a := hasFlag_clear_period f 0 (by decide)
    have b := hasFlag_clear_period g 0 (by decide)
    exact b.trans (h0.trans a.symm)
  · have a := hasFlag_clear_period f 1 (by decide)
    have b := hasFlag_clear_period g 1 (by decide)
    exact b.trans (h1.trans a.symm)
  · rw [hasFlag_clear_period_period, hasFlag_clear_period_period]
  · have a := hasFlag_clear_period f 3 (by decide)
    have b := hasFlag_clear_period g 3 (by decide)
    exact b.trans (h3.trans a.symm)
  · have b := hasFlag_clear_period g 4 (by decide)
    exact b.trans h4

/-- A pattern without the byte `[` never panics. -/
theorem matchRun_no_class (tl : Nat → Nat) :
    ∀ (n : Nat) (cf : Int) (p : GoString) (st : StrState), p.length ≤ n → 0x5B ∉ p →
      matchRun tl cf p st = Res.ok true ∨ matchRun tl cf p st = Res.ok false := by
  intro n
  induction n with
  | zero =>
    intro cf p st hn _
    have : p = [] := List.eq_nil_of_length_eq_zero (by omega)
    subst this
    rw [matchRun_nil]
    cases (decide (st.str.length = 0) || (hasFlag cf LeadingDir && st.str.head? == some 0x2F)) <;>
      simp
  | succ n ih =>
    intro cf p st hn hp
    cases p with
    | nil =>
      rw [matchRun_nil]
      cases (decide (st.str.length = 0) ||
        (hasFlag cf LeadingDir && st.str.head? == some 0x2F)) <;> simp
    | cons s0 t =>
      simp only [List.length_cons] at hn
      have ht : 0x5B ∉ t := fun h => hp (List.mem_cons_of_mem _ h)
      by_cases h1 : s0 = 0x3F
      · subst h1
        rw [matchRun_question]
        split
        · simp
        · split
          · simp
          · split
            · simp
            · exact ih _ _ _ (by omega) ht
      by_cases h2 : s0 = 0x2A
      · subst h2
        rw [matchRun_star]
        split
        · simp
        · split
          · split
            · split <;> simp
            · simp
          · rename_i q0 q hq
            have hqs : (q0 :: q) <:+ t := by
              rw [← hq]
              exact List.dropWhile_suffix _
            have hl := hqs.length_le
            simp only [List.length_cons] at hl
            have hq5 : 0x5B ∉ q0 :: q := fun h => ht (hqs.subset h)
            split
            · split
              · simp
              · exact ih _ _ _ (by omega) (fun h => hq5 (List.mem_cons_of_mem _ h))
            · have hm : ∀ u, (fun test => matchRun tl (Int.xor 0 (andInt cf (Int.lnot Period)))
                  (q0 :: q) (StrState.init test)) u ≠ Res.fuel := fun u =>
                matchRun_ne_fuel tl _ _ _ _ (le_refl _)
              have hf := starRun_ne_fuel _ (hasFlag cf Pathname) hm st.str.length st.str (le_refl _)
              cases hr : starRun (fun test => matchRun tl (Int.xor 0 (andInt cf (Int.lnot Period)))
                  (q0 :: q) (StrState.init test)) (hasFlag cf Pathname) st.str with
              | ok b => cases b <;> simp
              | panic =>
                obtain ⟨u, hu⟩ := starRun_panic _ _ _ _ (le_refl _) hr
                rcases ih (Int.xor 0 (andInt cf (Int.lnot Period))) (q0 :: q) (StrState.init u)
                  (by simp only [List.length_cons]; omega) hq5 with h | h
                · rw [h] at hu; cases hu
                · rw [h] at hu; cases hu
              | fuel => exact absurd hr hf
      have h3 : s0 ≠ 0x5B := fun h => hp (by simp [h])
      have hne' : ∀ c, c < 0x80 → s0 ≠ c → (unpackRune (s0 :: t)).1 ≠ c := by
        intro c hc hs hd
        have := (decode_fst_ascii (s0 :: t) c hc).1 hd
        simp at this
        exact hs this
      rw [matchRun_other tl _ (s0 :: t) st (by simp) (hne' _ (by omega) h1)
        (hne' _ (by omega) h2) (hne' _ (by omega) h3)]
      have hlt := unpackRune_length_lt (s0 :: t) (by simp)
      simp only [List.length_cons] at hlt
      have hsuf := (literalRest_suffix cf (s0 :: t)).trans (unpackRune_suffix (s0 :: t))
      have hl2 := (literalRest_suffix cf (s0 :: t)).length_le
      have h5 : 0x5B ∉ literalRest cf (s0 :: t) := fun h => hp (hsuf.subset h)
      split
      · simp
      · split
        · exact ih _ _ _ (by omega) h5
        · split
          · exact ih _ _ _ (by omega) h5
          · simp

/-- The suffix loop is monotone in the recursive call. -/
theorem starRun_mono (m1 m2 : GoString → Res Bool) (fp : Bool)
    (h12 : ∀ t, m1 t = Res.ok true → m2 t = Res.ok true)
    (h2 : ∀ t, m2 t = Res.ok true ∨ m2 t = Res.ok false) :
    ∀ (n : Nat) (s : GoString), s.length ≤ n → starRun m1 fp s = Res.ok true →
      starRun m2 fp s = Res.ok true := by
  intro n
  induction n with
  | zero =>
    intro s hn h
    have : s = [] := List.eq_nil_of_length_eq_zero (by omega)
    subst this
    rw [starRun_eq, starBody] at h
    simp at h
  | succ n ih =>
    intro s hn h
    rw [starRun_eq, starBody] at h
    rw [starRun_eq, starBody]
    split at h
    · rename_i hpos
      have hlt := unpackRune_length_lt s hpos
      rw [if_pos hpos]
      split at h
      · rename_i heq
        rw [h12 s heq]
      · split at h
        · cases h
        · rename_i hfp
          rcases h2 s with h3 | h3
          · rw [h3]
          · rw [h3]
            simp only [hfp, if_false]
            exact ih _ (by omega) h
      · cases h
      · cases h
    · cases h

theorem escaped_congr (f g : Int) (p : GoString) (h : hasFlag g NoEscape = hasFlag f NoEscape) :
    escaped g p = escaped f p := by
  simp only [escaped, h]

/-- Adding CaseFold keeps every match of a pattern without the byte `[`. -/
theorem matchRun_fold_mono (tl : Nat → Nat) :
    ∀ (n : Nat) (f g : Int) (p : GoString) (st : StrState), p.length ≤ n → FoldAdds f g →
      0x5B ∉ p → matchRun tl f p st = Res.ok true → matchRun tl g p st = Res.ok true := by
  intro n
  induction n with
  | zero =>
    intro f g p st hn hfg _ h
    have : p = [] := List.eq_nil_of_length_eq_zero (by omega)
    subst this
    rw [matchRun_nil] at h
    rw [matchRun_nil, hfg.2.2.2.1]
    exact h
  | succ n ih =>
    intro f g p st hn hfg hp h
    obtain ⟨g0, g1, g2, g3, g4⟩ := hfg
    cases p with
    | nil =>
      rw [matchRun_nil] at h
      rw [matchRun_nil, g3]
      exact h
    | cons s0 t =>
      simp only [List.length_cons] at hn
      have ht : 0x5B ∉ t := fun h => hp (List.mem_cons_of_mem _ h)
      by_cases h1 : s0 = 0x3F
      · subst h1
        rw [matchRun_question] at h
        rw [matchRun_question, g1, g2]
        split at h
        · cases h
        · rename_i c1
          rw [if_neg c1]
          split at h
          · cases h
          · rename_i c2
            rw [if_neg c2]
            split at h
            · cases h
            · rename_i c3
              rw [if_neg c3]
              exact ih _ _ _ _ (by omega) ⟨g0, g1, g2, g3, g4⟩ ht h
      by_cases h2 : s0 = 0x2A
      · subst h2
        rw [matchRun_star] at h
        rw [matchRun_star, g1, g2, g3]
        split at h
        · cases h
        · rename_i c1
          rw [if_neg c1]
          split at h
          · exact h
          · rename_i q0 q hq
            have hqs : (q0 :: q) <:+ t := by
              rw [← hq]
              exact List.dropWhile_suffix _
            have hl := hqs.length_le
            simp only [List.length_cons] at hl
            have hq5 : 0x5B ∉ q0 :: q := fun h => ht (hqs.subset h)
            split at h
            · rename_i c2
              rw [if_pos c2]
              split at h
              · cases h
              · rename_i c3
                rw [if_neg c3]
                exact ih _ _ _ _ (by omega) ⟨g0, g1, g2, g3, g4⟩
                  (fun h => hq5 (List.mem_cons_of_mem _ h)) h
            · rename_i c2
              rw [if_neg c2]
              refine starRun_mono _ _ _ ?_ ?_ st.str.length st.str (le_refl _) h
              · intro u hu
                exact ih _ _ _ _ (by simp only [List.length_cons]; omega)
                  (FoldAdds_clear f g ⟨g0, g1, g2, g3, g4⟩) hq5 hu
              · intro u
                exact matchRun_no_class tl _ _ _ _ (le_refl _) hq5
      have h3 : s0 ≠ 0x5B := fun h => hp (by simp [h])
      have hne' : ∀ c, c < 0x80 → s0 ≠ c → (unpackRune (s0 :: t)).1 ≠ c := by
        intro c hc hs hd
        have := (decode_fst_ascii (s0 :: t) c hc).1 hd
        simp at this
        exact hs this
      rw [matchRun_other tl _ (s0 :: t) st (by simp) (hne' _ (by omega) h1)
        (hne' _ (by omega) h2) (hne' _ (by omega) h3)] at h
      rw [matchRun_other tl _ (s0 :: t) st (by simp) (hne' _ (by omega) h1)
        (hne' _ (by omega) h2) (hne' _ (by omega) h3)]
      have he := escaped_congr f g (s0 :: t) g0
      have hr : literalRune g (s0 :: t) = literalRune f (s0 :: t) := by
        simp only [literalRune, he]
      have hrest : literalRest g (s0 :: t) = literalRest f (s0 :: t) := by
        simp only [literalRest, he]
      rw [hr, hrest, g4]
      have hlt := unpackRune_length_lt (s0 :: t) (by simp)
      simp only [List.length_cons] at hlt
      have hsuf := (literalRest_suffix f (s0 :: t)).trans (unpackRune_suffix (s0 :: t))
      have hl2 := (literalRest_suffix f (s0 :: t)).length_le
      have h5 : 0x5B ∉ literalRest f (s0 :: t) := fun h => hp (hsuf.subset h)
      split at h
      · cases h
      · rename_i c1
        rw [if_neg c1]
        split at h
        · rename_i c2
          rw [if_pos c2]
          exact ih _ _ _ _ (by omega) ⟨g0, g1, g2, g3, g4⟩ h5 h
        · split at h
          · rename_i c2 c3
            have c4 : tl (unpackRune st.str).1 = tl (literalRune f (s0 :: t)) := by
              simp only [Bool.and_eq_true, beq_iff_eq] at c3
              exact c3.2
            have hgoal := ih _ _ _ _ (by omega) ⟨g0, g1, g2, g3, g4⟩ h5 h
            simp only [c4, beq_self_eq_true, Bool.and_self, if_true, ite_self]
            exact hgoal
          · cases h

/-- C19 as stated fails: the class `[A-_]` accepts `B`, and no longer does under CaseFold:
the endpoints become `a` and `_`, a range that is empty. -/
theorem Match_casefold_counterexample :
    Match asciiLower (bytes "[A-_]") (bytes "B") [0] = Res.ok true ∧
    Match asciiLower (bytes "[A-_]") (bytes "B") [Int.lor 0 CaseFold] = Res.ok false := by
  decide

/-- C19, amended: for a pattern without the byte `[`, adding CaseFold to the flag word
never turns a match into a non-match. -/
theorem Match_casefold_mono (toLower : Nat → Nat) (p s : GoString) (f : Int)
    (hp : 0x5B ∉ p) (h : Match toLower p s [f] = Res.ok true) :
    Match toLower p s [Int.lor f CaseFold] = Res.ok true := by
  rw [Match_one_flag] at h
  rw [Match_one_flag]
  exact matchRun_fold_mono toLower _ f _ p _ (le_refl _) (FoldAdds_lor f) hp h

/-- C19, amended, at the pattern `*A?`, the candidate `xAé` and the flag Pathname. -/
theorem Match_casefold_mono_witness :
    (0x5B ∉ bytes "*A?" ∧ Match asciiLower (bytes "*A?") (bytes "xAé") [Pathname] = Res.ok true) ∧
    Match asciiLower (bytes "*A?") (bytes "xAé") [Int.lor Pathname CaseFold] = Res.ok true :=
  ⟨by decide, Match_casefold_mono asciiLower (bytes "*A?") (bytes "xAé") Pathname (by decide)
    (by decide)⟩

/-! ## C20: termination -/

/-- A function that satisfies the recursion equation of the main loop is the main loop:
the equation determines its value at a pattern from its values at shorter patterns. -/
theorem matchRun_unique (tl : Nat → Nat) (F : Int → GoString → StrState → Res Bool)
    (hF : ∀ cf p st, F cf p st = matchBody tl F cf p st) :
    ∀ (n : Nat) (cf : Int) (p : GoString) (st : StrState), p.length ≤ n →
      F cf p st = matchRun tl cf p st := by
  intro n
  induction n with
  | zero =>
    intro cf p st hn
    rw [hF, matchRun_eq]
    apply matchBody_congr
    intro cf1 q st1 hq
    omega
  | succ n ih =>
    intro cf p st hn
    rw [hF, matchRun_eq]
    apply matchBody_congr
    intro cf1 q st1 hq
    exact ih cf1 q st1 (by omega)

/-- C20: `Match` terminates on every input.  Run with a fuel counter started at the
length of the pattern it never exhausts the counter, and it returns `true`, `false` or the
panic of `matchRange`; more fuel does not change the result.  The main loop satisfies its
recursion equation and is the only function that does, its body using the next iteration
and the recursive call of the general `*` case on strictly shorter patterns only; the
suffix loop and the two loops of `matchRange` continue on strictly shorter strings only,
a non-empty string losing at least one byte with each rune read. -/
theorem Match_terminates (toLower : Nat → Nat) :
    (∀ (p s : GoString) (flags : List Int),
      Match toLower p s flags = Res.ok true ∨ Match toLower p s flags = Res.ok false ∨
        Match toLower p s flags = Res.panic) ∧
    (∀ (n : Nat) (cf : Int) (p : GoString) (st : StrState), p.length ≤ n →
      matchLoop toLower n cf p st = matchRun toLower cf p st) ∧
    (∀ (cf : Int) (p : GoString) (st : StrState),
      matchRun toLower cf p st = matchBody toLower (matchRun toLower) cf p st) ∧
    (∀ F : Int → GoString → StrState → Res Bool,
      (∀ cf p st, F cf p st = matchBody toLower F cf p st) → F = matchRun toLower) ∧
    (∀ (r1 r2 : Int → GoString → StrState → Res Bool) (cf : Int) (p : GoString) (st : StrState),
      (∀ cf1 q st1, q.length < p.length → r1 cf1 q st1 = r2 cf1 q st1) →
      matchBody toLower r1 cf p st = matchBody toLower r2 cf p st) ∧
    (∀ (m : GoString → Res Bool) (fp : Bool) (r1 r2 : GoString → Res Bool) (t : GoString),
      (∀ q, q.length < t.length → r1 q = r2 q) → starBody m fp r1 t = starBody m fp r2 t) ∧
    (∀ (ne cf : Bool) (test : Nat) (r1 r2 : GoString → Bool → Res RangeExit) (p : GoString)
      (m : Bool), (∀ q b, q.length < p.length → r1 q b = r2 q b) →
      rangeBody toLower ne cf test r1 p m = rangeBody toLower ne cf test r2 p m) ∧
    (∀ (r1 r2 : GoString → Bool → Res (Bool × GoString)) (p : GoString) (ok : Bool),
      (∀ q b, q.length < p.length → r1 q b = r2 q b) → skipBody r1 p ok = skipBody r2 p ok) ∧
    (∀ s : GoString, 0 < s.length → (unpackRune s).2.length < s.length) := by
  refine ⟨?_, ?_, ?_, ?_, ?_, ?_, ?_, ?_, ?_⟩
  · intro p s flags
    cases h : Match toLower p s flags with
    | ok b => cases b <;> simp
    | panic => simp
    | fuel => exact absurd h (Match_ne_fuel toLower p s flags)
  · intro n cf p st hn
    exact matchLoop_fuel toLower n p.length cf p st hn (le_refl _)
  · exact matchRun_eq toLower
  · intro F hF
    funext cf p st
    exact matchRun_unique toLower F hF p.length cf p st (le_refl _)
  · intro r1 r2 cf p st h
    exact matchBody_congr toLower r1 r2 cf p st h
  · intro m fp r1 r2 t h
    exact starBody_congr m fp r1 r2 t h
  · intro ne cf test r1 r2 p m h
    exact rangeBody_congr toLower ne cf test r1 r2 p m h
  · intro r1 r2 p ok h
    exact skipBody_congr r1 r2 p ok h
  · exact unpackRune_length_lt

/-! ## C14: a pattern that panics on one candidate matches none -/

/-- With escaping enabled, whatever the case folding, the member loop of `matchRange` keeps
the result of the skipping loop. -/
theorem rangeRun_skip_inv_fold (tl : Nat → Nat) (cfold : Bool) (test : Nat) :
    ∀ (n : Nat) (p : GoString) (m : Bool), p.length ≤ n →
      RangeSkipInv p (rangeRun tl false cfold test p m) := by
  intro n
  induction n with
  | zero =>
    intro p m hn
    rw [rangeRun_short _ _ _ _ _ _ (by omega)]
    rfl
  | succ n ih =>
    intro p m hn
    rw [rangeRun_eq, rangeBody]
    by_cases hc : (!m && decide (p.length > 1) && p.head? != some 0x5D) = true
    · have hc' := hc
      simp only [Bool.and_eq_true, decide_eq_true_eq, bne_iff_ne, ne_eq] at hc'
      have hp : 1 < p.length := hc'.1.2
      have hh : (unpackRune p).1 ≠ 0x5D := head_ne_of_rune_ne p _ (by omega) hc'.2
      have h1 := unpackRune_length_lt p (by omega)
      simp only [hc, if_true, Bool.not_false, Bool.true_and]
      by_cases hret : ((unpackRune p).1 == 0x5C && !decide ((unpackRune p).2.length > 1)) = true
      · simp only [hret, if_true]
        trivial
      · simp only [hret, Bool.false_eq_true, if_false]
        have hs2 : skipRun (if ((unpackRune p).1 == 0x5C) = true
            then (unpackRune (unpackRune p).2).2 else (unpackRune p).2) false
            = skipRun p false := by
          by_cases hb : (unpackRune p).1 = 0x5C
          · have hl : (unpackRune p).2.length > 1 := by
              by_contra hl
              apply hret
              simp [hb, hl]
            simp only [hb, beq_self_eq_true, if_true]
            exact (skipRun_escape p (by omega) hb (by omega)).symm
          · have hb' : ((unpackRune p).1 == 0x5C) = false := by simpa using hb
            simp only [hb', Bool.false_eq_true, if_false]
            exact (skipRun_pass p (by omega) hb hh).symm
        have hl2 := ite_unpack_length_le ((unpackRune p).1 == 0x5C) (unpackRune p).2
        generalize hp2 : (if ((unpackRune p).1 == 0x5C) = true
            then (unpackRune (unpackRune p).2).2 else (unpackRune p).2) = p2 at hs2 hl2 ⊢
        apply RangeSkipInv_transfer p p2 hs2
        cases p2 with
        | nil => exact ⟨[], skipRun_nil⟩
        | cons b0 p2t =>
          simp only
          by_cases hrange : (b0 == 0x2D && decide ((b0 :: p2t).length > 1) &&
              p2t.head? != some 0x5D) = true
          · have hr' := hrange
            simp only [Bool.and_eq_true, decide_eq_true_eq, bne_iff_ne, ne_eq, beq_iff_eq,
              List.length_cons] at hr'
            obtain ⟨⟨hb0, hlen⟩, hh2⟩ := hr'
            subst hb0
            have hd : unpackRune (0x2D :: p2t) = (0x2D, p2t) := by
              simp [unpackRune, decode_ascii]
            have hs3 : skipRun (0x2D :: p2t) false = skipRun p2t false := by
              rw [skipRun_pass (0x2D :: p2t) (by simp) (by rw [hd]; simp) (by rw [hd]; simp),
                hd]
            have hh3 : (unpackRune p2t).1 ≠ 0x5D := head_ne_of_rune_ne p2t _ (by omega) hh2
            have h3 := unpackRune_length_lt p2t (by omega)
            simp only [hrange, if_true, hd]
            by_cases hret2 : ((unpackRune p2t).1 == 0x5C &&
                !decide ((unpackRune p2t).2.length > 0)) = true
            · simp only [hret2, if_true]
              trivial
            · simp only [hret2, Bool.false_eq_true, if_false]
              have hs5 : skipRun (if ((unpackRune p2t).1 == 0x5C) = true
                  then (unpackRune (unpackRune p2t).2).2 else (unpackRune p2t).2) false
                  = skipRun p2t false := by
                by_cases hb : (unpackRune p2t).1 = 0x5C
                · have hl : (unpackRune p2t).2.length > 0 := by
                    by_contra hl
                    apply hret2
                    simp [hb, hl]
                  simp only [hb, beq_self_eq_true, if_true]
                  exact (skipRun_escape p2t (by omega) hb hl).symm
                · have hb' : ((unpackRune p2t).1 == 0x5C) = false := by simpa using hb
                  simp only [hb', Bool.false_eq_true, if_false]
                  exact (skipRun_pass p2t (by omega) hb hh3).symm
              have hl5 := ite_unpack_length_le ((unpackRune p2t).1 == 0x5C) (unpackRune p2t).2
              simp only [List.length_cons] at hl2
              exact RangeSkipInv_transfer _ _ (hs5.trans hs3.symm) _
                (ih _ _ (by omega))
          · simp only [hrange, Bool.false_eq_true, if_false]
            exact ih _ _ (by omega)
    · simp only [hc]
      rfl

/-- With escaping enabled, a class that matches some rune is one whose skipping loop finds
the closing bracket, and the cursor after it does not depend on the rune. -/
theorem matchRange_esc_true (tl : Nat → Nat) (p : GoString) (c : Nat) (cf : Int)
    (hne : hasFlag cf NoEscape = false) (q : GoString)
    (h : matchRange tl p c cf = Res.ok (true, q)) :
    skipRun (classStart p) false = Res.ok (true, q) := by
  unfold matchRange at h
  split at h
  · cases h
  · have hg := rangeRun_skip_inv_fold tl (hasFlag cf CaseFold)
      (if hasFlag cf CaseFold = true then tl c else c) _ (classStart p) false (le_refl _)
    simp only [hne] at h
    unfold classStart at hg ⊢
    split at h
    · cases h
    · rename_i q1 m1 heq
      rw [heq] at hg
      have hg' : skipRun q1 false = skipRun _ false := hg
      rw [← hg']
      obtain ⟨b2, q2, hq2, _⟩ := skipRun_ok q1.length q1 false (le_refl _)
      rw [hq2] at h ⊢
      simp only [Res.ok.injEq, Prod.mk.injEq, Bool.and_eq_true] at h
      rw [h.1.1, h.2]
    · cases h
    · cases h

/-- With escaping enabled, a class on which `matchRange` panics is one whose skipping loop
finds no closing bracket. -/
theorem matchRange_esc_panic (tl : Nat → Nat) (p : GoString) (c : Nat) (cf : Int)
    (hne : hasFlag cf NoEscape = false) (h : matchRange tl p c cf = Res.panic) :
    ∃ q, skipRun (classStart p) false = Res.ok (false, q) := by
  unfold matchRange at h
  split at h
  · cases h
  · have hg := rangeRun_skip_inv_fold tl (hasFlag cf CaseFold)
      (if hasFlag cf CaseFold = true then tl c else c) _ (classStart p) false (le_refl _)
    simp only [hne] at h
    unfold classStart at hg ⊢
    split at h
    · cases h
    · rename_i q1 m1 heq
      obtain ⟨b2, q2, hq2, _⟩ := skipRun_ok q1.length q1 false (le_refl _)
      rw [hq2] at h
      cases h
    · rename_i heq
      rw [heq] at hg
      exact hg
    · cases h

theorem hasFlag_clear_period_noescape (cf : Int) :
    hasFlag (Int.xor 0 (andInt cf (Int.lnot Period))) NoEscape = hasFlag cf NoEscape :=
  hasFlag_clear_period cf 0 (by decide)

/-- With escaping enabled, a pattern on which `Match` panics for some candidate matches no
candidate. -/
theorem matchRun_esc_panic_no_true (tl : Nat → Nat) :
    ∀ (n : Nat) (cf : Int) (p : GoString), p.length ≤ n → hasFlag cf NoEscape = false →
      ∀ st, matchRun tl cf p st = Res.panic → ∀ st', matchRun tl cf p st' ≠ Res.ok true := by
  intro n
  induction n with
  | zero =>
    intro cf p hn _ st h
    have : p = [] := List.eq_nil_of_length_eq_zero (by omega)
    subst this
    simp [matchRun_nil] at h
  | succ n ih =>
    intro cf p hn hne st h st' h'
    cases p with
    | nil => simp [matchRun_nil] at h
    | cons s0 t =>
      simp only [List.length_cons] at hn
      by_cases h1 : s0 = 0x3F
      · subst h1
        rw [matchRun_question] at h h'
        split at h
        · cases h
        · split at h
          · cases h
          · split at h
            · cases h
            · split at h'
              · cases h'
              · split at h'
                · cases h'
                · split at h'
                  · cases h'
                  · exact ih cf t (by omega) hne _ h _ h'
      by_cases h2 : s0 = 0x2A
      · subst h2
        rw [matchRun_star] at h h'
        split at h
        · cases h
        · split at h'
          · cases h'
          · split at h
            · split at h
              · split at h <;> cases h
              · cases h
            · rename_i q0 q hq
              rw [hq] at h'
              simp only at h'
              have hqs : (q0 :: q) <:+ t := by
                rw [← hq]
                exact List.dropWhile_suffix _
              have hl := hqs.length_le
              simp only [List.length_cons] at hl
              split at h
              · rename_i c2
                rw [if_pos c2] at h'
                split at h
                · cases h
                · split at h'
                  · cases h'
                  · exact ih cf q (by omega) hne _ h _ h'
              · rename_i c2
                rw [if_neg c2] at h'
                obtain ⟨u, hu⟩ := starRun_panic _ _ _ _ (le_refl _) h
                obtain ⟨k, _, hk⟩ := starRun_true _ _ _ _ (le_refl _) h'
                exact ih _ (q0 :: q) (by simp only [List.length_cons]; omega)
                  ((hasFlag_clear_period_noescape cf).trans hne) _ hu _ hk
      by_cases h3 : s0 = 0x5B
      · subst h3
        rw [matchRun_class] at h h'
        split at h
        · cases h
        · split at h
          · cases h
          · split at h'
            · cases h'
            · split at h'
              · cases h'
              · split at h'
                · rename_i p2' heq'
                  have ht' := matchRange_esc_true _ _ _ _ hne _ heq'
                  split at h
                  · rename_i p2 heq
                    have ht := matchRange_esc_true _ _ _ _ hne _ heq
                    rw [ht] at ht'
                    simp only [Res.ok.injEq, Prod.mk.injEq, true_and] at ht'
                    subst ht'
                    have hl := (matchRange_suffix _ _ _ _ _ _ heq).length_le
                    exact ih cf p2 (by omega) hne _ h _ h'
                  · cases h
                  · rename_i heq
                    obtain ⟨q, hq⟩ := matchRange_esc_panic _ _ _ _ hne heq
                    rw [hq] at ht'
                    simp at ht'
                  · cases h
                · cases h'
                · cases h'
                · cases h'
      · have hne' : ∀ c, c < 0x80 → s0 ≠ c → (unpackRune (s0 :: t)).1 ≠ c := by
          intro c hc hs hd
          have := (decode_fst_ascii (s0 :: t) c hc).1 hd
          simp at this
          exact hs this
        rw [matchRun_other tl _ (s0 :: t) _ (by simp) (hne' _ (by omega) h1)
          (hne' _ (by omega) h2) (hne' _ (by omega) h3)] at h h'
        have hlt := unpackRune_length_lt (s0 :: t) (by simp)
        simp only [List.length_cons] at hlt
        have hl2 := (literalRest_suffix cf (s0 :: t)).length_le
        have hP : ∀ st1, matchRun tl cf (literalRest cf (s0 :: t)) st1 = Res.panic → False :=
          fun st1 hh => by
            split at h'
            · cases h'
            · split at h'
              · exact ih cf _ (by omega) hne _ hh _ h'
              · split at h'
                · exact ih cf _ (by omega) hne _ hh _ h'
                · cases h'
        split at h
        · cases h
        · split at h
          · exact hP _ h
          · split at h
            · exact hP _ h
            · cases h

theorem openClass_append_right (a q : GoString) (h : openClass q = true) :
    openClass (a ++ q) = true := by
  induction a with
  | nil => exact h
  | cons b a ih => simp [openClass, ih]

theorem openClass_suffix {q p : GoString} (hs : q <:+ p) (h : openClass q = true) :
    openClass p = true := by
  obtain ⟨a, rfl⟩ := hs
  exact openClass_append_right a q h

theorem openClass_append_close (a q : GoString) :
    openClass (a ++ 0x5D :: q) = openClass q := by
  induction a with
  | nil => simp [openClass]
  | cons b a ih => simp [openClass, ih]

theorem openClass_append_no_open (a q : GoString) (h : 0x5B ∉ a) :
    openClass (a ++ q) = openClass q := by
  induction a with
  | nil => rfl
  | cons b a ih =>
    have hb : b ≠ 0x5B := fun hb => h (by simp [hb])
    have ha : 0x5B ∉ a := fun ha => h (List.mem_cons_of_mem _ ha)
    have hb' : (b == 0x5B) = false := by simpa using hb
    simp [openClass, ih ha, hb']

theorem openClass_dropWhile (t : GoString) :
    openClass (t.dropWhile (fun b => b == 0x2A)) = openClass t := by
  induction t with
  | nil => rfl
  | cons b t ih =>
    by_cases hb : b = 0x2A
    · subst hb
      simp [List.dropWhile, openClass, ih]
    · have hb' : (b == 0x2A) = false := by simpa using hb
      simp [List.dropWhile, hb']

/-- The bytes of the first rune of a string: the rune itself when it is ASCII, else bytes
that are all above the ASCII range. -/
theorem unpack_split (s0 : Nat) (t : GoString) :
    ∃ x, s0 :: t = x ++ (unpackRune (s0 :: t)).2 ∧
      ((x = [(unpackRune (s0 :: t)).1] ∧ (unpackRune (s0 :: t)).1 < 0x80) ∨
        ((∀ b ∈ x, 0x80 ≤ b) ∧ 0x80 ≤ (unpackRune (s0 :: t)).1)) := by
  unfold unpackRune
  rcases decode_shape s0 t with h | h | ⟨h0, hr, hz, s1, u, rfl, h1⟩ |
    ⟨h0, hr, hz, s1, s2, u, rfl, h1, h2⟩ | ⟨h0, hr, hz, s1, s2, s3, u, rfl, h1, h2, h3⟩
  · rw [h.2]
    exact ⟨[s0], by simp, Or.inl ⟨rfl, h.1⟩⟩
  · rw [h.2]
    refine ⟨[s0], by simp, Or.inr ⟨?_, by simp [RuneError]⟩⟩
    intro b hb
    simp only [List.mem_singleton] at hb
    omega
  · rw [hz]
    refine ⟨[s0, s1], by simp, Or.inr ⟨?_, hr⟩⟩
    intro b hb
    simp only [List.mem_cons, List.mem_singleton, List.not_mem_nil, or_false] at hb
    omega
  · rw [hz]
    refine ⟨[s0, s1, s2], by simp, Or.inr ⟨?_, hr⟩⟩
    intro b hb
    simp only [List.mem_cons, List.mem_singleton, List.not_mem_nil, or_false] at hb
    omega
  · rw [hz]
    refine ⟨[s0, s1, s2, s3], by simp, Or.inr ⟨?_, hr⟩⟩
    intro b hb
    simp only [List.mem_cons, List.mem_singleton, List.not_mem_nil, or_false] at hb
    omega

theorem openClass_unpack (s0 : Nat) (t : GoString) (h : (unpackRune (s0 :: t)).1 ≠ 0x5B) :
    openClass (s0 :: t) = openClass (unpackRune (s0 :: t)).2 := by
  obtain ⟨x, hx, hc⟩ := unpack_split s0 t
  have h5 : 0x5B ∉ x := by
    rcases hc with ⟨h1, _⟩ | ⟨h1, _⟩
    · rw [h1]
      simpa using Ne.symm h
    · intro hm
      have := h1 _ hm
      omega
  have := openClass_append_no_open x (unpackRune (s0 :: t)).2 h5
  rw [← hx] at this
  exact this

/-- A successful skipping loop stops right after a closing bracket. -/
theorem skipRun_true_split : ∀ (n : Nat) (p q : GoString), p.length ≤ n →
    skipRun p false = Res.ok (true, q) → ∃ mid, p = mid ++ 0x5D :: q := by
  intro n
  induction n with
  | zero =>
    intro p q hn h
    have : p = [] := List.eq_nil_of_length_eq_zero (by omega)
    subst this
    rw [skipRun_nil] at h
    simp at h
  | succ n ih =>
    intro p q hn h
    cases p with
    | nil =>
      rw [skipRun_nil] at h
      simp at h
    | cons b t =>
      have h1 := unpackRune_length_lt (b :: t) (by simp)
      have h2 := unpackRune_length_le (unpackRune (b :: t)).2
      simp only [List.length_cons] at hn h1
      obtain ⟨x, hx, hxc⟩ := unpack_split b t
      rw [skipRun_eq, skipBody] at h
      simp only [List.length_cons, gt_iff_lt, Nat.zero_lt_succ, decide_True, Bool.not_false,
        Bool.and_self, if_true] at h
      split at h
      · obtain ⟨mid, hm⟩ := ih _ _ (by omega) h
        obtain ⟨y, hy⟩ := unpackRune_suffix (unpackRune (b :: t)).2
        refine ⟨x ++ y ++ mid, ?_⟩
        rw [hx, ← hy, hm]
        simp
      · split at h
        · rename_i hc
          simp only [beq_iff_eq] at hc
          rw [skipRun_eq, skipBody] at h
          simp only [Bool.not_true, Bool.false_and, Bool.false_eq_true, if_false, Res.ok.injEq,
            Prod.mk.injEq, true_and] at h
          refine ⟨[], ?_⟩
          rcases hxc with ⟨h3, _⟩ | ⟨_, h3⟩
          · rw [hx, h3, hc, h]
            simp
          · omega
        · obtain ⟨mid, hm⟩ := ih _ _ (by omega) h
          refine ⟨x ++ mid, ?_⟩
          rw [hx, hm]
          simp

/-- A class that accepts a rune ends with a closing bracket, right before the cursor that
`matchRange` leaves. -/
theorem matchRange_true_split (tl : Nat → Nat) (p : GoString) (c : Nat) (f : Int)
    (q : GoString) (h : matchRange tl p c f = Res.ok (true, q)) :
    ∃ mid, p = mid ++ 0x5D :: q := by
  unfold matchRange at h
  split at h
  · cases h
  · have hg := rangeRun_good tl (hasFlag f NoEscape) (hasFlag f CaseFold)
      (if hasFlag f CaseFold = true then tl c else c) _
      (if (p.head? == some 0x5E || p.head? == some 0x21) = true then p.drop 1 else p) false
      (le_refl _)
    have hl : (if (p.head? == some 0x5E || p.head? == some 0x21) = true then p.drop 1
        else p) <:+ p := by
      split
      · exact List.drop_suffix _ _
      · exact List.suffix_refl _
    simp only at h
    split at h
    · cases h
    · rename_i q1 m1 heq
      rw [heq] at hg
      obtain ⟨a, ha⟩ := List.IsSuffix.trans hg hl
      cases hs : skipRun q1 false with
      | ok r =>
        obtain ⟨b2, q2⟩ := r
        rw [hs] at h
        simp only [Res.ok.injEq, Prod.mk.injEq, Bool.and_eq_true] at h
        obtain ⟨⟨hb, _⟩, hq⟩ := h
        subst hb hq
        obtain ⟨mid, hm⟩ := skipRun_true_split _ _ _ (le_refl _) hs
        refine ⟨a ++ mid, ?_⟩
        rw [← ha, hm]
        simp
      | panic => rw [hs] at h; cases h
      | fuel => rw [hs] at h; cases h
    · cases h
    · cases h

theorem mem_unpack_close (p : GoString) (hh : p.head? ≠ some 0x5D)
    (h : 0x5D ∉ (unpackRune p).2) : 0x5D ∉ p := by
  cases p with
  | nil => simp
  | cons s0 t =>
    intro hm
    rcases (unpack_mem_ascii s0 t 0x5D (by omega)).1 hm with h1 | h1
    · exact head_ne_of_rune_ne _ _ (by omega) hh h1
    · exact h h1

/-- With escaping disabled, the member loop never passes a closing bracket: where it
panics, the class holds none. -/
theorem rangeRun_noesc_panic (tl : Nat → Nat) (cfold : Bool) (test : Nat) :
    ∀ (n : Nat) (p : GoString) (m : Bool), p.length ≤ n →
      rangeRun tl true cfold test p m = Res.panic → 0x5D ∉ p := by
  intro n
  induction n with
  | zero =>
    intro p m hn h
    rw [rangeRun_short _ _ _ _ _ _ (by omega)] at h
    cases h
  | succ n ih =>
    intro p m hn h
    rw [rangeRun_eq, rangeBody] at h
    by_cases hc : (!m && decide (p.length > 1) && p.head? != some 0x5D) = true
    · have hc' := hc
      simp only [Bool.and_eq_true, decide_eq_true_eq, bne_iff_ne, ne_eq] at hc'
      have hp : 1 < p.length := hc'.1.2
      have h1 := unpackRune_length_lt p (by omega)
      simp only [hc, if_true, Bool.not_true, Bool.false_and, Bool.false_eq_true, if_false] at h
      apply mem_unpack_close p hc'.2
      cases hp1 : (unpackRune p).2 with
      | nil => simp
      | cons b0 p2t =>
        rw [hp1] at h h1
        simp only [List.length_cons] at h1
        simp only at h
        by_cases hrange : (b0 == 0x2D && decide ((b0 :: p2t).length > 1) &&
            p2t.head? != some 0x5D) = true
        · have hr' := hrange
          simp only [Bool.and_eq_true, decide_eq_true_eq, bne_iff_ne, ne_eq, beq_iff_eq,
            List.length_cons] at hr'
          obtain ⟨⟨hb0, hlen⟩, hh2⟩ := hr'
          subst hb0
          have hd : unpackRune (0x2D :: p2t) = (0x2D, p2t) := by
            simp [unpackRune, decode_ascii]
          have h3 := unpackRune_length_lt p2t (by omega)
          simp only [hrange, if_true, hd] at h
          have h4 := ih _ _ (by omega) h
          have h5 := mem_unpack_close p2t hh2 h4
          intro hm
          simp only [List.mem_cons] at hm
          rcases hm with hm | hm
          · omega
          · exact h5 hm
        · simp only [hrange, Bool.false_eq_true, if_false] at h
          exact ih _ _ (by simp only [List.length_cons]; omega) h
    · simp only [hc] at h
      cases h

/-- With escaping disabled, a class on which `matchRange` panics holds no closing
bracket. -/
theorem matchRange_noesc_panic (tl : Nat → Nat) (p : GoString) (c : Nat) (cf : Int)
    (hne : hasFlag cf NoEscape = true) (h : matchRange tl p c cf = Res.panic) : 0x5D ∉ p := by
  unfold matchRange at h
  split at h
  · cases h
  · simp only [hne] at h
    split at h
    · cases h
    · rename_i q1 m1 heq
      obtain ⟨b2, q2, hq2, _⟩ := skipRun_ok q1.length q1 false (le_refl _)
      rw [hq2] at h
      cases h
    · rename_i heq
      have h1 := rangeRun_noesc_panic tl _ _ _ _ _ (le_refl _) heq
      by_cases hn : (p.head? == some 0x5E || p.head? == some 0x21) = true
      · rw [if_pos hn] at h1
        cases p with
        | nil => simp
        | cons b t =>
          simp only [List.drop_succ_cons, List.drop_zero] at h1
          simp only [List.head?_cons, Bool.or_eq_true, beq_iff_eq, Option.some.injEq] at hn
          intro hm
          simp only [List.mem_cons] at hm
          rcases hm with hm | hm
          · omega
          · exact h1 hm
      · rw [if_neg hn] at h1
        exact h1
    · cases h

/-- With escaping disabled, a pattern on which `Match` panics holds a `[` with no `]` after
it. -/
theorem matchRun_noesc_panic_open (tl : Nat → Nat) :
    ∀ (n : Nat) (cf : Int) (p : GoString) (st : StrState), p.length ≤ n →
      hasFlag cf NoEscape = true → matchRun tl cf p st = Res.panic → openClass p = true := by
  intro n
  induction n with
  | zero =>
    intro cf p st hn _ h
    have : p = [] := List.eq_nil_of_length_eq_zero (by omega)
    subst this
    simp [matchRun_nil] at h
  | succ n ih =>
    intro cf p st hn hne h
    cases p with
    | nil => simp [matchRun_nil] at h
    | cons s0 t =>
      simp only [List.length_cons] at hn
      by_cases h1 : s0 = 0x3F
      · subst h1
        rw [matchRun_question] at h
        split at h
        · cases h
        · split at h
          · cases h
          · split at h
            · cases h
            · exact openClass_suffix (List.suffix_cons _ _) (ih cf t _ (by omega) hne h)
      by_cases h2 : s0 = 0x2A
      · subst h2
        rw [matchRun_star] at h
        split at h
        · cases h
        · split at h
          · split at h
            · split at h <;> cases h
            · cases h
          · rename_i q0 q hq
            have hqs : (q0 :: q) <:+ t := by
              rw [← hq]
              exact List.dropWhile_suffix _
            have hl := hqs.length_le
            simp only [List.length_cons] at hl
            have hqs2 : (q0 :: q) <:+ 0x2A :: t := hqs.trans (List.suffix_cons _ _)
            split at h
            · split at h
              · cases h
              · exact openClass_suffix ((List.suffix_cons _ _).trans hqs2)
                  (ih cf q _ (by omega) hne h)
            · obtain ⟨u, hu⟩ := starRun_panic _ _ _ _ (le_refl _) h
              exact openClass_suffix hqs2 (ih _ (q0 :: q) _
                (by simp only [List.length_cons]; omega)
                ((hasFlag_clear_period_noescape cf).trans hne) hu)
      by_cases h3 : s0 = 0x5B
      · subst h3
        rw [matchRun_class] at h
        split at h
        · cases h
        · split at h
          · cases h
          · split at h
            · rename_i p2 heq
              have hs := matchRange_suffix _ _ _ _ _ _ heq
              have hl := hs.length_le
              exact openClass_suffix (hs.trans (List.suffix_cons _ _))
                (ih cf p2 _ (by omega) hne h)
            · cases h
            · rename_i heq
              have := matchRange_noesc_panic _ _ _ _ hne heq
              simp [openClass, this]
            · cases h
      · have hne' : ∀ c, c < 0x80 → s0 ≠ c → (unpackRune (s0 :: t)).1 ≠ c := by
          intro c hc hs hd
          have := (decode_fst_ascii (s0 :: t) c hc).1 hd
          simp at this
          exact hs this
        rw [matchRun_other tl _ (s0 :: t) _ (by simp) (hne' _ (by omega) h1)
          (hne' _ (by omega) h2) (hne' _ (by omega) h3)] at h
        have hlt := unpackRune_length_lt (s0 :: t) (by simp)
        simp only [List.length_cons] at hlt
        have hsuf := (literalRest_suffix cf (s0 :: t)).trans (unpackRune_suffix (s0 :: t))
        have hl2 := (literalRest_suffix cf (s0 :: t)).length_le
        split at h
        · cases h
        · split at h
          · exact openClass_suffix hsuf (ih cf _ _ (by omega) hne h)
          · split at h
            · exact openClass_suffix hsuf (ih cf _ _ (by omega) hne h)
            · cases h

/-- With escaping disabled, a pattern that matches some candidate holds no `[` without a
`]` after it. -/
theorem matchRun_noesc_true_closed (tl : Nat → Nat) :
    ∀ (n : Nat) (cf : Int) (p : GoString) (st : StrState), p.length ≤ n →
      hasFlag cf NoEscape = true → matchRun tl cf p st = Res.ok true → openClass p = false := by
  intro n
  induction n with
  | zero =>
    intro cf p st hn _ _
    have : p = [] := List.eq_nil_of_length_eq_zero (by omega)
    subst this
    rfl
  | succ n ih =>
    intro cf p st hn hne h
    cases p with
    | nil => rfl
    | cons s0 t =>
      simp only [List.length_cons] at hn
      by_cases h1 : s0 = 0x3F
      · subst h1
        rw [matchRun_question] at h
        split at h
        · cases h
        · split at h
          · cases h
          · split at h
            · cases h
            · have := ih cf t _ (by omega) hne h
              simp [openClass, this]
      by_cases h2 : s0 = 0x2A
      · subst h2
        rw [matchRun_star] at h
        have hd := openClass_dropWhile t
        have ho : openClass (0x2A :: t) = openClass t := by simp [openClass]
        rw [ho, ← hd]
        split at h
        · cases h
        · split at h
          · rename_i heq
            rw [heq]
            rfl
          · rename_i q0 q hq
            have hqs : (q0 :: q) <:+ t := by
              rw [← hq]
              exact List.dropWhile_suffix _
            have hl := hqs.length_le
            simp only [List.length_cons] at hl
            rw [hq]
            split at h
            · rename_i c2
              split at h
              · cases h
              · have := ih cf q _ (by omega) hne h
                simp only [Bool.and_eq_true, beq_iff_eq] at c2
                rw [c2.1]
                simp [openClass, this]
            · obtain ⟨k, _, hk⟩ := starRun_true _ _ _ _ (le_refl _) h
              exact ih _ (q0 :: q) _ (by simp only [List.length_cons]; omega)
                ((hasFlag_clear_period_noescape cf).trans hne) hk
      by_cases h3 : s0 = 0x5B
      · subst h3
        rw [matchRun_class] at h
        split at h
        · cases h
        · split at h
          · cases h
          · split at h
            · rename_i p2 heq
              have hs := matchRange_suffix _ _ _ _ _ _ heq
              have hl := hs.length_le
              obtain ⟨mid, hm⟩ := matchRange_true_split _ _ _ _ _ heq
              have h4 := ih cf p2 _ (by omega) hne h
              have h5 : openClass t = false := by
                rw [hm, openClass_append_close]
                exact h4
              have h6 : 0x5D ∈ t := by
                rw [hm]
                simp
              simp [openClass, h5, h6]
            · cases h
            · cases h
            · cases h
      · have hne' : ∀ c, c < 0x80 → s0 ≠ c → (unpackRune (s0 :: t)).1 ≠ c := by
          intro c hc hs hd
          have := (decode_fst_ascii (s0 :: t) c hc).1 hd
          simp at this
          exact hs this
        rw [matchRun_other tl _ (s0 :: t) _ (by simp) (hne' _ (by omega) h1)
          (hne' _ (by omega) h2) (hne' _ (by omega) h3)] at h
        have hlt := unpackRune_length_lt (s0 :: t) (by simp)
        simp only [List.length_cons] at hlt
        have hesc : escaped cf (s0 :: t) = false := by simp [escaped, hne]
        have hrest : literalRest cf (s0 :: t) = (unpackRune (s0 :: t)).2 := by
          simp [literalRest, hesc]
        rw [hrest] at h
        rw [openClass_unpack s0 t (hne' _ (by omega) h3)]
        split at h
        · cases h
        · split at h
          · exact ih cf _ _ (by omega) hne h
          · split at h
            · exact ih cf _ _ (by omega) hne h
            · cases h

/-! ## C14: extending the candidate under LeadingDir -/

/-- A pattern on which `Match` panics for some candidate matches no candidate, under every
flag word. -/
theorem matchRun_panic_excl (tl : Nat → Nat) (cf : Int) (p : GoString) (st st' : StrState)
    (h : matchRun tl cf p st = Res.panic) : matchRun tl cf p st' ≠ Res.ok true := by
  cases hne : hasFlag cf NoEscape with
  | false => exact matchRun_esc_panic_no_true tl _ cf p (le_refl _) hne st h st'
  | true =>
    intro h'
    have h1 := matchRun_noesc_panic_open tl _ cf p st (le_refl _) hne h
    have h2 := matchRun_noesc_true_closed tl _ cf p st' (le_refl _) hne h'
    rw [h1] at h2
    cases h2

/-- A pattern that matches some candidate returns a boolean on every candidate. -/
theorem matchRun_total_of_true (tl : Nat → Nat) (cf : Int) (p : GoString) (st' : StrState)
    (h' : matchRun tl cf p st' = Res.ok true) (st : StrState) :
    matchRun tl cf p st = Res.ok true ∨ matchRun tl cf p st = Res.ok false := by
  cases h : matchRun tl cf p st with
  | ok b => cases b <;> simp
  | panic => exact absurd h' (matchRun_panic_excl tl cf p st st' h)
  | fuel => exact absurd h (matchRun_ne_fuel tl _ cf p st (le_refl _))

/-- A string that starts with an ASCII byte, appended to a non-empty string, does not
change its first rune. -/
theorem decode_append_ascii_cons (s0 : Nat) (t : GoString) (b : Nat) (r : GoString)
    (hb : b < 0x80) :
    DecodeRuneInString (s0 :: (t ++ b :: r)) = DecodeRuneInString (s0 :: t) := by
  have ha := acceptLo_ge s0
  have h1 := inRange_ascii_false (acceptLo s0) (acceptHi s0) b ha hb
  have h2 := inRange_ascii_false 0x80 0xBF b (le_refl _) hb
  simp only [DecodeRuneInString]
  have e2 : decode2 s0 (t ++ b :: r) = decode2 s0 t := by
    rcases t with _ | ⟨s1, u⟩
    · simp [decode2, h1]
    · simp [decode2]
  have e3 : decode3 s0 (t ++ b :: r) = decode3 s0 t := by
    rcases t with _ | ⟨s1, _ | ⟨s2, u⟩⟩
    · rcases r with _ | ⟨r0, r1⟩ <;> simp [decode3, h1]
    · simp [decode3, h2]
    · simp [decode3]
  have e4 : decode4 s0 (t ++ b :: r) = decode4 s0 t := by
    rcases t with _ | ⟨s1, _ | ⟨s2, _ | ⟨s3, u⟩⟩⟩
    · rcases r with _ | ⟨r0, _ | ⟨r1, r2⟩⟩ <;> simp [decode4, h1]
    · rcases r with _ | ⟨r0, r1⟩ <;> simp [decode4, h2]
    · simp [decode4, h2]
    · simp [decode4]
  rw [e2, e3, e4]

theorem unpack_append (s : GoString) (b : Nat) (r : GoString) (hs : s ≠ []) (hb : b < 0x80) :
    unpackRune (s ++ b :: r) = ((unpackRune s).1, (unpackRune s).2 ++ b :: r) := by
  cases s with
  | nil => exact absurd rfl hs
  | cons s0 t =>
    have hle := decode_size_le (s0 :: t)
    unfold unpackRune
    rw [List.cons_append, decode_append_ascii_cons s0 t b r hb, ← List.cons_append,
      List.drop_append_of_le_length hle]

theorem unpackStr_extend (st : StrState) (b : Nat) (r : GoString) (hs : st.str ≠ [])
    (hb : b < 0x80) :
    unpackStr (extendStr st (b :: r)) = extendStr (unpackStr st) (b :: r) := by
  simp only [unpackStr, extendStr, unpack_append st.str b r hs hb]

theorem strchrLoop_not_found (c : Nat) (hc : c < 0x80) :
    ∀ (n : Nat) (s : GoString) (i : Nat), s.length ≤ n → c ∉ s → strchrLoop c n s i = -1 := by
  intro n
  induction n with
  | zero =>
    intro s i hn _
    have : s = [] := List.eq_nil_of_length_eq_zero (by omega)
    subst this
    rfl
  | succ n ih =>
    intro s i hn hm
    cases s with
    | nil => rfl
    | cons s0 t =>
      have hlt := unpackRune_length_lt (s0 :: t) (by simp)
      simp only [List.length_cons] at hn hlt
      have hmem := unpack_mem_ascii s0 t c hc
      have h1 : (DecodeRuneInString (s0 :: t)).1 ≠ c := fun h => hm (hmem.2 (Or.inl h))
      have h2 : c ∉ (unpackRune (s0 :: t)).2 := fun h => hm (hmem.2 (Or.inr h))
      simp only [strchrLoop, strchrBody, List.length_cons, Nat.add_one_ne_zero, if_false, h1]
      exact ih _ _ (by simp only [unpackRune] at hlt; omega) h2

theorem strchr_not_found (s : GoString) (c : Nat) (hc : c < 0x80) (hm : c ∉ s) :
    strchr s c = -1 :=
  strchrLoop_not_found c hc s.length s 0 (le_refl _) hm

theorem first_split_unique (c : Nat) : ∀ (pre pre2 r r2 : GoString), c ∉ pre → c ∉ pre2 →
    pre ++ c :: r = pre2 ++ c :: r2 → pre = pre2 := by
  intro pre
  induction pre with
  | nil =>
    intro pre2 r r2 _ h2 h
    cases pre2 with
    | nil => rfl
    | cons b u =>
      simp only [List.nil_append, List.cons_append, List.cons.injEq] at h
      exact absurd (by simp [h.1]) h2
  | cons a pre ih =>
    intro pre2 r r2 h1 h2 h
    cases pre2 with
    | nil =>
      simp only [List.nil_append, List.cons_append, List.cons.injEq] at h
      exact absurd (by simp [h.1]) h1
    | cons b u =>
      simp only [List.cons_append, List.cons.injEq] at h
      rw [h.1, ih u r r2 (fun hm => h1 (List.mem_cons_of_mem _ hm))
        (fun hm => h2 (List.mem_cons_of_mem _ hm)) h.2]

/-- Where `strchr` finds a `/` in a string, it finds the same one after the string is
extended, and the string from there on starts with that `/`. -/
theorem strchr_extend (s x : GoString) (h : strchr s 0x2F ≠ -1) :
    strchr (s ++ x) 0x2F = strchr s 0x2F ∧
      (s ++ x).drop (strchr s 0x2F).toNat = s.drop (strchr s 0x2F).toNat ++ x ∧
      s.drop (strchr s 0x2F).toNat ≠ [] := by
  have hm : 0x2F ∈ s := by
    by_contra hm
    exact h (strchr_not_found s 0x2F (by omega) hm)
  obtain ⟨pre, rest, h1, h2, h3⟩ := strchr_found s 0x2F (by omega) hm
  obtain ⟨pre2, rest2, k1, k2, k3⟩ := strchr_found (s ++ x) 0x2F (by omega)
    (List.mem_append_left _ hm)
  have hu : pre = pre2 := by
    apply first_split_unique 0x2F pre pre2 (rest ++ x) rest2 h2 k2
    rw [← k1, h1]
    simp
  subst hu
  rw [h3, k3]
  refine ⟨rfl, ?_, ?_⟩
  · simp only [Int.toNat_ofNat]
    rw [List.drop_append_of_le_length (by rw [h1]; simp)]
  · simp only [Int.toNat_ofNat]
    rw [h1]
    simp

theorem head_append_cons (s : GoString) (b : Nat) (r : GoString) (hs : s ≠ []) :
    (s ++ b :: r).head? = s.head? := by
  cases s with
  | nil => exact absurd rfl hs
  | cons a u => rfl

/-- The suffix loop on an extended candidate: it succeeds where it did, if the recursive
call succeeds on the extended suffixes and always returns a boolean. -/
theorem starRun_extend (m1 m2 : GoString → Res Bool) (fp : Bool) (b : Nat) (r : GoString)
    (hb : b < 0x80)
    (h12 : ∀ u, u ≠ [] → m1 u = Res.ok true → m2 (u ++ b :: r) = Res.ok true)
    (h2 : ∀ u, m2 u = Res.ok true ∨ m2 u = Res.ok false) :
    ∀ (n : Nat) (s : GoString), s.length ≤ n → starRun m1 fp s = Res.ok true →
      starRun m2 fp (s ++ b :: r) = Res.ok true := by
  intro n
  induction n with
  | zero =>
    intro s hn h
    have : s = [] := List.eq_nil_of_length_eq_zero (by omega)
    subst this
    rw [starRun_eq, starBody] at h
    simp at h
  | succ n ih =>
    intro s hn h
    rw [starRun_eq, starBody] at h
    rw [starRun_eq, starBody]
    split at h
    · rename_i hpos
      have hs : s ≠ [] := by
        intro h0
        rw [h0] at hpos
        simp at hpos
      have hlt := unpackRune_length_lt s hpos
      have hpos2 : (s ++ b :: r).length > 0 := by simp
      rw [if_pos hpos2, head_append_cons s b r hs, unpack_append s b r hs hb]
      split at h
      · rename_i heq
        rw [h12 s hs heq]
      · split at h
        · cases h
        · rename_i hfp
          rcases h2 (s ++ b :: r) with h3 | h3
          · rw [h3]
          · rw [h3]
            simp only [hfp, if_false]
            exact ih _ (by omega) h
      · cases h
      · cases h
    · cases h

/-- Under LeadingDir, a match is kept when the candidate is extended by `/` and any
text. -/
theorem matchRun_extend (tl : Nat → Nat) (x : GoString) :
    ∀ (n : Nat) (cf : Int) (p : GoString) (st : StrState), p.length ≤ n →
      hasFlag cf LeadingDir = true → matchRun tl cf p st = Res.ok true →
      matchRun tl cf p (extendStr st (0x2F :: x)) = Res.ok true := by
  have hnil : ∀ cf st, hasFlag cf LeadingDir = true → matchRun tl cf [] st = Res.ok true →
      matchRun tl cf [] (extendStr st (0x2F :: x)) = Res.ok true := by
    intro cf st hL h
    rw [matchRun_nil] at h
    rw [matchRun_nil]
    cases hs : st.str with
    | nil => simp [extendStr, hs, hL]
    | cons a u =>
      rw [hs] at h
      simpa [extendStr, hs, hL] using h
  intro n
  induction n with
  | zero =>
    intro cf p st hn hL h
    have : p = [] := List.eq_nil_of_length_eq_zero (by omega)
    subst this
    exact hnil cf st hL h
  | succ n ih =>
    intro cf p st hn hL h
    cases p with
    | nil => exact hnil cf st hL h
    | cons s0 t =>
      simp only [List.length_cons] at hn
      have hxs : ∀ (st1 : StrState), st1.str.length ≠ 0 →
          (extendStr st1 (0x2F :: x)).str.length ≠ 0 ∧
          unpackRune (extendStr st1 (0x2F :: x)).str =
            ((unpackRune st1.str).1, (unpackRune st1.str).2 ++ 0x2F :: x) ∧
          (extendStr st1 (0x2F :: x)).str.head? = st1.str.head? ∧
          unpackStr (extendStr st1 (0x2F :: x)) = extendStr (unpackStr st1) (0x2F :: x) := by
        intro st1 h0
        have hs : st1.str ≠ [] := fun h1 => h0 (by rw [h1]; rfl)
        refine ⟨by simp [extendStr], unpack_append _ _ _ hs (by omega),
          head_append_cons _ _ _ hs, unpackStr_extend st1 _ _ hs (by omega)⟩
      by_cases h1 : s0 = 0x3F
      · subst h1
        rw [matchRun_question] at h
        rw [matchRun_question]
        split at h
        · cases h
        · rename_i c1
          obtain ⟨e1, e2, _, e4⟩ := hxs st c1
          rw [if_neg e1, e2, e4]
          split at h
          · cases h
          · rename_i c2
            split at h
            · cases h
            · rename_i c3
              have c3' : ¬ ((unpackRune st.str).1 == 0x2E && hasFlag cf Period &&
                  ((extendStr st (0x2F :: x)).strCurrAtStart ||
                    (hasFlag cf Pathname && (extendStr st (0x2F :: x)).strCurrUnpacked == 0x2F)))
                  = true := c3
              rw [if_neg c2, if_neg c3']
              exact ih cf t _ (by omega) hL h
      by_cases h2 : s0 = 0x2A
      · subst h2
        rw [matchRun_star] at h
        rw [matchRun_star]
        split at h
        · cases h
        · rename_i c1
          have c1' : ¬ ((extendStr st (0x2F :: x)).str.head? == some 0x2E && hasFlag cf Period &&
              ((extendStr st (0x2F :: x)).strCurrAtStart ||
                (hasFlag cf Pathname && (extendStr st (0x2F :: x)).strCurrUnpacked == 0x2F)))
              = true := by
            cases hs : st.str with
            | nil => simp [extendStr, hs]
            | cons a u =>
              rw [hs] at c1
              simpa [extendStr, hs] using c1
          rw [if_neg c1']
          split at h
          · simp [hL]
          · rename_i q0 q hq
            have hqs : (q0 :: q) <:+ t := by
              rw [← hq]
              exact List.dropWhile_suffix _
            have hl := hqs.length_le
            simp only [List.length_cons] at hl
            split at h
            · rename_i c2
              rw [if_pos c2]
              split at h
              · cases h
              · rename_i c3
                obtain ⟨k1, k2, k3⟩ := strchr_extend st.str (0x2F :: x) c3
                have e0 : (extendStr st (0x2F :: x)).str = st.str ++ 0x2F :: x := rfl
                rw [e0, k1, if_neg c3, k2]
                have e5 := unpackStr_extend ⟨st.str.drop (strchr st.str 0x2F).toNat,
                  st.strPrevAtStart, st.strCurrAtStart, st.strPrevUnpacked,
                  st.strCurrUnpacked⟩ 0x2F x k3 (by omega)
                have hgoal := ih cf q _ (by omega) hL h
                rw [← e5] at hgoal
                exact hgoal
            · rename_i c2
              rw [if_neg c2]
              obtain ⟨k, _, hk⟩ := starRun_true _ _ _ _ (le_refl _) h
              have hL2 := (hasFlag_clear_period_leadingdir cf).trans hL
              refine starRun_extend _ _ _ 0x2F x (by omega) ?_ ?_ st.str.length st.str
                (le_refl _) h
              · intro u _ hu
                exact ih _ (q0 :: q) (StrState.init u)
                  (by simp only [List.length_cons]; omega) hL2 hu
              · intro u
                exact matchRun_total_of_true tl _ _ _ hk _
      by_cases h3 : s0 = 0x5B
      · subst h3
        rw [matchRun_class] at h
        rw [matchRun_class]
        split at h
        · cases h
        · rename_i c1
          obtain ⟨e1, e2, e3, e4⟩ := hxs st c1
          rw [if_neg e1, e2, e3, e4]
          split at h
          · cases h
          · rename_i c2
            rw [if_neg c2]
            split at h
            · rename_i p2 heq
              have hl := (matchRange_suffix _ _ _ _ _ _ heq).length_le
              simp only [heq]
              exact ih cf p2 _ (by omega) hL h
            · cases h
            · cases h
            · cases h
      · have hne' : ∀ c, c < 0x80 → s0 ≠ c → (unpackRune (s0 :: t)).1 ≠ c := by
          intro c hc hs hd
          have := (decode_fst_ascii (s0 :: t) c hc).1 hd
          simp at this
          exact hs this
        rw [matchRun_other tl _ (s0 :: t) _ (by simp) (hne' _ (by omega) h1)
          (hne' _ (by omega) h2) (hne' _ (by omega) h3)] at h
        rw [matchRun_other tl _ (s0 :: t) _ (by simp) (hne' _ (by omega) h1)
          (hne' _ (by omega) h2) (hne' _ (by omega) h3)]
        have hlt := unpackRune_length_lt (s0 :: t) (by simp)
        simp only [List.length_cons] at hlt
        have hl2 := (literalRest_suffix cf (s0 :: t)).length_le
        split at h
        · cases h
        · rename_i c1
          obtain ⟨e1, e2, _, e4⟩ := hxs st c1
          rw [if_neg e1, e2, e4]
          split at h
          · rename_i c2
            rw [if_pos c2]
            exact ih cf _ _ (by omega) hL h
          · rename_i c2
            rw [if_neg c2]
            split at h
            · rename_i c3
              rw [if_pos c3]
              exact ih cf _ _ (by omega) hL h
            · cases h

/-- C14: under a flag word with LeadingDir, a candidate `s` that matches the pattern `p`
still matches it after being extended by `/` and any string `t`. -/
theorem Match_leading_dir_extend (toLower : Nat → Nat) (p s t : GoString) (f : Int)
    (hf : hasFlag f LeadingDir = true) (h : Match toLower p s [f] = Res.ok true) :
    Match toLower p (s ++ bytes "/" ++ t) [f] = Res.ok true := by
  rw [Match_one_flag] at h
  rw [Match_one_flag]
  have hb : bytes "/" = [0x2F] := by decide
  have := matchRun_extend toLower t p.length f p (StrState.init s) (le_refl _) hf h
  rw [hb]
  simpa [extendStr, StrState.init] using this

/-- C14 at the pattern `*o`, the candidate `fo` extended by `/é`, under LeadingDir with
Pathname. -/
theorem Match_leading_dir_extend_witness :
    (hasFlag (Int.lor LeadingDir Pathname) LeadingDir = true ∧
      Match asciiLower (bytes "*o") (bytes "fo") [Int.lor LeadingDir Pathname] = Res.ok true) ∧
    Match asciiLower (bytes "*o") (bytes "fo" ++ bytes "/" ++ bytes "é")
      [Int.lor LeadingDir Pathname] = Res.ok true :=
  ⟨by decide, Match_leading_dir_extend asciiLower (bytes "*o") (bytes "fo") (bytes "é")
    (Int.lor LeadingDir Pathname) (by decide) (by decide)⟩

end Fnmatch
